import Mathlib

/-!
Shallow embedding of the incremental capacity-volume engine ("trooper") of
gazed/bampf, src/src/bampf/trooper.go, together with proofs of the spec
claims about it.

Modelling notes, justified against the Go source:

* Counts (`ccnt`, `cmax`) are Go `int`s that the code keeps non-negative
  (`ccnt` is incremented only under `ccnt < cmax`, decremented only under
  `ccnt > 0`, and reset to `0`); they are modelled as `Nat`.  Quantities the
  game computes with possibly negative intermediate values (the level bounds
  `(2(L-1))^3` etc., and the `loss` argument of `detachCores`) are `Int`.
* A cube's eight cell-center offsets are sorted once at construction
  (`edgeSort`/`panelSort`) and never re-sorted; a rendered cell is determined
  by its cube and the index of the offset it was created at
  (`c.centers[c.ccnt-1]` in `cube.addCell`).  Cell visuals are therefore
  modelled as offset indices (`CellVis.cell i`), and the merged single cube
  of a full box as `CellVis.merged`.  The actual float coordinates only
  influence geometry, not the structure the claims are about.
* The engine parts (`vu.Part`) are creation/destruction handles only; the
  model keeps the lists/flags of what exists (`cells`, `slab`, `neo`,
  `center`) and drops positions and materials.
* In `newTrooper` the assignment of a side cube to one of the six panels
  compares `mx*centerOffset` values where `centerOffset > 0`; the comparisons
  are equivalent to comparisons of the integer grid multipliers
  `mx = 2*cx - lvl` etc., which is how `sideIndex` is written here.
* `panel.addCube` always matches exactly one of its three orientation cases
  (each panel center has a strictly dominant coordinate), so it always
  performs `panelSort(..., 4)`; the model appends a cube reset to 4 cells.
* Health monitors are a Go map keyed by string; `healthChanged` invokes every
  registered monitor once.  The model keeps the key list `hms` (insertion
  deduplicated, like map assignment) and a log `hlog` of monitor invocations:
  one entry per (event, registered key).  Energy monitors are modelled the
  same way (`ems`, `elog`).
* `trooper.reset` reads `tr.ipos[cnt]` for every box; at level 0 `newTrooper`
  returns before `ipos` is filled, so the read panics (index out of range).
  `Trooper.reset` returns `none` in exactly that situation.
-/

namespace Bampf

/-- A visual belonging to a cube: an individual cell created at sorted offset
index `i`, or the single merged cube of a full box. -/
inductive CellVis where
  | cell (i : Nat)
  | merged
deriving DecidableEq, Repr

/-- State of `cube` (trooper.go): current count, capacity (always 8 in the
game), and the list of currently rendered visuals in creation order. -/
structure Cube where
  ccnt : Nat
  cmax : Nat
  cells : List CellVis
deriving DecidableEq, Repr

/-- cube.addCell: renders a new cell at offset index `ccnt-1` (the count has
already been incremented by `cbox.attach` when `addc` runs). -/
def Cube.addCell (c : Cube) : Cube :=
  { c with cells := c.cells ++ [CellVis.cell (c.ccnt - 1)] }

/-- cube.removeCell: destroys the most recently created cell. -/
def Cube.removeCell (c : Cube) : Cube :=
  { c with cells := c.cells.dropLast }

/-- cube.trash: destroys all visuals (the count is left alone, exactly as in
the source, where callers fix the count up afterwards). -/
def Cube.trashVis (c : Cube) : Cube :=
  { c with cells := [] }

/-- cube.merge: destroys the individual cells and renders one merged cube. -/
def Cube.mergeVis (c : Cube) : Cube :=
  { c with cells := [CellVis.merged] }

/-- Number of loop iterations cbox.reset performs for a requested count:
capped at `cmax` above, and a negative request runs the loop zero times. -/
def clampN (k : Int) (m : Nat) : Nat :=
  (if k > (m : Int) then (m : Int) else k).toNat

/-- cbox.attach specialised to a cube (`mergec`/`addc` are cube.merge and
cube.addCell).  The Go guard `c.ccnt >= 0 && c.ccnt < c.cmax` loses its first
conjunct over `Nat`.  Returns the new cube and whether a cell was added. -/
def Cube.attach (c : Cube) : Cube × Bool :=
  if c.ccnt < c.cmax then
    if c.ccnt + 1 = c.cmax then ({ c with ccnt := c.ccnt + 1 }.mergeVis, true)
    else ({ c with ccnt := c.ccnt + 1 }.addCell, true)
  else (c, false)

/-- Attach `n` times in a row (the loop inside cbox.reset). -/
def Cube.attachN : Cube → Nat → Cube
  | c, 0 => c
  | c, n + 1 => Cube.attachN (c.attach).1 n

/-- cbox.reset specialised to a cube: trash, zero the count, then attach
`cellCount` times (clamped above by `cmax`; a negative argument runs the
loop zero times). -/
def Cube.reset (c : Cube) (cellCount : Int) : Cube :=
  Cube.attachN { c with ccnt := 0, cells := [] } (clampN cellCount c.cmax)

/-- cbox.detach specialised to a cube: a full cube is rebuilt to `cmax - 1`
cells, otherwise the last cell is removed and the count decremented. -/
def Cube.detach (c : Cube) : Cube × Bool :=
  if 0 < c.ccnt ∧ c.ccnt ≤ c.cmax then
    if c.ccnt = c.cmax then (c.reset ((c.cmax : Int) - 1), true)
    else ({ c.removeCell with ccnt := c.ccnt - 1 }, true)
  else (c, false)

/-- newCube followed by edgeSort/panelSort with the given start count:
a fresh cube (`ccnt = 0`, `cmax = 8`, nothing rendered) reset to
`startCount` cells. -/
def newCube (startCount : Int) : Cube :=
  Cube.reset { ccnt := 0, cmax := 8, cells := [] } startCount

/-- State of `panel` (trooper.go): its own count mirror, capacity
`(level-1)^2 * 8`, the level (used only to scale the slab), the owned child
cubes, and whether the merged slab is rendered. -/
structure Panel where
  ccnt : Nat
  cmax : Nat
  lvl : Nat
  cubes : List Cube
  slab : Bool
deriving DecidableEq, Repr

/-- Inner loop of panel.addCell: attach to the first child cube whose count
is at most `addeven`; `none` if there is no such cube. -/
def Panel.addCellCubes : List Cube → Nat → Option (List Cube)
  | [], _ => none
  | c :: rest, addeven =>
    if c.ccnt ≤ addeven then some ((c.attach).1 :: rest)
    else (Panel.addCellCubes rest addeven).map (c :: ·)

/-- Outer loop of panel.addCell: try `addeven = ae, ae+1, ...` for `fuel`
iterations (the Go loop runs `addeven` from 0 while `addeven <
p.cubes[0].cmax`).  Falls through unchanged, like the logged Go path, if no
cube ever qualifies. -/
def Panel.addCellAux (cs : List Cube) (ae : Nat) : Nat → List Cube
  | 0 => cs
  | fuel + 1 =>
    match Panel.addCellCubes cs ae with
    | some cs' => cs'
    | none => Panel.addCellAux cs (ae + 1) fuel

/-- panel.addCell: spread new cells evenly over the child cubes.  The Go code
reads `p.cubes[0].cmax` as the loop bound and would panic on an empty cube
list; that call site is unreachable (an empty panel has `cmax = 0` and never
accepts an attach), and the model returns the panel unchanged there. -/
def Panel.addCell (p : Panel) : Panel :=
  match p.cubes with
  | [] => p
  | c0 :: _ => { p with cubes := Panel.addCellAux p.cubes 0 c0.cmax }

/-- panel.removeCell: detach from the first child cube that has a cell.
If none does, the Go code just logs; the model leaves the cubes alone. -/
def Panel.removeCellCubes : List Cube → Option (List Cube)
  | [] => none
  | c :: rest =>
    match c.detach with
    | (c', true) => some (c' :: rest)
    | (_, false) => (Panel.removeCellCubes rest).map (c :: ·)

/-- panel.removeCell on the panel state. -/
def Panel.removeCell (p : Panel) : Panel :=
  { p with cubes := (Panel.removeCellCubes p.cubes).getD p.cubes }

/-- panel.trash: destroy the slab if any and reset every child cube to zero
cells (counts of the panel itself are the callers' business, as in Go). -/
def Panel.trashVis (p : Panel) : Panel :=
  { p with slab := false, cubes := p.cubes.map (fun c => c.reset 0) }

/-- panel.merge: trash the child cubes and render the single slab. -/
def Panel.mergeVis (p : Panel) : Panel :=
  { p.trashVis with slab := true }

/-- cbox.attach specialised to a panel. -/
def Panel.attach (p : Panel) : Panel × Bool :=
  if p.ccnt < p.cmax then
    if p.ccnt + 1 = p.cmax then ({ p with ccnt := p.ccnt + 1 }.mergeVis, true)
    else ({ p with ccnt := p.ccnt + 1 }.addCell, true)
  else (p, false)

/-- Attach `n` times in a row (the loop inside cbox.reset). -/
def Panel.attachN : Panel → Nat → Panel
  | p, 0 => p
  | p, n + 1 => Panel.attachN (p.attach).1 n

/-- cbox.reset specialised to a panel. -/
def Panel.reset (p : Panel) (cellCount : Int) : Panel :=
  Panel.attachN { p.trashVis with ccnt := 0 } (clampN cellCount p.cmax)

/-- cbox.detach specialised to a panel. -/
def Panel.detach (p : Panel) : Panel × Bool :=
  if 0 < p.ccnt ∧ p.ccnt ≤ p.cmax then
    if p.ccnt = p.cmax then (p.reset ((p.cmax : Int) - 1), true)
    else ({ p.removeCell with ccnt := p.ccnt - 1 }, true)
  else (p, false)

/-- The `box` interface: a trooper bit is either a cube or a panel. -/
inductive Box where
  | cube (c : Cube)
  | panel (p : Panel)
deriving DecidableEq, Repr

/-- Current count of a box (`b.box().ccnt`). -/
def Box.ccnt : Box → Nat
  | .cube c => c.ccnt
  | .panel p => p.ccnt

/-- Capacity of a box (`b.box().cmax`). -/
def Box.cmax : Box → Nat
  | .cube c => c.cmax
  | .panel p => p.cmax

/-- Polymorphic attach. -/
def Box.attach : Box → Box × Bool
  | .cube c => (Box.cube (c.attach).1, (c.attach).2)
  | .panel p => (Box.panel (p.attach).1, (p.attach).2)

/-- Polymorphic detach. -/
def Box.detach : Box → Box × Bool
  | .cube c => (Box.cube (c.detach).1, (c.detach).2)
  | .panel p => (Box.panel (p.detach).1, (p.detach).2)

/-- Polymorphic reset. -/
def Box.reset : Box → Int → Box
  | .cube c, n => Box.cube (c.reset n)
  | .panel p, n => Box.panel (p.reset n)

/-- Polymorphic trash. -/
def Box.trashVis : Box → Box
  | .cube c => Box.cube c.trashVis
  | .panel p => Box.panel p.trashVis

/-- Integer grid multiplier used in the newTrooper loop: `mx` starts at
`-lvl` and advances by 2 per step, so position `cx` has `mx = 2*cx - lvl`. -/
def mcoord (L cx : Nat) : Int := 2 * (cx : Int) - (L : Int)

/-- Which panel (0..5, in the construction order +x,-x,+y,-y,+z,-z) a side
cube at grid position `(cx,cy,cz)` is added to; `none` if no case of the Go
if/else chain matches (never happens for an actual side position). -/
def sideIndex (L cx cy cz : Nat) : Option Nat :=
  let x := mcoord L cx
  let y := mcoord L cy
  let z := mcoord L cz
  if cx = L ∧ x > y ∧ x > z then some 0
  else if cx = 0 ∧ x < y ∧ x < z then some 1
  else if cy = L ∧ y > x ∧ y > z then some 2
  else if cy = 0 ∧ y < x ∧ y < z then some 3
  else if cz = L ∧ z > x ∧ z > y then some 4
  else if cz = 0 ∧ z < x ∧ z < y then some 5
  else none

/-- Is a grid coordinate on the boundary (`cx == 0 || cx == tr.lvl`)? -/
def extremal (L v : Nat) : Bool := v == 0 || v == L

/-- Classification of one grid position by the newTrooper loop: corner cube
(1 start cell), edge cube (2 start cells), side cube feeding panel `i`
(4 start cells), or nothing. -/
inductive PosKind where
  | corner
  | edge
  | side (i : Nat)
  | interior
deriving DecidableEq, Repr

/-- The if/else chain of the newTrooper loop body. -/
def posKind (L cx cy cz : Nat) : PosKind :=
  if extremal L cx && extremal L cy && extremal L cz then .corner
  else if (extremal L cx && extremal L cy) || (extremal L cx && extremal L cz)
      || (extremal L cy && extremal L cz) then .edge
  else if extremal L cx || extremal L cy || extremal L cz then
    match sideIndex L cx cy cz with
    | some i => .side i
    | none => .interior
  else .interior

/-- All grid positions of the construction loop, in loop order
(`cx` outermost, `cz` innermost, each running 0..L). -/
def gridPositions (L : Nat) : List (Nat × Nat × Nat) :=
  (List.range (L + 1)).flatMap fun cx =>
    (List.range (L + 1)).flatMap fun cy =>
      (List.range (L + 1)).map fun cz => (cx, cy, cz)

/-- Indicator of a grid position being a side cube assigned to panel `i`. -/
def sideIndicator (L i x y z : Nat) : Nat :=
  if posKind L x y z = PosKind.side i then 1 else 0

/-- Number of side cubes the construction adds to panel `i`. -/
def sideCount (L i : Nat) : Nat :=
  ((gridPositions L).map fun q => sideIndicator L i q.1 q.2.1 q.2.2).sum

/-- Weight of a grid position that contributes `a` per corner cube and `b`
per edge cube (used to sum capacities and initial counts over the grid). -/
def cornerEdgeWeight (a b L x y z : Nat) : Nat :=
  match posKind L x y z with
  | .corner => a
  | .edge => b
  | _ => 0

/-- Panel `i` as built by newPanel plus its addCube calls: every added side
cube is identical (`panelSort(.., 4)` makes a cube with 4 cells), so the
child list is `sideCount L i` copies of it, and the panel count grew by 4
per cube. -/
def buildPanel (L i : Nat) : Panel :=
  { ccnt := 4 * sideCount L i
    cmax := (L - 1) * (L - 1) * 8
    lvl := L
    cubes := List.replicate (sideCount L i) (newCube 4)
    slab := false }

/-- The corner and edge cubes appended to `tr.bits` by the construction
loop, in loop order. -/
def edgeCornerCubes (L : Nat) : List Box :=
  (gridPositions L).filterMap fun q =>
    match posKind L q.1 q.2.1 q.2.2 with
    | .corner => some (Box.cube (newCube 1))
    | .edge => some (Box.cube (newCube 2))
    | _ => none

/-- tr.bits as assembled by newTrooper: the level-0 special case is a single
corner-sorted cube; otherwise the six panels followed by the loop cubes. -/
def buildBits (L : Nat) : List Box :=
  if L = 0 then [Box.cube (newCube 1)]
  else
    [Box.panel (buildPanel L 0), Box.panel (buildPanel L 1),
     Box.panel (buildPanel L 2), Box.panel (buildPanel L 3),
     Box.panel (buildPanel L 4), Box.panel (buildPanel L 5)]
    ++ edgeCornerCubes L

/-- State of `trooper` (trooper.go).  `hms`/`ems` are the monitor-map key
sets; `hlog`/`elog` record monitor invocations (one entry per event and
registered key, appended in registration order). -/
structure Trooper where
  lvl : Nat
  bits : List Box
  ipos : List Nat
  neo : Bool
  center : Bool
  mid : Int
  cloaked : Bool
  cloakEnergy : Int
  cemax : Int
  teleportEnergy : Int
  temax : Int
  hms : List String
  hlog : List String
  ems : List String
  elog : List String
deriving DecidableEq, Repr

/-- newTrooper for a given level. -/
def mkTrooper (L : Nat) : Trooper :=
  let bits := buildBits L
  { lvl := L
    bits := bits
    ipos := if L = 0 then [] else bits.map Box.ccnt
    neo := false
    center := decide (0 < L)
    mid := (L : Int) ^ 3 * 8 - ((L : Int) - 1) ^ 3 * 8
    cloaked := false
    cloakEnergy := 0
    cemax := 1000
    teleportEnergy := 0
    temax := 1000
    hms := []
    hlog := []
    ems := []
    elog := [] }

/-- Summed cell count over all bits: the `health` accumulation loop. -/
def Trooper.healthSum (t : Trooper) : Nat :=
  (t.bits.map Box.ccnt).sum

/-- trooper.health: `(health, mid - min, max - min)` with
`min, mid, max = ((lvl-1)*2)^3, (lvl*2)^3, ((lvl+1)*2)^3` over Go ints. -/
def Trooper.health (t : Trooper) : Nat × Int × Int :=
  let l0 : Int := ((t.lvl : Int) - 1) * 2
  let l1 : Int := (t.lvl : Int) * 2
  let l2 : Int := ((t.lvl : Int) + 1) * 2
  (t.healthSum, l1 ^ 3 - l0 ^ 3, l2 ^ 3 - l0 ^ 3)

/-- The third component of `health()` as a function of the level:
`max - min = (2(L+1))^3 - (2(L-1))^3`. -/
def hmax (L : Nat) : Int :=
  (((L : Int) + 1) * 2) ^ 3 - (((L : Int) - 1) * 2) ^ 3

/-- The second component of `health()` as a function of the level:
`mid - min = (2L)^3 - (2(L-1))^3`. -/
def hmid (L : Nat) : Int :=
  ((L : Int) * 2) ^ 3 - (((L : Int) - 1) * 2) ^ 3

/-- trooper.healthChanged: notify every registered health monitor once. -/
def Trooper.healthChanged (t : Trooper) : Trooper :=
  { t with hlog := t.hlog ++ t.hms }

/-- trooper.energyChanged: notify every registered energy monitor once. -/
def Trooper.energyChanged (t : Trooper) : Trooper :=
  { t with elog := t.elog ++ t.ems }

/-- trooper.trash: trash every box, remove the center and the neo piece. -/
def Trooper.trashAll (t : Trooper) : Trooper :=
  { t with bits := t.bits.map Box.trashVis, center := false, neo := false }

/-- trooper.addCenter: the center piece exists only above level 0. -/
def Trooper.addCenter (t : Trooper) : Trooper :=
  if 0 < t.lvl then { t with center := true } else t

/-- trooper.merge: collapse to the single neo cube (plus center piece). -/
def Trooper.mergeAll (t : Trooper) : Trooper :=
  ({ t.trashAll with neo := true }).addCenter

/-- The bits after trooper.demerge: every box reset to its capacity, then
one cell detached from the first box (Go would panic on empty bits, which
cannot happen; the model leaves the empty list alone). -/
def demergeBits (bs : List Box) : List Box :=
  match bs.map (fun b => b.reset (b.cmax : Int)) with
  | [] => []
  | b :: rest => (b.detach).1 :: rest

/-- trooper.demerge: trash, rebuild the center, reset every box to full,
then detach one cell from `tr.bits[0]`. -/
def Trooper.demerge (t : Trooper) : Trooper :=
  { t.trashAll.addCenter with bits := demergeBits (t.trashAll.addCenter).bits }

/-- First-success scan of trooper.attach over the bits. -/
def attachBits : List Box → Option (List Box)
  | [] => none
  | b :: rest =>
    match b.attach with
    | (b', true) => some (b' :: rest)
    | (_, false) => (attachBits rest).map (b :: ·)

/-- First-success scan of trooper.detach over the bits. -/
def detachBits : List Box → Option (List Box)
  | [] => none
  | b :: rest =>
    match b.detach with
    | (b', true) => some (b' :: rest)
    | (_, false) => (detachBits rest).map (b :: ·)

/-- trooper.attach: give one cell to the first box that takes it, merge the
whole volume if that brought health to max with no neo yet, then notify.
If no box accepts, nothing at all happens (no notification). -/
def Trooper.attach (t : Trooper) : Trooper :=
  match attachBits t.bits with
  | none => t
  | some bits' =>
    if ((Trooper.health { t with bits := bits' }).1 : Int)
          = (Trooper.health { t with bits := bits' }).2.2
        ∧ ({ t with bits := bits' } : Trooper).neo = false
    then (Trooper.mergeAll { t with bits := bits' }).healthChanged
    else Trooper.healthChanged { t with bits := bits' }

/-- trooper.detach: demerge if fully merged, otherwise take one cell from the
first box that gives one; notify unless nothing happened. -/
def Trooper.detach (t : Trooper) : Trooper :=
  if t.neo then t.demerge.healthChanged
  else
    match detachBits t.bits with
    | some bits' => Trooper.healthChanged { t with bits := bits' }
    | none => t

/-- Loop body of trooper.detachCores: demerge counts as one iteration; an
iteration that finds no box to detach from changes nothing. -/
def Trooper.detachLoop : Trooper → Nat → Trooper
  | t, 0 => t
  | t, n + 1 =>
    if t.neo then Trooper.detachLoop t.demerge n
    else Trooper.detachLoop { t with bits := (detachBits t.bits).getD t.bits } n

/-- trooper.detachCores: remove `loss` cells (clamped to the current health),
with a single monitor notification at the end; `loss <= 0` does nothing. -/
def Trooper.detachCores (t : Trooper) (loss : Int) : Trooper :=
  if loss ≤ 0 then t
  else
    (Trooper.detachLoop t
      (if loss > (t.healthSum : Int) then (t.healthSum : Int) else loss).toNat
      ).healthChanged

/-- trooper.reset: trash everything, rebuild the center, reset every box to
its initial count, notify.  Reading `tr.ipos[cnt]` panics when `ipos` is
shorter than `bits` (exactly the level-0 trooper, whose construction returns
before filling `ipos`): that is the `none` case. -/
def Trooper.reset (t : Trooper) : Option Trooper :=
  if t.bits.length ≤ t.ipos.length then
    some (Trooper.healthChanged
      { t.trashAll.addCenter with
        bits := ((t.trashAll.addCenter).bits.zip t.ipos).map
          fun q => q.1.reset (q.2 : Int) })
  else none

/-- trooper.addCloakEnergy: add 100, clamped to the maximum. -/
def Trooper.addCloakEnergy (t : Trooper) : Trooper :=
  Trooper.energyChanged
    { t with cloakEnergy :=
        if t.cloakEnergy + 100 > t.cemax then t.cemax else t.cloakEnergy + 100 }

/-- trooper.cloak: engage only with positive cloak energy; disengage always
(sound effects are not modelled). -/
def Trooper.cloak (t : Trooper) (useCloak : Bool) : Trooper :=
  if useCloak ∧ t.cloakEnergy > 0 then { t with cloaked := true }
  else if useCloak = false then { t with cloaked := false }
  else t

/-- trooper.teleport: all or nothing — succeeds only with a full meter,
consuming all of it. -/
def Trooper.teleport (t : Trooper) : Trooper × Bool :=
  if t.teleportEnergy ≥ t.temax then
    (Trooper.energyChanged { t with teleportEnergy := 0 }, true)
  else (t, false)

/-- Teleport-energy half of trooper.updateEnergy: regenerate by 1 toward max. -/
def Trooper.tickTeleport (t : Trooper) : Trooper :=
  if t.teleportEnergy < t.temax then
    { t with teleportEnergy := t.teleportEnergy + 1 }
  else t

/-- Cloak half of trooper.updateEnergy: burn 4 cloak energy, clamping at zero
and switching the cloak off there. -/
def Trooper.tickCloak (t : Trooper) : Trooper :=
  if t.cloakEnergy - 4 ≤ 0 then ({ t with cloakEnergy := 0 }).cloak false
  else { t with cloakEnergy := t.cloakEnergy - 4 }

/-- trooper.updateEnergy: teleport energy regenerates by 1 toward max; an
active cloak burns 4 per tick and switches off at zero; monitors are
notified when anything changed (always, when cloaked). -/
def Trooper.updateEnergy (t : Trooper) : Trooper :=
  if t.cloaked then ((t.tickTeleport).tickCloak).energyChanged
  else if t.teleportEnergy < t.temax then (t.tickTeleport).energyChanged
  else t

/-- trooper.resetEnergy. -/
def Trooper.resetEnergy (t : Trooper) : Trooper :=
  { t with teleportEnergy := t.temax, cloakEnergy := 1000 }

/-- trooper.monitorHealth: map assignment, so re-registration of a key
replaces rather than duplicates. -/
def Trooper.monitorHealth (t : Trooper) (id : String) : Trooper :=
  if id ∈ t.hms then t else { t with hms := t.hms ++ [id] }

/-- trooper.ignoreHealth. -/
def Trooper.ignoreHealth (t : Trooper) (id : String) : Trooper :=
  { t with hms := t.hms.filter (· ≠ id) }

/-- increaseCloak (level.go debug hook): adds ten maxima of cloak energy
without clamping — the one way energy fields escape their bounds. -/
def Trooper.increaseCloak (t : Trooper) : Trooper :=
  { t with cloakEnergy := t.cloakEnergy + t.cemax * 10 }

/-- The operations the game drivers perform on a trooper. -/
inductive Op where
  | attach
  | detach
  | detachCores (loss : Int)
  | reset
  | teleport
  | updateEnergy
  | resetEnergy
  | addCloakEnergy
  | cloak (b : Bool)
  | increaseCloak
  | monitorHealth (id : String)
  | ignoreHealth (id : String)
deriving DecidableEq, Repr

/-- One operation; `none` models a Go panic (only `reset` at level 0). -/
def applyOp (t : Trooper) : Op → Option Trooper
  | .attach => some t.attach
  | .detach => some t.detach
  | .detachCores loss => some (t.detachCores loss)
  | .reset => t.reset
  | .teleport => some (t.teleport).1
  | .updateEnergy => some t.updateEnergy
  | .resetEnergy => some t.resetEnergy
  | .addCloakEnergy => some t.addCloakEnergy
  | .cloak b => some (t.cloak b)
  | .increaseCloak => some t.increaseCloak
  | .monitorHealth id => some (t.monitorHealth id)
  | .ignoreHealth id => some (t.ignoreHealth id)

/-- Run a list of operations. -/
def runOps (t : Trooper) : List Op → Option Trooper
  | [] => some t
  | op :: rest =>
    match applyOp t op with
    | some t' => runOps t' rest
    | none => none

/-- A trooper state the game can actually put a level-`L` trooper into. -/
def Reachable (L : Nat) (t : Trooper) : Prop :=
  ∃ ops : List Op, runOps (mkTrooper L) ops = some t

/-- Attach/detach calls only (the sequences claims C1 and C2 range over). -/
inductive ADOp where
  | attach
  | detach
deriving DecidableEq, Repr

/-- Run a list of attach/detach calls (these never panic). -/
def runAD (t : Trooper) : List ADOp → Trooper
  | [] => t
  | .attach :: rest => runAD t.attach rest
  | .detach :: rest => runAD t.detach rest

/-! ### Derived notions used to state and prove the claims -/

/-- The visuals of a cube holding `n` cells that were built purely by the
cbox attach path: offsets 0..n-1 in sorted order, or the merged cube at 8. -/
def cellsFor (n : Nat) : List CellVis :=
  if n = 8 then [CellVis.merged] else (List.range n).map CellVis.cell

/-- The canonical game cube holding `n` cells. -/
def cubeAt (n : Nat) : Cube :=
  { ccnt := n, cmax := 8, cells := cellsFor n }

/-- Well-formed cube: a game cube is always canonical for its count. -/
def Cube.wf (c : Cube) : Prop :=
  c.ccnt ≤ 8 ∧ c = cubeAt c.ccnt

instance (c : Cube) : Decidable c.wf := by unfold Cube.wf; infer_instance

/-- Well-formed panel: capacity is eight per child cube, children are
well-formed, the slab substitutes for exactly a full complement of child
cells, and otherwise the panel count mirrors the summed child count. -/
def Panel.wf (p : Panel) : Prop :=
  p.cmax = 8 * p.cubes.length ∧ (∀ c ∈ p.cubes, c.wf) ∧
  (p.slab = true → p.ccnt = p.cmax ∧ 0 < p.cmax ∧ ∀ c ∈ p.cubes, c.ccnt = 0) ∧
  (p.slab = false → p.ccnt = (p.cubes.map Cube.ccnt).sum)

instance (p : Panel) : Decidable p.wf := by unfold Panel.wf; infer_instance

/-- Well-formed box. -/
def Box.wf : Box → Prop
  | .cube c => c.wf
  | .panel p => p.wf

instance (b : Box) : Decidable b.wf := by cases b <;> unfold Box.wf <;> infer_instance

/-- Structural part of well-formedness that survives trooper.trash: enough
for cbox.reset to rebuild a well-formed box. -/
def Box.preWf : Box → Prop
  | .cube c => c.cmax = 8
  | .panel p => p.cmax = 8 * p.cubes.length ∧ ∀ c ∈ p.cubes, c.cmax = 8

/-- The state of a full box right after trooper.trash (the box states of the
merged/neo trooper): count still at capacity, no visuals. -/
def Box.trashedFull : Box → Prop
  | .cube c => c.cmax = 8 ∧ c.ccnt = 8 ∧ c.cells = []
  | .panel p =>
      p.cmax = 8 * p.cubes.length ∧ p.ccnt = p.cmax ∧ p.slab = false ∧
      ∀ c ∈ p.cubes, c = cubeAt 0

instance (b : Box) : Decidable b.trashedFull := by
  cases b <;> unfold Box.trashedFull <;> infer_instance

/-- A panel freshly trashed and zeroed: the state cbox.reset puts a panel in
before running its refill loop. -/
def wipedPanel (p : Panel) : Panel :=
  { ccnt := 0, cmax := p.cmax, lvl := p.lvl,
    cubes := p.cubes.map (fun c => c.reset 0), slab := false }

/-- Summed cell count of a list of boxes. -/
def sumC (bs : List Box) : Nat := (bs.map Box.ccnt).sum

/-- Summed capacity of a list of boxes. -/
def sumCap (bs : List Box) : Nat := (bs.map Box.cmax).sum

/-- Total capacity of the constructed volume: 8 for the level-0 single cube,
otherwise `48L^2 + 16` (which equals `hmax L`). -/
def capSumNat (L : Nat) : Nat := if L = 0 then 8 else 48 * L ^ 2 + 16

/-- Summed entry count of the constructed volume for levels at least 1:
`8 + 24(L-1) + 24(L-1)^2 = 8L^3 - 8(L-1)^3`. -/
def midSumNat (L : Nat) : Nat := 24 * L ^ 2 - 24 * L + 8

/-- Capacity of `tr.bits[0]` in the constructed volume: the level-0 cube, or
the first panel (which holds `8(L-1)^2` cells and is empty at level 1). -/
def headCap (L : Nat) : Nat := if L = 0 then 8 else (L - 1) * (L - 1) * 8

/-- The bits of a trooper all of whose cells have been detached. -/
def emptyBits (L : Nat) : List Box :=
  (buildBits L).map fun b => b.reset 0

/-- A trooper in the empty state (health 0): every box detached down to
nothing.  This is the start state of the claim-C2 round trip. -/
def emptyTrooper (L : Nat) : Trooper :=
  { mkTrooper L with bits := emptyBits L }

/-- The state invariant of a constructed trooper, preserved by every
operation of the game.  The second conjunct pins the box skeleton (kinds,
capacities, child-cube layout) to the constructed one. -/
def Inv (t : Trooper) : Prop :=
  (t.neo = true → ∀ b ∈ t.bits, b.trashedFull) ∧
  (t.neo = false → ∀ b ∈ t.bits, b.wf) ∧
  t.bits.map (fun b => b.reset 0) = emptyBits t.lvl ∧
  t.ipos = (mkTrooper t.lvl).ipos ∧
  t.center = decide (0 < t.lvl) ∧
  (t.lvl = 0 → t.neo = false) ∧
  (t.lvl ≠ 1 → (t.healthSum : Int) = hmax t.lvl → t.neo = true) ∧
  t.teleportEnergy ≤ t.temax ∧
  t.temax = 1000 ∧
  t.hms.Nodup

instance (t : Trooper) : Decidable (Inv t) := by unfold Inv; infer_instance

/-- A box carries no individual cell visuals (its cubes render nothing and,
for a panel, the slab is also gone). -/
def Box.noVisuals : Box → Prop
  | .cube c => c.cells = []
  | .panel p => p.slab = false ∧ ∀ c ∈ p.cubes, c.cells = []

/-! ### Concrete states used as witnesses -/

/-- A level-1 trooper at full health, just merged: the eight corner cubes
full and trashed behind the neo cube. -/
def fullNeoL1 : Trooper :=
  { mkTrooper 1 with
    bits :=
      [Box.panel (buildPanel 1 0), Box.panel (buildPanel 1 1),
       Box.panel (buildPanel 1 2), Box.panel (buildPanel 1 3),
       Box.panel (buildPanel 1 4), Box.panel (buildPanel 1 5)]
      ++ List.replicate 8 (Box.cube { ccnt := 8, cmax := 8, cells := [] })
    neo := true
    center := true }

/-- A level-1 trooper one cell below full health: seven full corner cubes
and one at seven cells. -/
def almostFullL1 : Trooper :=
  { mkTrooper 1 with
    bits :=
      [Box.panel (buildPanel 1 0), Box.panel (buildPanel 1 1),
       Box.panel (buildPanel 1 2), Box.panel (buildPanel 1 3),
       Box.panel (buildPanel 1 4), Box.panel (buildPanel 1 5)]
      ++ List.replicate 7 (Box.cube (cubeAt 8)) ++ [Box.cube (cubeAt 7)]
    neo := false
    center := true }

/-- Replicated attach or detach calls. -/
def adReplicate (n : Nat) (o : ADOp) : List ADOp := List.replicate n o

/-! ### Cube lemmas: every game cube is canonical for its count -/

theorem clampN_le (k : Int) (m : Nat) : clampN k m ≤ m := by
  unfold clampN; split <;> omega

theorem clampN_coe {n m : Nat} (h : n ≤ m) : clampN (n : Int) m = n := by
  unfold clampN; split <;> omega

theorem cubeAt_ccnt (n : Nat) : (cubeAt n).ccnt = n := rfl

theorem cubeAt_cmax (n : Nat) : (cubeAt n).cmax = 8 := rfl

theorem cubeAt_wf {n : Nat} (h : n ≤ 8) : (cubeAt n).wf := ⟨h, rfl⟩

theorem cellsFor_succ {n : Nat} (h1 : n ≠ 8) (h2 : n + 1 ≠ 8) :
    cellsFor (n + 1) = cellsFor n ++ [CellVis.cell n] := by
  simp [cellsFor, h1, h2, List.range_succ]

theorem cellsFor_dropLast {n : Nat} (h0 : 0 < n) (h7 : n < 8) :
    (cellsFor n).dropLast = cellsFor (n - 1) := by
  obtain ⟨m, rfl⟩ : ∃ m, n = m + 1 := ⟨n - 1, by omega⟩
  have h1 : m + 1 ≠ 8 := by omega
  have h2 : m ≠ 8 := by omega
  simp [cellsFor, h1, h2, List.range_succ]

theorem cubeAt_attach_lt {n : Nat} (h : n < 8) :
    (cubeAt n).attach = (cubeAt (n + 1), true) := by
  unfold Cube.attach
  rw [if_pos (by simpa [cubeAt] using h)]
  by_cases h8 : n + 1 = 8
  · simp [Cube.mergeVis, cubeAt, h8, cellsFor]
  · simp only [cubeAt_ccnt, cubeAt_cmax]
    rw [if_neg (by simpa [cubeAt] using h8)]
    simp [Cube.addCell, cubeAt, cellsFor_succ (by omega) h8]

theorem cube_attach_of_full {c : Cube} (h : c.cmax ≤ c.ccnt) :
    c.attach = (c, false) := by
  unfold Cube.attach; rw [if_neg (by omega)]

theorem cubeAt_attachN {j n : Nat} (h : j + n ≤ 8) :
    Cube.attachN (cubeAt j) n = cubeAt (j + n) := by
  induction n generalizing j with
  | zero => rfl
  | succ n ih =>
    have hj : j < 8 := by omega
    show Cube.attachN ((cubeAt j).attach).1 n = _
    rw [cubeAt_attach_lt hj]
    have := ih (j := j + 1) (by omega)
    simpa [Nat.add_assoc, Nat.add_comm 1 n] using this

theorem cube_reset_eq {c : Cube} (h : c.cmax = 8) (k : Int) :
    c.reset k = cubeAt (clampN k 8) := by
  have hwipe : ({ c with ccnt := 0, cells := [] } : Cube) = cubeAt 0 := by
    cases c
    simp_all [cubeAt, cellsFor]
  unfold Cube.reset
  rw [hwipe, h]
  simpa using cubeAt_attachN (j := 0) (n := clampN k 8)
    (by have := clampN_le k 8; omega)

theorem newCube_eq (s : Int) : newCube s = cubeAt (clampN s 8) :=
  cube_reset_eq rfl s

theorem cube_reset_zero (c : Cube) :
    c.reset 0 = { ccnt := 0, cmax := c.cmax, cells := [] } := by
  unfold Cube.reset
  have h : clampN 0 c.cmax = 0 := by
    unfold clampN
    rw [if_neg (by omega)]
    rfl
  rw [h]
  rfl

theorem cubeAt_detach_pos {n : Nat} (h1 : 0 < n) (h2 : n ≤ 8) :
    (cubeAt n).detach = (cubeAt (n - 1), true) := by
  by_cases h8 : n = 8
  · subst h8; decide
  · unfold Cube.detach
    rw [if_pos (by simpa [cubeAt] using ⟨h1, h2⟩)]
    rw [if_neg (by simpa [cubeAt] using h8)]
    simp [Cube.removeCell, cubeAt, cellsFor_dropLast h1 (by omega)]

theorem cube_detach_of_zero {c : Cube} (h : c.ccnt = 0) :
    c.detach = (c, false) := by
  unfold Cube.detach; rw [if_neg (by omega)]

theorem cube_cmax_attach (c : Cube) : ((c.attach).1).cmax = c.cmax := by
  unfold Cube.attach
  split <;> [skip; rfl]
  split <;> rfl

theorem cube_cmax_attachN (c : Cube) (n : Nat) :
    (Cube.attachN c n).cmax = c.cmax := by
  induction n generalizing c with
  | zero => rfl
  | succ n ih => show (Cube.attachN (c.attach).1 n).cmax = _; rw [ih, cube_cmax_attach]

theorem cube_cmax_reset (c : Cube) (k : Int) : (c.reset k).cmax = c.cmax := by
  unfold Cube.reset
  rw [cube_cmax_attachN]

theorem cube_cmax_detach (c : Cube) : ((c.detach).1).cmax = c.cmax := by
  unfold Cube.detach
  split
  · split
    · simp [cube_cmax_reset]
    · rfl
  · rfl

theorem cube_reset_zero_of_cmax {c c' : Cube} (h : c.cmax = c'.cmax) :
    c.reset 0 = c'.reset 0 := by
  rw [cube_reset_zero, cube_reset_zero, h]

theorem cube_wf_attach {c : Cube} (hwf : c.wf) (h : c.ccnt < 8) :
    (c.attach).1.wf ∧ (c.attach).1.ccnt = c.ccnt + 1 ∧ (c.attach).2 = true := by
  obtain ⟨hle, hc⟩ := hwf
  rw [hc, cubeAt_attach_lt h]
  exact ⟨cubeAt_wf (by omega), rfl, rfl⟩

theorem cube_wf_detach {c : Cube} (hwf : c.wf) (h : 0 < c.ccnt) :
    (c.detach).1.wf ∧ (c.detach).1.ccnt = c.ccnt - 1 ∧ (c.detach).2 = true := by
  obtain ⟨hle, hc⟩ := hwf
  rw [hc, cubeAt_detach_pos h hle]
  exact ⟨cubeAt_wf (by omega), rfl, rfl⟩

/-! ### List arithmetic helpers -/

theorem sum_map_le_mul {α : Type} (f : α → Nat) (m : Nat) (l : List α)
    (h : ∀ a ∈ l, f a ≤ m) : (l.map f).sum ≤ m * l.length := by
  induction l with
  | nil => simp
  | cons a l ih =>
    simp only [List.map_cons, List.sum_cons, List.length_cons, Nat.mul_succ]
    have h1 := ih fun a ha => h a (List.mem_cons_of_mem _ ha)
    have h2 := h a (List.mem_cons_self a l)
    omega

theorem mul_le_sum_map {α : Type} (f : α → Nat) (m : Nat) (l : List α)
    (h : ∀ a ∈ l, m ≤ f a) : m * l.length ≤ (l.map f).sum := by
  induction l with
  | nil => simp
  | cons a l ih =>
    simp only [List.map_cons, List.sum_cons, List.length_cons, Nat.mul_succ]
    have h1 := ih fun a ha => h a (List.mem_cons_of_mem _ ha)
    have h2 := h a (List.mem_cons_self a l)
    omega

theorem exists_lt_of_sum_map_lt {α : Type} {f : α → Nat} {m : Nat} {l : List α}
    (h : (l.map f).sum < m * l.length) : ∃ a ∈ l, f a < m := by
  by_contra hc
  push_neg at hc
  exact absurd (mul_le_sum_map f m l hc) (by omega)

theorem exists_pos_of_sum_map_pos {α : Type} {f : α → Nat} {l : List α}
    (h : 0 < (l.map f).sum) : ∃ a ∈ l, 0 < f a := by
  by_contra hc
  push_neg at hc
  have : (l.map f).sum = 0 := by
    apply List.sum_eq_zero
    intro x hx
    obtain ⟨a, ha, rfl⟩ := List.mem_map.mp hx
    have := hc a ha
    omega
  omega

theorem sum_map_le_sum_map {α : Type} {f g : α → Nat} {l : List α}
    (hle : ∀ a ∈ l, f a ≤ g a) : (l.map f).sum ≤ (l.map g).sum := by
  induction l with
  | nil => simp
  | cons a l ih =>
    simp only [List.map_cons, List.sum_cons]
    have h1 := ih fun a ha => hle a (List.mem_cons_of_mem _ ha)
    have h2 := hle a (List.mem_cons_self a l)
    omega

theorem all_eq_of_sum_map_eq {α : Type} {f g : α → Nat} {l : List α}
    (hle : ∀ a ∈ l, f a ≤ g a) (hsum : (l.map g).sum ≤ (l.map f).sum) :
    ∀ a ∈ l, f a = g a := by
  induction l with
  | nil => simp
  | cons a l ih =>
    simp only [List.map_cons, List.sum_cons] at hsum
    have h1 : ∀ a ∈ l, f a ≤ g a := fun a ha => hle a (List.mem_cons_of_mem _ ha)
    have h2 : (l.map f).sum ≤ (l.map g).sum := sum_map_le_sum_map h1
    have h3 := hle a (List.mem_cons_self a l)
    intro b hb
    rcases List.mem_cons.mp hb with rfl | hb'
    · omega
    · exact ih h1 (by omega) b hb'

/-! ### Panel addCell / removeCell behaviour -/

theorem addCellCubes_eq_none {cs : List Cube} {ae : Nat}
    (h : ∀ c ∈ cs, ae < c.ccnt) : Panel.addCellCubes cs ae = none := by
  induction cs with
  | nil => rfl
  | cons c cs ih =>
    have hc := h c (List.mem_cons_self c cs)
    simp only [Panel.addCellCubes, if_neg (by omega : ¬c.ccnt ≤ ae)]
    rw [ih fun c hc' => h c (List.mem_cons_of_mem _ hc')]
    rfl

theorem addCellCubes_eq_some {cs : List Cube} {ae : Nat}
    (h : ∃ c ∈ cs, c.ccnt ≤ ae) :
    ∃ l₁ c l₂, cs = l₁ ++ c :: l₂ ∧ (∀ c' ∈ l₁, ae < c'.ccnt) ∧ c.ccnt ≤ ae ∧
      Panel.addCellCubes cs ae = some (l₁ ++ (c.attach).1 :: l₂) := by
  induction cs with
  | nil => simp at h
  | cons c0 cs ih =>
    by_cases h0 : c0.ccnt ≤ ae
    · exact ⟨[], c0, cs, rfl, by simp, h0, by simp [Panel.addCellCubes, h0]⟩
    · have hex : ∃ c ∈ cs, c.ccnt ≤ ae := by
        obtain ⟨c, hc, hcle⟩ := h
        rcases List.mem_cons.mp hc with rfl | hc'
        · exact absurd hcle h0
        · exact ⟨c, hc', hcle⟩
      obtain ⟨l₁, c, l₂, hcs, hl₁, hc, heq⟩ := ih hex
      refine ⟨c0 :: l₁, c, l₂, by simp [hcs], ?_, hc, ?_⟩
      · intro c' hc'
        rcases List.mem_cons.mp hc' with rfl | hmem
        · omega
        · exact hl₁ c' hmem
      · simp [Panel.addCellCubes, h0, heq]

theorem addCellAux_spec {cs : List Cube} {ae fuel : Nat}
    (hge : ∀ c ∈ cs, ae ≤ c.ccnt) (hlt : ∃ c ∈ cs, c.ccnt < ae + fuel) :
    ∃ l₁ c l₂, cs = l₁ ++ c :: l₂ ∧ (∀ c' ∈ cs, c.ccnt ≤ c'.ccnt) ∧
      c.ccnt < ae + fuel ∧
      Panel.addCellAux cs ae fuel = l₁ ++ (c.attach).1 :: l₂ := by
  induction fuel generalizing ae with
  | zero =>
    obtain ⟨c, hc, hclt⟩ := hlt
    exact absurd (hge c hc) (by omega)
  | succ fuel ih =>
    by_cases hex : ∃ c ∈ cs, c.ccnt ≤ ae
    · obtain ⟨l₁, c, l₂, hcs, hl₁, hc, heq⟩ := addCellCubes_eq_some hex
      refine ⟨l₁, c, l₂, hcs, ?_, by omega, ?_⟩
      · intro c' hc'
        exact le_trans hc (hge c' hc')
      · show Panel.addCellAux cs ae (fuel + 1) = _
        simp [Panel.addCellAux, heq]
    · push_neg at hex
      have h1 : ∀ c ∈ cs, ae + 1 ≤ c.ccnt := fun c hc => hex c hc
      have h2 : ∃ c ∈ cs, c.ccnt < ae + 1 + fuel := by
        obtain ⟨c, hc, hclt⟩ := hlt
        exact ⟨c, hc, by omega⟩
      obtain ⟨l₁, c, l₂, hcs, hmin, hlt', heq⟩ := ih h1 h2
      refine ⟨l₁, c, l₂, hcs, hmin, by omega, ?_⟩
      show Panel.addCellAux cs ae (fuel + 1) = _
      have hnone : Panel.addCellCubes cs ae = none :=
        addCellCubes_eq_none fun c hc => by have := hex c hc; omega
      simp [Panel.addCellAux, hnone, heq]

theorem removeCellCubes_eq_none {cs : List Cube}
    (h : ∀ c ∈ cs, c.detach = (c, false)) : Panel.removeCellCubes cs = none := by
  induction cs with
  | nil => rfl
  | cons c cs ih =>
    simp only [Panel.removeCellCubes, h c (List.mem_cons_self c cs)]
    rw [ih fun c hc => h c (List.mem_cons_of_mem _ hc)]
    rfl

theorem removeCellCubes_eq_some {cs : List Cube}
    (hwf : ∀ c ∈ cs, c.wf) (h : ∃ c ∈ cs, 0 < c.ccnt) :
    ∃ l₁ c l₂, cs = l₁ ++ c :: l₂ ∧ (∀ c' ∈ l₁, c'.ccnt = 0) ∧ 0 < c.ccnt ∧
      Panel.removeCellCubes cs = some (l₁ ++ (c.detach).1 :: l₂) := by
  induction cs with
  | nil => simp at h
  | cons c0 cs ih =>
    by_cases h0 : 0 < c0.ccnt
    · obtain ⟨hwf0, hc0, hb0⟩ := cube_wf_detach (hwf c0 (List.mem_cons_self c0 cs)) h0
      refine ⟨[], c0, cs, rfl, by simp, h0, ?_⟩
      have hd : c0.detach = ((c0.detach).1, true) := by
        rw [← hb0]
      simp only [Panel.removeCellCubes]
      rw [hd]
      simp
    · have hz : c0.ccnt = 0 := by omega
      have hex : ∃ c ∈ cs, 0 < c.ccnt := by
        obtain ⟨c, hc, hcpos⟩ := h
        rcases List.mem_cons.mp hc with rfl | hc'
        · omega
        · exact ⟨c, hc', hcpos⟩
      obtain ⟨l₁, c, l₂, hcs, hl₁, hc, heq⟩ :=
        ih (fun c hc => hwf c (List.mem_cons_of_mem _ hc)) hex
      refine ⟨c0 :: l₁, c, l₂, by simp [hcs], ?_, hc, ?_⟩
      · intro c' hc'
        rcases List.mem_cons.mp hc' with rfl | hmem
        · exact hz
        · exact hl₁ c' hmem
      · simp only [Panel.removeCellCubes, cube_detach_of_zero hz, heq]
        rfl

/-! ### Panel operation specifications -/

theorem cube_wf_cmax {c : Cube} (hwf : c.wf) : c.cmax = 8 := by
  rw [hwf.2]
  rfl

theorem cube_wf_le {c : Cube} (hwf : c.wf) : c.ccnt ≤ 8 := hwf.1

theorem cube_reset_zero_idem (c : Cube) : (c.reset 0).reset 0 = c.reset 0 :=
  cube_reset_zero_of_cmax (cube_cmax_reset c 0)

theorem cube_reset_zero_eq_cubeAt {c : Cube} (h : c.cmax = 8) :
    c.reset 0 = cubeAt 0 := by
  rw [cube_reset_zero, h]
  rfl

theorem panel_slab_false {p : Panel} (hwf : p.wf) (h : p.ccnt < p.cmax) :
    p.slab = false := by
  by_contra hs
  have hs' : p.slab = true := by revert hs; cases p.slab <;> simp
  have := hwf.2.2.1 hs'
  omega

theorem panel_attach_of_full {p : Panel} (h : p.cmax ≤ p.ccnt) :
    p.attach = (p, false) := by
  unfold Panel.attach
  rw [if_neg (by omega)]

theorem panel_addCell_cubes {p : Panel} (hne : p.cubes ≠ [])
    (h8 : ∀ c ∈ p.cubes, c.cmax = 8) :
    p.addCell = { p with cubes := Panel.addCellAux p.cubes 0 8 } := by
  cases hq : p.cubes with
  | nil => exact absurd hq hne
  | cons c0 rest =>
    have hc0 : c0.cmax = 8 := h8 c0 (by rw [hq]; exact List.mem_cons_self c0 rest)
    unfold Panel.addCell
    simp only [hq]
    rw [hc0, ← hq]

theorem panel_mergeVis_eq (p : Panel) :
    p.mergeVis = { ccnt := p.ccnt, cmax := p.cmax, lvl := p.lvl,
                   cubes := p.cubes.map (fun c => c.reset 0), slab := true } := rfl

theorem panel_trashVis_eq (p : Panel) :
    p.trashVis = { ccnt := p.ccnt, cmax := p.cmax, lvl := p.lvl,
                   cubes := p.cubes.map (fun c => c.reset 0), slab := false } := rfl

theorem panel_attach_lt {p : Panel} (hwf : p.wf) (h : p.ccnt < p.cmax) :
    (p.attach).2 = true ∧ (p.attach).1.wf ∧ (p.attach).1.ccnt = p.ccnt + 1 ∧
      (p.attach).1.cmax = p.cmax ∧ (p.attach).1.lvl = p.lvl ∧
      (p.attach).1.cubes.map (fun c => c.reset 0)
        = p.cubes.map (fun c => c.reset 0) := by
  obtain ⟨hcm, hcw, hst, hsf⟩ := hwf
  have hslab : p.slab = false := panel_slab_false ⟨hcm, hcw, hst, hsf⟩ h
  have hsum := hsf hslab
  have hproj2 : (p.cubes.map (fun c => c.reset 0)).map (fun c => c.reset 0)
      = p.cubes.map (fun c => c.reset 0) := by
    rw [List.map_map]
    apply List.map_congr_left
    intro c _
    exact cube_reset_zero_idem c
  unfold Panel.attach
  rw [if_pos h]
  by_cases hfull : p.ccnt + 1 = p.cmax
  · rw [if_pos hfull]
    rw [panel_mergeVis_eq]
    refine ⟨rfl, ⟨?_, ?_, ?_, ?_⟩, rfl, rfl, rfl, hproj2⟩
    · simpa using hcm
    · intro c hc
      obtain ⟨c', hc', rfl⟩ := List.mem_map.mp hc
      rw [cube_reset_zero_eq_cubeAt (cube_wf_cmax (hcw c' hc'))]
      exact cubeAt_wf (by omega)
    · intro _
      refine ⟨hfull, ?_, ?_⟩
      · show 0 < p.cmax
        omega
      · intro c hc
        obtain ⟨c', hc', rfl⟩ := List.mem_map.mp hc
        rw [cube_reset_zero]
    · intro hcontra
      simp at hcontra
  · rw [if_neg hfull]
    have hex : ∃ c ∈ p.cubes, c.ccnt < 8 := by
      apply exists_lt_of_sum_map_lt (m := 8)
      omega
    have hne : p.cubes ≠ [] := by
      obtain ⟨c, hc, _⟩ := hex
      intro hnil
      rw [hnil] at hc
      simp at hc
    obtain ⟨l₁, c, l₂, hcs, hmin, hclt, heq⟩ :=
      @addCellAux_spec p.cubes 0 8 (fun c _ => Nat.zero_le _) (by simpa using hex)
    have haddc : ({ p with ccnt := p.ccnt + 1 } : Panel).addCell
        = { p with ccnt := p.ccnt + 1, cubes := l₁ ++ (c.attach).1 :: l₂ } := by
      rw [panel_addCell_cubes (p := { p with ccnt := p.ccnt + 1 }) hne
        (fun c hc => cube_wf_cmax (hcw c hc))]
      simp only [heq]
    rw [haddc]
    have hcmem : c ∈ p.cubes := by
      rw [hcs]
      exact List.mem_append_right _ (List.mem_cons_self c l₂)
    obtain ⟨hwc', hcc', _⟩ := cube_wf_attach (hcw c hcmem) (by omega)
    refine ⟨rfl, ⟨?_, ?_, ?_, ?_⟩, rfl, rfl, rfl, ?_⟩
    · show p.cmax = 8 * (l₁ ++ (c.attach).1 :: l₂).length
      rw [hcs] at hcm
      simpa using hcm
    · intro c' hc'
      simp only [List.mem_append, List.mem_cons] at hc'
      rcases hc' with hc' | rfl | hc'
      · exact hcw c' (by rw [hcs]; exact List.mem_append_left _ hc')
      · exact hwc'
      · exact hcw c' (by
          rw [hcs]
          exact List.mem_append_right _ (List.mem_cons_of_mem _ hc'))
    · intro hcontra
      rw [hslab] at hcontra
      simp at hcontra
    · intro _
      show p.ccnt + 1 = _
      rw [hcs] at hsum
      simp only [List.map_append, List.sum_append, List.map_cons,
        List.sum_cons] at hsum ⊢
      omega
    · show List.map _ (l₁ ++ (c.attach).1 :: l₂) = _
      rw [hcs]
      simp only [List.map_append, List.map_cons]
      rw [cube_reset_zero_of_cmax (cube_cmax_attach c)]

theorem panel_attachN_step (p : Panel) (n : Nat) :
    Panel.attachN p (n + 1) = Panel.attachN (p.attach).1 n := rfl

theorem panel_attachN_spec {p : Panel} (hwf : p.wf) {n : Nat}
    (h : p.ccnt + n ≤ p.cmax) :
    (Panel.attachN p n).wf ∧ (Panel.attachN p n).ccnt = p.ccnt + n ∧
      (Panel.attachN p n).cmax = p.cmax ∧ (Panel.attachN p n).lvl = p.lvl ∧
      (Panel.attachN p n).cubes.map (fun c => c.reset 0)
        = p.cubes.map (fun c => c.reset 0) := by
  induction n generalizing p with
  | zero =>
    have h0 : Panel.attachN p 0 = p := rfl
    rw [h0]
    exact ⟨hwf, by omega, rfl, rfl, rfl⟩
  | succ n ih =>
    obtain ⟨hb, hwf', hcc', hcm', hlvl', hproj'⟩ := panel_attach_lt hwf (by omega)
    rw [panel_attachN_step]
    obtain ⟨w1, w2, w3, w4, w5⟩ := ih hwf' (by rw [hcc', hcm']; omega)
    exact ⟨w1, by rw [w2, hcc']; omega, by rw [w3, hcm'], by rw [w4, hlvl'],
      by rw [w5, hproj']⟩

theorem clampN_sub_one {m : Nat} (h : 1 ≤ m) :
    clampN ((m : Int) - 1) m = m - 1 := by
  unfold clampN
  split <;> omega

theorem panel_wf_le {p : Panel} (hwf : p.wf) : p.ccnt ≤ p.cmax := by
  obtain ⟨hcm, hcw, hst, hsf⟩ := hwf
  cases hs : p.slab with
  | true => exact le_of_eq (hst hs).1
  | false =>
    rw [hsf hs, hcm]
    exact sum_map_le_mul _ _ _ fun c hc => cube_wf_le (hcw c hc)

theorem cube_reset_zero_ccnt (c : Cube) : (c.reset 0).ccnt = 0 := by
  rw [cube_reset_zero]

theorem panel_reset_spec {p : Panel} (hcm : p.cmax = 8 * p.cubes.length)
    (h8 : ∀ c ∈ p.cubes, c.cmax = 8) (k : Int) :
    (p.reset k).wf ∧ (p.reset k).ccnt = clampN k p.cmax ∧
      (p.reset k).cmax = p.cmax ∧ (p.reset k).lvl = p.lvl ∧
      (p.reset k).cubes.map (fun c => c.reset 0)
        = p.cubes.map (fun c => c.reset 0) := by
  have hwf0 : (wipedPanel p).wf := by
    refine ⟨by simpa [wipedPanel] using hcm, ?_, by intro hc; simp [wipedPanel] at hc, ?_⟩
    · intro c hc
      simp only [wipedPanel, List.mem_map] at hc
      obtain ⟨c', hc', rfl⟩ := hc
      rw [cube_reset_zero_eq_cubeAt (h8 c' hc')]
      exact cubeAt_wf (by omega)
    · intro _
      show 0 = _
      symm
      apply List.sum_eq_zero
      intro x hx
      simp only [wipedPanel, List.map_map, List.mem_map] at hx
      obtain ⟨c', _, rfl⟩ := hx
      exact cube_reset_zero_ccnt c'
  have hproj2 : (p.cubes.map (fun c => c.reset 0)).map (fun c => c.reset 0)
      = p.cubes.map (fun c => c.reset 0) := by
    rw [List.map_map]
    exact List.map_congr_left fun c _ => cube_reset_zero_idem c
  have hstep : p.reset k = Panel.attachN (wipedPanel p) (clampN k p.cmax) := rfl
  rw [hstep]
  have hle : (wipedPanel p).ccnt + clampN k p.cmax ≤ (wipedPanel p).cmax := by
    have := clampN_le k p.cmax
    simpa [wipedPanel] using this
  obtain ⟨w1, w2, w3, w4, w5⟩ := panel_attachN_spec hwf0 hle
  refine ⟨w1, by simpa [wipedPanel] using w2, by simpa [wipedPanel] using w3,
    by simpa [wipedPanel] using w4, ?_⟩
  rw [w5]
  simpa [wipedPanel] using hproj2

theorem panel_detach_of_zero {p : Panel} (h : p.ccnt = 0) :
    p.detach = (p, false) := by
  unfold Panel.detach
  rw [if_neg (by omega)]

theorem panel_detach_pos {p : Panel} (hwf : p.wf) (h : 0 < p.ccnt) :
    (p.detach).2 = true ∧ (p.detach).1.wf ∧ (p.detach).1.ccnt = p.ccnt - 1 ∧
      (p.detach).1.cmax = p.cmax ∧ (p.detach).1.lvl = p.lvl ∧
      (p.detach).1.cubes.map (fun c => c.reset 0)
        = p.cubes.map (fun c => c.reset 0) := by
  have hle : p.ccnt ≤ p.cmax := panel_wf_le hwf
  obtain ⟨hcm, hcw, hst, hsf⟩ := hwf
  unfold Panel.detach
  rw [if_pos ⟨h, hle⟩]
  by_cases hfull : p.ccnt = p.cmax
  · rw [if_pos hfull]
    obtain ⟨w1, w2, w3, w4, w5⟩ :=
      panel_reset_spec hcm (fun c hc => cube_wf_cmax (hcw c hc))
        ((p.cmax : Int) - 1)
    refine ⟨rfl, w1, ?_, w3, w4, w5⟩
    rw [w2, clampN_sub_one (by omega)]
    omega
  · rw [if_neg hfull]
    have hslab : p.slab = false := by
      cases hs : p.slab with
      | true => exact absurd (hst hs).1 hfull
      | false => rfl
    have hsum := hsf hslab
    have hex : ∃ c ∈ p.cubes, 0 < c.ccnt :=
      exists_pos_of_sum_map_pos (by omega)
    obtain ⟨l₁, c, l₂, hcs, hl₁, hc, heq⟩ := removeCellCubes_eq_some hcw hex
    have hrm : p.removeCell = { p with cubes := l₁ ++ (c.detach).1 :: l₂ } := by
      unfold Panel.removeCell
      rw [heq]
      rfl
    rw [hrm]
    have hcmem : c ∈ p.cubes := by
      rw [hcs]
      exact List.mem_append_right _ (List.mem_cons_self c l₂)
    obtain ⟨hwc', hcc', _⟩ := cube_wf_detach (hcw c hcmem) hc
    refine ⟨rfl, ⟨?_, ?_, ?_, ?_⟩, rfl, rfl, rfl, ?_⟩
    · show p.cmax = 8 * (l₁ ++ (c.detach).1 :: l₂).length
      rw [hcs] at hcm
      simpa using hcm
    · intro c' hc'
      simp only [List.mem_append, List.mem_cons] at hc'
      rcases hc' with hc' | rfl | hc'
      · exact hcw c' (by rw [hcs]; exact List.mem_append_left _ hc')
      · exact hwc'
      · exact hcw c' (by
          rw [hcs]
          exact List.mem_append_right _ (List.mem_cons_of_mem _ hc'))
    · intro hcontra
      rw [hslab] at hcontra
      simp at hcontra
    · intro _
      show p.ccnt - 1 = _
      rw [hcs] at hsum
      simp only [List.map_append, List.sum_append, List.map_cons,
        List.sum_cons] at hsum ⊢
      omega
    · show List.map _ (l₁ ++ (c.detach).1 :: l₂) = _
      rw [hcs]
      simp only [List.map_append, List.map_cons]
      rw [cube_reset_zero_of_cmax (cube_cmax_detach c)]

/-! ### Box level specifications -/

theorem panel_reset_zero (p : Panel) : p.reset 0 = wipedPanel p := by
  have h0 : clampN 0 p.cmax = 0 := by
    unfold clampN
    rw [if_neg (by omega)]
    rfl
  show Panel.attachN (wipedPanel p) (clampN 0 p.cmax) = wipedPanel p
  rw [h0]
  rfl

theorem wipedPanel_eq_of {p q : Panel} (hcm : p.cmax = q.cmax) (hlvl : p.lvl = q.lvl)
    (hcubes : p.cubes.map (fun c => c.reset 0) = q.cubes.map (fun c => c.reset 0)) :
    wipedPanel p = wipedPanel q := by
  unfold wipedPanel
  rw [hcm, hlvl, hcubes]

theorem cube_map_reset_zero_idem (cs : List Cube) :
    (cs.map (fun c => c.reset 0)).map (fun c => c.reset 0)
      = cs.map (fun c => c.reset 0) := by
  rw [List.map_map]
  exact List.map_congr_left fun c _ => cube_reset_zero_idem c

theorem wipedPanel_idem (p : Panel) : wipedPanel (wipedPanel p) = wipedPanel p :=
  wipedPanel_eq_of rfl rfl (cube_map_reset_zero_idem p.cubes)

theorem box_ccnt_cube (c : Cube) : (Box.cube c).ccnt = c.ccnt := rfl

theorem box_ccnt_panel (p : Panel) : (Box.panel p).ccnt = p.ccnt := rfl

theorem box_cmax_cube (c : Cube) : (Box.cube c).cmax = c.cmax := rfl

theorem box_cmax_panel (p : Panel) : (Box.panel p).cmax = p.cmax := rfl

theorem box_wf_le {b : Box} (hwf : b.wf) : b.ccnt ≤ b.cmax := by
  cases b with
  | cube c => show c.ccnt ≤ c.cmax; rw [cube_wf_cmax hwf]; exact cube_wf_le hwf
  | panel p => exact panel_wf_le hwf

theorem box_wf_preWf {b : Box} (hwf : b.wf) : b.preWf := by
  cases b with
  | cube c => exact cube_wf_cmax hwf
  | panel p => exact ⟨hwf.1, fun c hc => cube_wf_cmax (hwf.2.1 c hc)⟩

theorem box_trashedFull_preWf {b : Box} (h : b.trashedFull) : b.preWf := by
  cases b with
  | cube c => exact h.1
  | panel p =>
    refine ⟨h.1, fun c hc => ?_⟩
    rw [h.2.2.2 c hc]
    rfl

theorem box_trashedFull_full {b : Box} (h : b.trashedFull) : b.ccnt = b.cmax := by
  cases b with
  | cube c => show c.ccnt = c.cmax; rw [h.1, h.2.1]
  | panel p => exact h.2.1

theorem box_attach_of_full {b : Box} (h : b.cmax ≤ b.ccnt) : b.attach = (b, false) := by
  cases b with
  | cube c => show (Box.cube (c.attach).1, (c.attach).2) = _; rw [cube_attach_of_full h]
  | panel p => show (Box.panel (p.attach).1, (p.attach).2) = _; rw [panel_attach_of_full h]

theorem box_detach_of_zero {b : Box} (h : b.ccnt = 0) : b.detach = (b, false) := by
  cases b with
  | cube c => show (Box.cube (c.detach).1, (c.detach).2) = _; rw [cube_detach_of_zero h]
  | panel p => show (Box.panel (p.detach).1, (p.detach).2) = _; rw [panel_detach_of_zero h]

theorem box_attach_lt {b : Box} (hwf : b.wf) (h : b.ccnt < b.cmax) :
    (b.attach).2 = true ∧ (b.attach).1.wf ∧ (b.attach).1.ccnt = b.ccnt + 1 ∧
      (b.attach).1.reset 0 = b.reset 0 := by
  cases b with
  | cube c =>
    have h' : c.ccnt < c.cmax := h
    have h8 : c.ccnt < 8 := by have := cube_wf_cmax hwf; omega
    obtain ⟨w1, w2, w3⟩ := cube_wf_attach hwf h8
    refine ⟨w3, w1, w2, ?_⟩
    show Box.cube ((c.attach).1.reset 0) = Box.cube (c.reset 0)
    rw [cube_reset_zero_of_cmax (cube_cmax_attach c)]
  | panel p =>
    obtain ⟨w1, w2, w3, w4, w5⟩ := panel_attach_lt hwf h
    refine ⟨w1, w2, w3, ?_⟩
    show Box.panel ((p.attach).1.reset 0) = Box.panel (p.reset 0)
    rw [panel_reset_zero, panel_reset_zero, wipedPanel_eq_of w4 w5.1 w5.2]

theorem box_detach_pos {b : Box} (hwf : b.wf) (h : 0 < b.ccnt) :
    (b.detach).2 = true ∧ (b.detach).1.wf ∧ (b.detach).1.ccnt = b.ccnt - 1 ∧
      (b.detach).1.reset 0 = b.reset 0 := by
  cases b with
  | cube c =>
    obtain ⟨w1, w2, w3⟩ := cube_wf_detach hwf h
    refine ⟨w3, w1, w2, ?_⟩
    show Box.cube ((c.detach).1.reset 0) = Box.cube (c.reset 0)
    rw [cube_reset_zero_of_cmax (cube_cmax_detach c)]
  | panel p =>
    obtain ⟨w1, w2, w3, w4, w5⟩ := panel_detach_pos hwf h
    refine ⟨w1, w2, w3, ?_⟩
    show Box.panel ((p.detach).1.reset 0) = Box.panel (p.reset 0)
    rw [panel_reset_zero, panel_reset_zero, wipedPanel_eq_of w4 w5.1 w5.2]

theorem box_reset_spec {b : Box} (hpre : b.preWf) (k : Int) :
    (b.reset k).wf ∧ (b.reset k).ccnt = clampN k b.cmax ∧
      (b.reset k).reset 0 = b.reset 0 := by
  cases b with
  | cube c =>
    have h8 : c.cmax = 8 := hpre
    show (c.reset k).wf ∧ (c.reset k).ccnt = clampN k c.cmax ∧
      Box.cube ((c.reset k).reset 0) = Box.cube (c.reset 0)
    rw [cube_reset_eq h8, h8]
    refine ⟨cubeAt_wf (clampN_le k 8), rfl, ?_⟩
    rw [cube_reset_zero_eq_cubeAt rfl, cube_reset_zero_eq_cubeAt h8]
  | panel p =>
    obtain ⟨hcm, h8⟩ := hpre
    obtain ⟨w1, w2, w3, w4, w5⟩ := panel_reset_spec hcm h8 k
    refine ⟨w1, w2, ?_⟩
    show Box.panel ((p.reset k).reset 0) = Box.panel (p.reset 0)
    rw [panel_reset_zero, panel_reset_zero, wipedPanel_eq_of w3 w4 w5]

theorem box_trashVis_ccnt (b : Box) : (b.trashVis).ccnt = b.ccnt := by
  cases b <;> rfl

theorem box_trashVis_cmax (b : Box) : (b.trashVis).cmax = b.cmax := by
  cases b <;> rfl

theorem box_trashVis_proj (b : Box) : (b.trashVis).reset 0 = b.reset 0 := by
  cases b with
  | cube c =>
    show Box.cube (c.trashVis.reset 0) = Box.cube (c.reset 0)
    rw [cube_reset_zero_of_cmax (show c.trashVis.cmax = c.cmax from rfl)]
  | panel p =>
    show Box.panel (p.trashVis.reset 0) = Box.panel (p.reset 0)
    congr 1
    rw [panel_reset_zero, panel_reset_zero, panel_trashVis_eq]
    exact wipedPanel_eq_of rfl rfl (cube_map_reset_zero_idem p.cubes)

theorem box_reset_trashVis (b : Box) (k : Int) : (b.trashVis).reset k = b.reset k := by
  cases b with
  | cube c =>
    show Box.cube (c.trashVis.reset k) = Box.cube (c.reset k)
    rfl
  | panel p =>
    show Box.panel (p.trashVis.reset k) = Box.panel (p.reset k)
    congr 1
    show Panel.attachN (wipedPanel p.trashVis) (clampN k p.trashVis.cmax)
      = Panel.attachN (wipedPanel p) (clampN k p.cmax)
    have h1 : wipedPanel p.trashVis = wipedPanel p := by
      rw [panel_trashVis_eq]
      exact wipedPanel_eq_of rfl rfl (cube_map_reset_zero_idem p.cubes)
    have h2 : p.trashVis.cmax = p.cmax := rfl
    rw [h1, h2]

theorem box_trashVis_full {b : Box} (hwf : b.wf) (h : b.ccnt = b.cmax) :
    (b.trashVis).trashedFull := by
  cases b with
  | cube c =>
    have h' : c.ccnt = c.cmax := h
    have h8 : c.cmax = 8 := cube_wf_cmax hwf
    exact ⟨h8, by show c.ccnt = 8; omega, rfl⟩
  | panel p =>
    have h' : p.ccnt = p.cmax := h
    obtain ⟨hcm, hcw, hst, hsf⟩ := hwf
    show (Box.panel p.trashVis).trashedFull
    rw [panel_trashVis_eq]
    refine ⟨by simpa using hcm, h', rfl, ?_⟩
    intro c hc
    obtain ⟨c', hc', rfl⟩ := List.mem_map.mp hc
    exact cube_reset_zero_eq_cubeAt (cube_wf_cmax (hcw c' hc'))

theorem box_wf_zero_eq {b : Box} (hwf : b.wf) (h : b.ccnt = 0) :
    b = b.reset 0 := by
  cases b with
  | cube c =>
    show Box.cube c = Box.cube (c.reset 0)
    rw [cube_reset_zero_eq_cubeAt (cube_wf_cmax hwf)]
    congr 1
    conv_lhs => rw [hwf.2]
    rw [show c.ccnt = 0 from h]
  | panel p =>
    obtain ⟨hcm, hcw, hst, hsf⟩ := hwf
    have h' : p.ccnt = 0 := h
    have hslab : p.slab = false := by
      cases hs : p.slab with
      | true =>
        obtain ⟨h1, h2, _⟩ := hst hs
        omega
      | false => rfl
    have hsum := hsf hslab
    have hz : ∀ c ∈ p.cubes, c.ccnt = 0 := by
      intro c hc
      have h0 : (p.cubes.map Cube.ccnt).sum = 0 := by omega
      exact List.sum_eq_zero_iff.mp h0 _ (List.mem_map_of_mem Cube.ccnt hc)
    show Box.panel p = Box.panel (p.reset 0)
    rw [panel_reset_zero]
    have hcubes : p.cubes.map (fun c => c.reset 0) = p.cubes := by
      conv_rhs => rw [← List.map_id p.cubes]
      apply List.map_congr_left
      intro c hc
      have hwfc := hcw c hc
      have hc0 := hz c hc
      rw [cube_reset_zero_eq_cubeAt (cube_wf_cmax hwfc)]
      show _ = c
      conv_rhs => rw [hwfc.2]
      rw [hc0]
    unfold wipedPanel
    rw [hcubes, ← h', ← hslab]

/-! ### Scanning the bits list -/

theorem sumC_cons (b : Box) (bs : List Box) : sumC (b :: bs) = b.ccnt + sumC bs := by
  simp [sumC]

theorem box_cmax_reset_zero (b : Box) : (b.reset 0).cmax = b.cmax := by
  cases b with
  | cube c => show (c.reset 0).cmax = c.cmax; rw [cube_cmax_reset]
  | panel p => show (p.reset 0).cmax = p.cmax; rw [panel_reset_zero]; rfl

theorem box_ccnt_reset_zero (b : Box) : (b.reset 0).ccnt = 0 := by
  cases b with
  | cube c => show (c.reset 0).ccnt = 0; rw [cube_reset_zero]
  | panel p => show (p.reset 0).ccnt = 0; rw [panel_reset_zero]; rfl

theorem sumCap_eq_of_proj {bs bs' : List Box}
    (h : bs.map (fun b => b.reset 0) = bs'.map (fun b => b.reset 0)) :
    sumCap bs = sumCap bs' := by
  have key : ∀ l : List Box, l.map Box.cmax
      = (l.map (fun b => b.reset 0)).map Box.cmax := by
    intro l
    rw [List.map_map]
    exact (List.map_congr_left fun b _ => (box_cmax_reset_zero b).symm)
  unfold sumCap
  rw [key bs, key bs', h]

theorem length_eq_of_proj {bs bs' : List Box}
    (h : bs.map (fun b => b.reset 0) = bs'.map (fun b => b.reset 0)) :
    bs.length = bs'.length := by
  have := congrArg List.length h
  simpa using this

theorem sumC_le_sumCap {bs : List Box} (hwf : ∀ b ∈ bs, b.wf) :
    sumC bs ≤ sumCap bs :=
  sum_map_le_sum_map fun b hb => box_wf_le (hwf b hb)

theorem all_full_of_sumC {bs : List Box} (hwf : ∀ b ∈ bs, b.wf)
    (h : sumC bs = sumCap bs) : ∀ b ∈ bs, b.ccnt = b.cmax :=
  all_eq_of_sum_map_eq (fun b hb => box_wf_le (hwf b hb)) (le_of_eq h.symm)

theorem all_zero_of_sumC {bs : List Box} (h : sumC bs = 0) :
    ∀ b ∈ bs, b.ccnt = 0 := fun b hb =>
  List.sum_eq_zero_iff.mp h _ (List.mem_map_of_mem Box.ccnt hb)

theorem attachBits_eq_none {bs : List Box} (h : ∀ b ∈ bs, b.cmax ≤ b.ccnt) :
    attachBits bs = none := by
  induction bs with
  | nil => rfl
  | cons b bs ih =>
    simp only [attachBits, box_attach_of_full (h b (List.mem_cons_self b bs))]
    rw [ih fun b hb => h b (List.mem_cons_of_mem _ hb)]
    rfl

theorem attachBits_eq_some {bs : List Box} (hwf : ∀ b ∈ bs, b.wf)
    (hex : ∃ b ∈ bs, b.ccnt < b.cmax) :
    ∃ bs', attachBits bs = some bs' ∧ (∀ b ∈ bs', b.wf) ∧
      sumC bs' = sumC bs + 1 ∧
      bs'.map (fun b => b.reset 0) = bs.map (fun b => b.reset 0) := by
  induction bs with
  | nil => simp at hex
  | cons b0 bs ih =>
    by_cases h0 : b0.ccnt < b0.cmax
    · obtain ⟨w1, w2, w3, w4⟩ := box_attach_lt (hwf b0 (List.mem_cons_self b0 bs)) h0
      have hd : b0.attach = ((b0.attach).1, true) := by rw [← w1]
      refine ⟨(b0.attach).1 :: bs, ?_, ?_, ?_, ?_⟩
      · simp only [attachBits]
        rw [hd]
      · intro b hb
        rcases List.mem_cons.mp hb with rfl | hb'
        · exact w2
        · exact hwf b (List.mem_cons_of_mem _ hb')
      · rw [sumC_cons, sumC_cons, w3]
        omega
      · simp only [List.map_cons, w4]
    · have hfull : b0.cmax ≤ b0.ccnt := by omega
      have hex' : ∃ b ∈ bs, b.ccnt < b.cmax := by
        obtain ⟨b, hb, hblt⟩ := hex
        rcases List.mem_cons.mp hb with rfl | hb'
        · omega
        · exact ⟨b, hb', hblt⟩
      obtain ⟨bs', he, hw, hs, hp⟩ := ih (fun b hb => hwf b (List.mem_cons_of_mem _ hb)) hex'
      refine ⟨b0 :: bs', ?_, ?_, ?_, ?_⟩
      · simp only [attachBits, box_attach_of_full hfull, he]
        rfl
      · intro b hb
        rcases List.mem_cons.mp hb with rfl | hb'
        · exact hwf b (List.mem_cons_self b bs)
        · exact hw b hb'
      · rw [sumC_cons, sumC_cons, hs]
        omega
      · simp only [List.map_cons, hp]

theorem detachBits_eq_none {bs : List Box} (h : ∀ b ∈ bs, b.ccnt = 0) :
    detachBits bs = none := by
  induction bs with
  | nil => rfl
  | cons b bs ih =>
    simp only [detachBits, box_detach_of_zero (h b (List.mem_cons_self b bs))]
    rw [ih fun b hb => h b (List.mem_cons_of_mem _ hb)]
    rfl

theorem detachBits_eq_some {bs : List Box} (hwf : ∀ b ∈ bs, b.wf)
    (hex : ∃ b ∈ bs, 0 < b.ccnt) :
    ∃ bs', detachBits bs = some bs' ∧ (∀ b ∈ bs', b.wf) ∧
      sumC bs' + 1 = sumC bs ∧
      bs'.map (fun b => b.reset 0) = bs.map (fun b => b.reset 0) := by
  induction bs with
  | nil => simp at hex
  | cons b0 bs ih =>
    by_cases h0 : 0 < b0.ccnt
    · obtain ⟨w1, w2, w3, w4⟩ := box_detach_pos (hwf b0 (List.mem_cons_self b0 bs)) h0
      have hd : b0.detach = ((b0.detach).1, true) := by rw [← w1]
      refine ⟨(b0.detach).1 :: bs, ?_, ?_, ?_, ?_⟩
      · simp only [detachBits]
        rw [hd]
      · intro b hb
        rcases List.mem_cons.mp hb with rfl | hb'
        · exact w2
        · exact hwf b (List.mem_cons_of_mem _ hb')
      · rw [sumC_cons, sumC_cons, w3]
        omega
      · simp only [List.map_cons, w4]
    · have hz : b0.ccnt = 0 := by omega
      have hex' : ∃ b ∈ bs, 0 < b.ccnt := by
        obtain ⟨b, hb, hbpos⟩ := hex
        rcases List.mem_cons.mp hb with rfl | hb'
        · omega
        · exact ⟨b, hb', hbpos⟩
      obtain ⟨bs', he, hw, hs, hp⟩ := ih (fun b hb => hwf b (List.mem_cons_of_mem _ hb)) hex'
      refine ⟨b0 :: bs', ?_, ?_, ?_, ?_⟩
      · simp only [detachBits, box_detach_of_zero hz, he]
        rfl
      · intro b hb
        rcases List.mem_cons.mp hb with rfl | hb'
        · exact hwf b (List.mem_cons_self b bs)
        · exact hw b hb'
      · rw [sumC_cons, sumC_cons, ← hs]
        omega
      · simp only [List.map_cons, hp]

/-! ### Counting the constructed volume -/

theorem sum_map_range (f : Nat → Nat) (n : Nat) :
    ((List.range n).map f).sum = ∑ i in Finset.range n, f i := by
  induction n with
  | zero => simp
  | succ n ih =>
    rw [List.range_succ]
    simp [Finset.sum_range_succ, ih]

theorem sum_map_flatMap {α β : Type} (l : List α) (g : α → List β) (f : β → Nat) :
    ((l.flatMap g).map f).sum = (l.map fun a => ((g a).map f).sum).sum := by
  induction l with
  | nil => rfl
  | cons a l ih => simp [List.flatMap_cons, ih]

theorem gridPositions_sum (L : Nat) (w : Nat → Nat → Nat → Nat) :
    ((gridPositions L).map fun q => w q.1 q.2.1 q.2.2).sum
      = ∑ x in Finset.range (L + 1), ∑ y in Finset.range (L + 1),
          ∑ z in Finset.range (L + 1), w x y z := by
  unfold gridPositions
  rw [sum_map_flatMap, sum_map_range]
  apply Finset.sum_congr rfl
  intro x _
  rw [sum_map_flatMap, sum_map_range]
  apply Finset.sum_congr rfl
  intro y _
  rw [List.map_map, sum_map_range]
  apply Finset.sum_congr rfl
  intro z _
  rfl

theorem sum_range_ite_card {n : Nat} {p : Nat → Prop} [DecidablePred p]
    {k : Nat} (a b : Nat) (hk : ((Finset.range n).filter p).card = k) :
    (∑ z in Finset.range n, if p z then a else b) = k * a + (n - k) * b := by
  rw [Finset.sum_ite, Finset.sum_const, Finset.sum_const, hk]
  have hle : k ≤ n := by
    rw [← hk]
    have hcle := Finset.card_filter_le (Finset.range n) p
    simpa using hcle
  have hcompl : ((Finset.range n).filter fun z => ¬p z).card = n - k := by
    have h2 := Finset.filter_card_add_filter_neg_card_eq_card
      (s := Finset.range n) p
    rw [Finset.card_range, hk] at h2
    omega
  rw [hcompl, smul_eq_mul, smul_eq_mul]

theorem card_filter_ext {L : Nat} (hL : 1 ≤ L) :
    ((Finset.range (L + 1)).filter fun z => z = 0 ∨ z = L).card = 2 := by
  have hset : (Finset.range (L + 1)).filter (fun z => z = 0 ∨ z = L)
      = {0, L} := by
    ext z
    simp only [Finset.mem_filter, Finset.mem_range, Finset.mem_insert,
      Finset.mem_singleton]
    omega
  rw [hset, Finset.card_pair (by omega)]

theorem card_filter_point {n v : Nat} (hv : v < n) :
    ((Finset.range n).filter fun z => z = v).card = 1 := by
  have hset : (Finset.range n).filter (fun z => z = v) = {v} := by
    ext z
    simp only [Finset.mem_filter, Finset.mem_range, Finset.mem_singleton]
    omega
  rw [hset, Finset.card_singleton]

/-! Pointwise classification of grid positions (all coordinates at most L). -/

theorem posKind_corner {L x y z : Nat} (hx : x = 0 ∨ x = L) (hy : y = 0 ∨ y = L)
    (hz : z = 0 ∨ z = L) : posKind L x y z = .corner := by
  unfold posKind
  rw [if_pos (by simp [extremal]; omega)]

theorem posKind_edge_xy {L x y z : Nat} (hx : x = 0 ∨ x = L) (hy : y = 0 ∨ y = L)
    (hz : ¬(z = 0 ∨ z = L)) : posKind L x y z = .edge := by
  unfold posKind
  rw [if_neg (by simp [extremal]; omega), if_pos (by simp [extremal]; omega)]

theorem posKind_edge_xz {L x y z : Nat} (hx : x = 0 ∨ x = L) (hy : ¬(y = 0 ∨ y = L))
    (hz : z = 0 ∨ z = L) : posKind L x y z = .edge := by
  unfold posKind
  rw [if_neg (by simp [extremal]; omega), if_pos (by simp [extremal]; omega)]

theorem posKind_edge_yz {L x y z : Nat} (hx : ¬(x = 0 ∨ x = L)) (hy : y = 0 ∨ y = L)
    (hz : z = 0 ∨ z = L) : posKind L x y z = .edge := by
  unfold posKind
  rw [if_neg (by simp [extremal]; omega), if_pos (by simp [extremal]; omega)]

theorem posKind_interior {L x y z : Nat} (hx : ¬(x = 0 ∨ x = L))
    (hy : ¬(y = 0 ∨ y = L)) (hz : ¬(z = 0 ∨ z = L)) :
    posKind L x y z = .interior := by
  unfold posKind
  rw [if_neg (by simp [extremal]; omega), if_neg (by simp [extremal]; omega),
    if_neg (by simp [extremal]; omega)]

theorem posKind_side0 {L x y z : Nat} (hx : x = L) (hy : ¬(y = 0 ∨ y = L))
    (hz : ¬(z = 0 ∨ z = L)) (hyle : y ≤ L) (hzle : z ≤ L) :
    posKind L x y z = .side 0 := by
  have hL : 1 ≤ L := by omega
  unfold posKind
  rw [if_neg (by simp [extremal]; omega), if_neg (by simp [extremal]; omega),
    if_pos (by simp [extremal]; omega)]
  have hs : sideIndex L x y z = some 0 := by
    unfold sideIndex mcoord
    rw [if_pos ⟨hx, by omega, by omega⟩]
  rw [hs]

theorem posKind_side1 {L x y z : Nat} (hx : x = 0) (hy : ¬(y = 0 ∨ y = L))
    (hz : ¬(z = 0 ∨ z = L)) (hyle : y ≤ L) (hzle : z ≤ L) :
    posKind L x y z = .side 1 := by
  have hL : 1 ≤ L := by omega
  unfold posKind
  rw [if_neg (by simp [extremal]; omega), if_neg (by simp [extremal]; omega),
    if_pos (by simp [extremal]; omega)]
  have hs : sideIndex L x y z = some 1 := by
    unfold sideIndex mcoord
    rw [if_neg (by omega), if_pos ⟨hx, by omega, by omega⟩]
  rw [hs]

theorem posKind_side2 {L x y z : Nat} (hy : y = L) (hx : ¬(x = 0 ∨ x = L))
    (hz : ¬(z = 0 ∨ z = L)) (hxle : x ≤ L) (hzle : z ≤ L) :
    posKind L x y z = .side 2 := by
  have hL : 1 ≤ L := by omega
  unfold posKind
  rw [if_neg (by simp [extremal]; omega), if_neg (by simp [extremal]; omega),
    if_pos (by simp [extremal]; omega)]
  have hs : sideIndex L x y z = some 2 := by
    unfold sideIndex mcoord
    rw [if_neg (by omega), if_neg (by omega), if_pos ⟨hy, by omega, by omega⟩]
  rw [hs]

theorem posKind_side3 {L x y z : Nat} (hy : y = 0) (hx : ¬(x = 0 ∨ x = L))
    (hz : ¬(z = 0 ∨ z = L)) (hxle : x ≤ L) (hzle : z ≤ L) :
    posKind L x y z = .side 3 := by
  have hL : 1 ≤ L := by omega
  unfold posKind
  rw [if_neg (by simp [extremal]; omega), if_neg (by simp [extremal]; omega),
    if_pos (by simp [extremal]; omega)]
  have hs : sideIndex L x y z = some 3 := by
    unfold sideIndex mcoord
    rw [if_neg (by omega), if_neg (by omega), if_neg (by omega),
      if_pos ⟨hy, by omega, by omega⟩]
  rw [hs]

theorem posKind_side4 {L x y z : Nat} (hz : z = L) (hx : ¬(x = 0 ∨ x = L))
    (hy : ¬(y = 0 ∨ y = L)) (hxle : x ≤ L) (hyle : y ≤ L) :
    posKind L x y z = .side 4 := by
  have hL : 1 ≤ L := by omega
  unfold posKind
  rw [if_neg (by simp [extremal]; omega), if_neg (by simp [extremal]; omega),
    if_pos (by simp [extremal]; omega)]
  have hs : sideIndex L x y z = some 4 := by
    unfold sideIndex mcoord
    rw [if_neg (by omega), if_neg (by omega), if_neg (by omega),
      if_neg (by omega), if_pos ⟨hz, by omega, by omega⟩]
  rw [hs]

theorem posKind_side5 {L x y z : Nat} (hz : z = 0) (hx : ¬(x = 0 ∨ x = L))
    (hy : ¬(y = 0 ∨ y = L)) (hxle : x ≤ L) (hyle : y ≤ L) :
    posKind L x y z = .side 5 := by
  have hL : 1 ≤ L := by omega
  unfold posKind
  rw [if_neg (by simp [extremal]; omega), if_neg (by simp [extremal]; omega),
    if_pos (by simp [extremal]; omega)]
  have hs : sideIndex L x y z = some 5 := by
    unfold sideIndex mcoord
    rw [if_neg (by omega), if_neg (by omega), if_neg (by omega),
      if_neg (by omega), if_neg (by omega), if_pos ⟨hz, by omega, by omega⟩]
  rw [hs]

/-- Total classification of a grid position, combining the forward
characterisations: the if/else chain of the construction loop in terms of
plain arithmetic region tests. -/
theorem posKind_cases {L x y z : Nat} (hL : 1 ≤ L) (hxle : x ≤ L)
    (hyle : y ≤ L) (hzle : z ≤ L) :
    posKind L x y z =
      if (x = 0 ∨ x = L) ∧ (y = 0 ∨ y = L) ∧ (z = 0 ∨ z = L) then .corner
      else if (x = 0 ∨ x = L) ∧ (y = 0 ∨ y = L) ∨
          (x = 0 ∨ x = L) ∧ (z = 0 ∨ z = L) ∨
          (y = 0 ∨ y = L) ∧ (z = 0 ∨ z = L) then .edge
      else if x = L then .side 0
      else if x = 0 then .side 1
      else if y = L then .side 2
      else if y = 0 then .side 3
      else if z = L then .side 4
      else if z = 0 then .side 5
      else .interior := by
  by_cases h1 : (x = 0 ∨ x = L) ∧ (y = 0 ∨ y = L) ∧ (z = 0 ∨ z = L)
  · rw [if_pos h1, posKind_corner h1.1 h1.2.1 h1.2.2]
  · rw [if_neg h1]
    by_cases h2 : (x = 0 ∨ x = L) ∧ (y = 0 ∨ y = L) ∨
        (x = 0 ∨ x = L) ∧ (z = 0 ∨ z = L) ∨ (y = 0 ∨ y = L) ∧ (z = 0 ∨ z = L)
    · rw [if_pos h2]
      by_cases hxy : (x = 0 ∨ x = L) ∧ (y = 0 ∨ y = L)
      · exact posKind_edge_xy hxy.1 hxy.2 (by omega)
      · by_cases hxz : (x = 0 ∨ x = L) ∧ (z = 0 ∨ z = L)
        · exact posKind_edge_xz hxz.1 (by omega) hxz.2
        · have hyz : (y = 0 ∨ y = L) ∧ (z = 0 ∨ z = L) := by omega
          exact posKind_edge_yz (by omega) hyz.1 hyz.2
    · rw [if_neg h2]
      by_cases hxL : x = L
      · rw [if_pos hxL]
        exact posKind_side0 hxL (by omega) (by omega) hyle hzle
      · rw [if_neg hxL]
        by_cases hx0 : x = 0
        · rw [if_pos hx0]
          exact posKind_side1 hx0 (by omega) (by omega) hyle hzle
        · rw [if_neg hx0]
          by_cases hyL : y = L
          · rw [if_pos hyL]
            exact posKind_side2 hyL (by omega) (by omega) hxle hzle
          · rw [if_neg hyL]
            by_cases hy0 : y = 0
            · rw [if_pos hy0]
              exact posKind_side3 hy0 (by omega) (by omega) hxle hzle
            · rw [if_neg hy0]
              by_cases hzL : z = L
              · rw [if_pos hzL]
                exact posKind_side4 hzL (by omega) (by omega) hxle hyle
              · rw [if_neg hzL]
                by_cases hz0 : z = 0
                · rw [if_pos hz0]
                  exact posKind_side5 hz0 (by omega) (by omega) hxle hyle
                · rw [if_neg hz0]
                  exact posKind_interior (by omega) (by omega) (by omega)

theorem card_filter_interior {L : Nat} (hL : 1 ≤ L) :
    ((Finset.range (L + 1)).filter fun z => ¬(z = 0 ∨ z = L)).card = L - 1 := by
  have h2 := Finset.filter_card_add_filter_neg_card_eq_card
    (s := Finset.range (L + 1)) (fun z => z = 0 ∨ z = L)
  rw [Finset.card_range, card_filter_ext hL] at h2
  omega

theorem cornerEdgeWeight_eval {L x y z : Nat} (hL : 1 ≤ L) (hxle : x ≤ L)
    (hyle : y ≤ L) (hzle : z ≤ L) (a b : Nat) :
    cornerEdgeWeight a b L x y z =
      if (x = 0 ∨ x = L) ∧ (y = 0 ∨ y = L) ∧ (z = 0 ∨ z = L) then a
      else if (x = 0 ∨ x = L) ∧ (y = 0 ∨ y = L) ∨
          (x = 0 ∨ x = L) ∧ (z = 0 ∨ z = L) ∨
          (y = 0 ∨ y = L) ∧ (z = 0 ∨ z = L) then b
      else 0 := by
  have hcs := posKind_cases (x := x) (y := y) (z := z) hL hxle hyle hzle
  by_cases h1 : (x = 0 ∨ x = L) ∧ (y = 0 ∨ y = L) ∧ (z = 0 ∨ z = L)
  · rw [if_pos h1] at hcs
    unfold cornerEdgeWeight
    rw [hcs, if_pos h1]
  · rw [if_neg h1] at hcs
    rw [if_neg h1]
    by_cases h2 : (x = 0 ∨ x = L) ∧ (y = 0 ∨ y = L) ∨
        (x = 0 ∨ x = L) ∧ (z = 0 ∨ z = L) ∨ (y = 0 ∨ y = L) ∧ (z = 0 ∨ z = L)
    · rw [if_pos h2] at hcs
      unfold cornerEdgeWeight
      rw [hcs, if_pos h2]
    · rw [if_neg h2] at hcs
      rw [if_neg h2]
      unfold cornerEdgeWeight
      rw [hcs]
      by_cases c0 : x = L
      · rw [if_pos c0]
      · rw [if_neg c0]
        by_cases c1 : x = 0
        · rw [if_pos c1]
        · rw [if_neg c1]
          by_cases c2 : y = L
          · rw [if_pos c2]
          · rw [if_neg c2]
            by_cases c3 : y = 0
            · rw [if_pos c3]
            · rw [if_neg c3]
              by_cases c4 : z = L
              · rw [if_pos c4]
              · rw [if_neg c4]
                by_cases c5 : z = 0
                · rw [if_pos c5]
                · rw [if_neg c5]

theorem sideIndicator_eval0 {L x y z : Nat} (hL : 1 ≤ L) (hxle : x ≤ L)
    (hyle : y ≤ L) (hzle : z ≤ L) :
    sideIndicator L 0 x y z = if x = L ∧ ¬(y = 0 ∨ y = L) ∧ ¬(z = 0 ∨ z = L) then 1 else 0 := by
  have hcs := posKind_cases (x := x) (y := y) (z := z) hL hxle hyle hzle
  unfold sideIndicator
  by_cases h1 : (x = 0 ∨ x = L) ∧ (y = 0 ∨ y = L) ∧ (z = 0 ∨ z = L)
  · rw [if_pos h1] at hcs
    rw [hcs, if_neg (by simp), if_neg (by omega)]
  · rw [if_neg h1] at hcs
    by_cases h2 : (x = 0 ∨ x = L) ∧ (y = 0 ∨ y = L) ∨
        (x = 0 ∨ x = L) ∧ (z = 0 ∨ z = L) ∨ (y = 0 ∨ y = L) ∧ (z = 0 ∨ z = L)
    · rw [if_pos h2] at hcs
      rw [hcs, if_neg (by simp), if_neg (by omega)]
    · rw [if_neg h2] at hcs
      by_cases c0 : x = L
      · rw [if_pos c0] at hcs
        rw [hcs, if_pos rfl, if_pos (by omega)]
      · rw [if_neg c0] at hcs
        by_cases c1 : x = 0
        · rw [if_pos c1] at hcs
          rw [hcs, if_neg (by simp), if_neg (by omega)]
        · rw [if_neg c1] at hcs
          by_cases c2 : y = L
          · rw [if_pos c2] at hcs
            rw [hcs, if_neg (by simp), if_neg (by omega)]
          · rw [if_neg c2] at hcs
            by_cases c3 : y = 0
            · rw [if_pos c3] at hcs
              rw [hcs, if_neg (by simp), if_neg (by omega)]
            · rw [if_neg c3] at hcs
              by_cases c4 : z = L
              · rw [if_pos c4] at hcs
                rw [hcs, if_neg (by simp), if_neg (by omega)]
              · rw [if_neg c4] at hcs
                by_cases c5 : z = 0
                · rw [if_pos c5] at hcs
                  rw [hcs, if_neg (by simp), if_neg (by omega)]
                · rw [if_neg c5] at hcs
                  rw [hcs, if_neg (by simp), if_neg (by omega)]

theorem sideIndicator_eval1 {L x y z : Nat} (hL : 1 ≤ L) (hxle : x ≤ L)
    (hyle : y ≤ L) (hzle : z ≤ L) :
    sideIndicator L 1 x y z = if x = 0 ∧ ¬(y = 0 ∨ y = L) ∧ ¬(z = 0 ∨ z = L) then 1 else 0 := by
  have hcs := posKind_cases (x := x) (y := y) (z := z) hL hxle hyle hzle
  unfold sideIndicator
  by_cases h1 : (x = 0 ∨ x = L) ∧ (y = 0 ∨ y = L) ∧ (z = 0 ∨ z = L)
  · rw [if_pos h1] at hcs
    rw [hcs, if_neg (by simp), if_neg (by omega)]
  · rw [if_neg h1] at hcs
    by_cases h2 : (x = 0 ∨ x = L) ∧ (y = 0 ∨ y = L) ∨
        (x = 0 ∨ x = L) ∧ (z = 0 ∨ z = L) ∨ (y = 0 ∨ y = L) ∧ (z = 0 ∨ z = L)
    · rw [if_pos h2] at hcs
      rw [hcs, if_neg (by simp), if_neg (by omega)]
    · rw [if_neg h2] at hcs
      by_cases c0 : x = L
      · rw [if_pos c0] at hcs
        rw [hcs, if_neg (by simp), if_neg (by omega)]
      · rw [if_neg c0] at hcs
        by_cases c1 : x = 0
        · rw [if_pos c1] at hcs
          rw [hcs, if_pos rfl, if_pos (by omega)]
        · rw [if_neg c1] at hcs
          by_cases c2 : y = L
          · rw [if_pos c2] at hcs
            rw [hcs, if_neg (by simp), if_neg (by omega)]
          · rw [if_neg c2] at hcs
            by_cases c3 : y = 0
            · rw [if_pos c3] at hcs
              rw [hcs, if_neg (by simp), if_neg (by omega)]
            · rw [if_neg c3] at hcs
              by_cases c4 : z = L
              · rw [if_pos c4] at hcs
                rw [hcs, if_neg (by simp), if_neg (by omega)]
              · rw [if_neg c4] at hcs
                by_cases c5 : z = 0
                · rw [if_pos c5] at hcs
                  rw [hcs, if_neg (by simp), if_neg (by omega)]
                · rw [if_neg c5] at hcs
                  rw [hcs, if_neg (by simp), if_neg (by omega)]

theorem sideIndicator_eval2 {L x y z : Nat} (hL : 1 ≤ L) (hxle : x ≤ L)
    (hyle : y ≤ L) (hzle : z ≤ L) :
    sideIndicator L 2 x y z = if y = L ∧ ¬(x = 0 ∨ x = L) ∧ ¬(z = 0 ∨ z = L) then 1 else 0 := by
  have hcs := posKind_cases (x := x) (y := y) (z := z) hL hxle hyle hzle
  unfold sideIndicator
  by_cases h1 : (x = 0 ∨ x = L) ∧ (y = 0 ∨ y = L) ∧ (z = 0 ∨ z = L)
  · rw [if_pos h1] at hcs
    rw [hcs, if_neg (by simp), if_neg (by omega)]
  · rw [if_neg h1] at hcs
    by_cases h2 : (x = 0 ∨ x = L) ∧ (y = 0 ∨ y = L) ∨
        (x = 0 ∨ x = L) ∧ (z = 0 ∨ z = L) ∨ (y = 0 ∨ y = L) ∧ (z = 0 ∨ z = L)
    · rw [if_pos h2] at hcs
      rw [hcs, if_neg (by simp), if_neg (by omega)]
    · rw [if_neg h2] at hcs
      by_cases c0 : x = L
      · rw [if_pos c0] at hcs
        rw [hcs, if_neg (by simp), if_neg (by omega)]
      · rw [if_neg c0] at hcs
        by_cases c1 : x = 0
        · rw [if_pos c1] at hcs
          rw [hcs, if_neg (by simp), if_neg (by omega)]
        · rw [if_neg c1] at hcs
          by_cases c2 : y = L
          · rw [if_pos c2] at hcs
            rw [hcs, if_pos rfl, if_pos (by omega)]
          · rw [if_neg c2] at hcs
            by_cases c3 : y = 0
            · rw [if_pos c3] at hcs
              rw [hcs, if_neg (by simp), if_neg (by omega)]
            · rw [if_neg c3] at hcs
              by_cases c4 : z = L
              · rw [if_pos c4] at hcs
                rw [hcs, if_neg (by simp), if_neg (by omega)]
              · rw [if_neg c4] at hcs
                by_cases c5 : z = 0
                · rw [if_pos c5] at hcs
                  rw [hcs, if_neg (by simp), if_neg (by omega)]
                · rw [if_neg c5] at hcs
                  rw [hcs, if_neg (by simp), if_neg (by omega)]

theorem sideIndicator_eval3 {L x y z : Nat} (hL : 1 ≤ L) (hxle : x ≤ L)
    (hyle : y ≤ L) (hzle : z ≤ L) :
    sideIndicator L 3 x y z = if y = 0 ∧ ¬(x = 0 ∨ x = L) ∧ ¬(z = 0 ∨ z = L) then 1 else 0 := by
  have hcs := posKind_cases (x := x) (y := y) (z := z) hL hxle hyle hzle
  unfold sideIndicator
  by_cases h1 : (x = 0 ∨ x = L) ∧ (y = 0 ∨ y = L) ∧ (z = 0 ∨ z = L)
  · rw [if_pos h1] at hcs
    rw [hcs, if_neg (by simp), if_neg (by omega)]
  · rw [if_neg h1] at hcs
    by_cases h2 : (x = 0 ∨ x = L) ∧ (y = 0 ∨ y = L) ∨
        (x = 0 ∨ x = L) ∧ (z = 0 ∨ z = L) ∨ (y = 0 ∨ y = L) ∧ (z = 0 ∨ z = L)
    · rw [if_pos h2] at hcs
      rw [hcs, if_neg (by simp), if_neg (by omega)]
    · rw [if_neg h2] at hcs
      by_cases c0 : x = L
      · rw [if_pos c0] at hcs
        rw [hcs, if_neg (by simp), if_neg (by omega)]
      · rw [if_neg c0] at hcs
        by_cases c1 : x = 0
        · rw [if_pos c1] at hcs
          rw [hcs, if_neg (by simp), if_neg (by omega)]
        · rw [if_neg c1] at hcs
          by_cases c2 : y = L
          · rw [if_pos c2] at hcs
            rw [hcs, if_neg (by simp), if_neg (by omega)]
          · rw [if_neg c2] at hcs
            by_cases c3 : y = 0
            · rw [if_pos c3] at hcs
              rw [hcs, if_pos rfl, if_pos (by omega)]
            · rw [if_neg c3] at hcs
              by_cases c4 : z = L
              · rw [if_pos c4] at hcs
                rw [hcs, if_neg (by simp), if_neg (by omega)]
              · rw [if_neg c4] at hcs
                by_cases c5 : z = 0
                · rw [if_pos c5] at hcs
                  rw [hcs, if_neg (by simp), if_neg (by omega)]
                · rw [if_neg c5] at hcs
                  rw [hcs, if_neg (by simp), if_neg (by omega)]

theorem sideIndicator_eval4 {L x y z : Nat} (hL : 1 ≤ L) (hxle : x ≤ L)
    (hyle : y ≤ L) (hzle : z ≤ L) :
    sideIndicator L 4 x y z = if z = L ∧ ¬(x = 0 ∨ x = L) ∧ ¬(y = 0 ∨ y = L) then 1 else 0 := by
  have hcs := posKind_cases (x := x) (y := y) (z := z) hL hxle hyle hzle
  unfold sideIndicator
  by_cases h1 : (x = 0 ∨ x = L) ∧ (y = 0 ∨ y = L) ∧ (z = 0 ∨ z = L)
  · rw [if_pos h1] at hcs
    rw [hcs, if_neg (by simp), if_neg (by omega)]
  · rw [if_neg h1] at hcs
    by_cases h2 : (x = 0 ∨ x = L) ∧ (y = 0 ∨ y = L) ∨
        (x = 0 ∨ x = L) ∧ (z = 0 ∨ z = L) ∨ (y = 0 ∨ y = L) ∧ (z = 0 ∨ z = L)
    · rw [if_pos h2] at hcs
      rw [hcs, if_neg (by simp), if_neg (by omega)]
    · rw [if_neg h2] at hcs
      by_cases c0 : x = L
      · rw [if_pos c0] at hcs
        rw [hcs, if_neg (by simp), if_neg (by omega)]
      · rw [if_neg c0] at hcs
        by_cases c1 : x = 0
        · rw [if_pos c1] at hcs
          rw [hcs, if_neg (by simp), if_neg (by omega)]
        · rw [if_neg c1] at hcs
          by_cases c2 : y = L
          · rw [if_pos c2] at hcs
            rw [hcs, if_neg (by simp), if_neg (by omega)]
          · rw [if_neg c2] at hcs
            by_cases c3 : y = 0
            · rw [if_pos c3] at hcs
              rw [hcs, if_neg (by simp), if_neg (by omega)]
            · rw [if_neg c3] at hcs
              by_cases c4 : z = L
              · rw [if_pos c4] at hcs
                rw [hcs, if_pos rfl, if_pos (by omega)]
              · rw [if_neg c4] at hcs
                by_cases c5 : z = 0
                · rw [if_pos c5] at hcs
                  rw [hcs, if_neg (by simp), if_neg (by omega)]
                · rw [if_neg c5] at hcs
                  rw [hcs, if_neg (by simp), if_neg (by omega)]

theorem sideIndicator_eval5 {L x y z : Nat} (hL : 1 ≤ L) (hxle : x ≤ L)
    (hyle : y ≤ L) (hzle : z ≤ L) :
    sideIndicator L 5 x y z = if z = 0 ∧ ¬(x = 0 ∨ x = L) ∧ ¬(y = 0 ∨ y = L) then 1 else 0 := by
  have hcs := posKind_cases (x := x) (y := y) (z := z) hL hxle hyle hzle
  unfold sideIndicator
  by_cases h1 : (x = 0 ∨ x = L) ∧ (y = 0 ∨ y = L) ∧ (z = 0 ∨ z = L)
  · rw [if_pos h1] at hcs
    rw [hcs, if_neg (by simp), if_neg (by omega)]
  · rw [if_neg h1] at hcs
    by_cases h2 : (x = 0 ∨ x = L) ∧ (y = 0 ∨ y = L) ∨
        (x = 0 ∨ x = L) ∧ (z = 0 ∨ z = L) ∨ (y = 0 ∨ y = L) ∧ (z = 0 ∨ z = L)
    · rw [if_pos h2] at hcs
      rw [hcs, if_neg (by simp), if_neg (by omega)]
    · rw [if_neg h2] at hcs
      by_cases c0 : x = L
      · rw [if_pos c0] at hcs
        rw [hcs, if_neg (by simp), if_neg (by omega)]
      · rw [if_neg c0] at hcs
        by_cases c1 : x = 0
        · rw [if_pos c1] at hcs
          rw [hcs, if_neg (by simp), if_neg (by omega)]
        · rw [if_neg c1] at hcs
          by_cases c2 : y = L
          · rw [if_pos c2] at hcs
            rw [hcs, if_neg (by simp), if_neg (by omega)]
          · rw [if_neg c2] at hcs
            by_cases c3 : y = 0
            · rw [if_pos c3] at hcs
              rw [hcs, if_neg (by simp), if_neg (by omega)]
            · rw [if_neg c3] at hcs
              by_cases c4 : z = L
              · rw [if_pos c4] at hcs
                rw [hcs, if_neg (by simp), if_neg (by omega)]
              · rw [if_neg c4] at hcs
                by_cases c5 : z = 0
                · rw [if_pos c5] at hcs
                  rw [hcs, if_pos rfl, if_pos (by omega)]
                · rw [if_neg c5] at hcs
                  rw [hcs, if_neg (by simp), if_neg (by omega)]

theorem mem_range_le {n v : Nat} (hv : v ∈ Finset.range (n + 1)) : v ≤ n := by
  have := Finset.mem_range.mp hv
  omega

theorem sum3_indicator {p q r : Nat → Prop} [DecidablePred p] [DecidablePred q]
    [DecidablePred r] {n cp cq cr : Nat}
    (hp : ((Finset.range n).filter p).card = cp)
    (hq : ((Finset.range n).filter q).card = cq)
    (hr : ((Finset.range n).filter r).card = cr) :
    (∑ x in Finset.range n, ∑ y in Finset.range n, ∑ z in Finset.range n,
      if p x ∧ q y ∧ r z then 1 else 0) = cp * (cq * cr) := by
  have hz : ∀ x y : Nat, (∑ z in Finset.range n, if p x ∧ q y ∧ r z then 1 else 0)
      = if p x ∧ q y then cr else 0 := by
    intro x y
    by_cases hpq : p x ∧ q y
    · rw [if_pos hpq]
      have hpt : ∀ z ∈ Finset.range n,
          (if p x ∧ q y ∧ r z then 1 else 0) = if r z then 1 else 0 := by
        intro z _
        by_cases hrz : r z
        · rw [if_pos ⟨hpq.1, hpq.2, hrz⟩, if_pos hrz]
        · rw [if_neg (by tauto), if_neg hrz]
      rw [Finset.sum_congr rfl hpt, sum_range_ite_card 1 0 hr]
      simp
    · rw [if_neg hpq]
      apply Finset.sum_eq_zero
      intro z _
      rw [if_neg (by tauto)]
  have hy : ∀ x : Nat, (∑ y in Finset.range n, ∑ z in Finset.range n,
      if p x ∧ q y ∧ r z then 1 else 0) = if p x then cq * cr else 0 := by
    intro x
    have hpt : ∀ y ∈ Finset.range n,
        (∑ z in Finset.range n, if p x ∧ q y ∧ r z then 1 else 0)
          = if p x ∧ q y then cr else 0 := fun y _ => hz x y
    rw [Finset.sum_congr rfl hpt]
    by_cases hpx : p x
    · rw [if_pos hpx]
      have hpt2 : ∀ y ∈ Finset.range n,
          (if p x ∧ q y then cr else 0) = if q y then cr else 0 := by
        intro y _
        by_cases hqy : q y
        · rw [if_pos ⟨hpx, hqy⟩, if_pos hqy]
        · rw [if_neg (by tauto), if_neg hqy]
      rw [Finset.sum_congr rfl hpt2, sum_range_ite_card cr 0 hq]
      simp [Nat.mul_comm]
    · rw [if_neg hpx]
      apply Finset.sum_eq_zero
      intro y _
      rw [if_neg (by tauto)]
  have hpt : ∀ x ∈ Finset.range n,
      (∑ y in Finset.range n, ∑ z in Finset.range n,
        if p x ∧ q y ∧ r z then 1 else 0) = if p x then cq * cr else 0 :=
    fun x _ => hy x
  rw [Finset.sum_congr rfl hpt, sum_range_ite_card (cq * cr) 0 hp]
  simp [Nat.mul_comm]

theorem sum_map_filterMap {α β : Type} (g : α → Option β) (f : β → Nat)
    (l : List α) :
    ((l.filterMap g).map f).sum = (l.map fun a => ((g a).map f).getD 0).sum := by
  induction l with
  | nil => rfl
  | cons a l ih =>
    cases hg : g a with
    | none => simp [List.filterMap_cons, hg, ih]
    | some b => simp [List.filterMap_cons, hg, ih]

theorem newCube_one : newCube 1 = cubeAt 1 := by decide

theorem newCube_two : newCube 2 = cubeAt 2 := by decide

theorem newCube_four : newCube 4 = cubeAt 4 := by decide

theorem sideCount_eq0 {L : Nat} (hL : 1 ≤ L) :
    sideCount L 0 = (L - 1) * (L - 1) := by
  unfold sideCount
  rw [gridPositions_sum]
  have h1 : ∀ x ∈ Finset.range (L + 1), ∀ y ∈ Finset.range (L + 1),
      ∀ z ∈ Finset.range (L + 1), sideIndicator L 0 x y z
        = if (x = L) ∧ ¬(y = 0 ∨ y = L) ∧ ¬(z = 0 ∨ z = L) then 1 else 0 :=
    fun x hx y hy z hz =>
      sideIndicator_eval0 hL (mem_range_le hx) (mem_range_le hy) (mem_range_le hz)
  rw [Finset.sum_congr rfl fun x hx => Finset.sum_congr rfl fun y hy =>
    Finset.sum_congr rfl fun z hz => h1 x hx y hy z hz]
  rw [sum3_indicator (card_filter_point (by omega)) (card_filter_interior hL)
    (card_filter_interior hL)]
  simp

theorem sideCount_eq1 {L : Nat} (hL : 1 ≤ L) :
    sideCount L 1 = (L - 1) * (L - 1) := by
  unfold sideCount
  rw [gridPositions_sum]
  have h1 : ∀ x ∈ Finset.range (L + 1), ∀ y ∈ Finset.range (L + 1),
      ∀ z ∈ Finset.range (L + 1), sideIndicator L 1 x y z
        = if (x = 0) ∧ ¬(y = 0 ∨ y = L) ∧ ¬(z = 0 ∨ z = L) then 1 else 0 :=
    fun x hx y hy z hz =>
      sideIndicator_eval1 hL (mem_range_le hx) (mem_range_le hy) (mem_range_le hz)
  rw [Finset.sum_congr rfl fun x hx => Finset.sum_congr rfl fun y hy =>
    Finset.sum_congr rfl fun z hz => h1 x hx y hy z hz]
  rw [sum3_indicator (card_filter_point (by omega)) (card_filter_interior hL)
    (card_filter_interior hL)]
  simp

theorem sideCount_eq2 {L : Nat} (hL : 1 ≤ L) :
    sideCount L 2 = (L - 1) * (L - 1) := by
  unfold sideCount
  rw [gridPositions_sum]
  have h1 : ∀ x ∈ Finset.range (L + 1), ∀ y ∈ Finset.range (L + 1),
      ∀ z ∈ Finset.range (L + 1), sideIndicator L 2 x y z
        = if ¬(x = 0 ∨ x = L) ∧ (y = L) ∧ ¬(z = 0 ∨ z = L) then 1 else 0 := by
    intro x hx y hy z hz
    rw [sideIndicator_eval2 hL (mem_range_le hx) (mem_range_le hy) (mem_range_le hz)]
    exact if_congr (by tauto) rfl rfl
  rw [Finset.sum_congr rfl fun x hx => Finset.sum_congr rfl fun y hy =>
    Finset.sum_congr rfl fun z hz => h1 x hx y hy z hz]
  rw [sum3_indicator (card_filter_interior hL) (card_filter_point (by omega))
    (card_filter_interior hL)]
  simp

theorem sideCount_eq3 {L : Nat} (hL : 1 ≤ L) :
    sideCount L 3 = (L - 1) * (L - 1) := by
  unfold sideCount
  rw [gridPositions_sum]
  have h1 : ∀ x ∈ Finset.range (L + 1), ∀ y ∈ Finset.range (L + 1),
      ∀ z ∈ Finset.range (L + 1), sideIndicator L 3 x y z
        = if ¬(x = 0 ∨ x = L) ∧ (y = 0) ∧ ¬(z = 0 ∨ z = L) then 1 else 0 := by
    intro x hx y hy z hz
    rw [sideIndicator_eval3 hL (mem_range_le hx) (mem_range_le hy) (mem_range_le hz)]
    exact if_congr (by tauto) rfl rfl
  rw [Finset.sum_congr rfl fun x hx => Finset.sum_congr rfl fun y hy =>
    Finset.sum_congr rfl fun z hz => h1 x hx y hy z hz]
  rw [sum3_indicator (card_filter_interior hL) (card_filter_point (by omega))
    (card_filter_interior hL)]
  simp

theorem sideCount_eq4 {L : Nat} (hL : 1 ≤ L) :
    sideCount L 4 = (L - 1) * (L - 1) := by
  unfold sideCount
  rw [gridPositions_sum]
  have h1 : ∀ x ∈ Finset.range (L + 1), ∀ y ∈ Finset.range (L + 1),
      ∀ z ∈ Finset.range (L + 1), sideIndicator L 4 x y z
        = if ¬(x = 0 ∨ x = L) ∧ ¬(y = 0 ∨ y = L) ∧ (z = L) then 1 else 0 := by
    intro x hx y hy z hz
    rw [sideIndicator_eval4 hL (mem_range_le hx) (mem_range_le hy) (mem_range_le hz)]
    exact if_congr (by tauto) rfl rfl
  rw [Finset.sum_congr rfl fun x hx => Finset.sum_congr rfl fun y hy =>
    Finset.sum_congr rfl fun z hz => h1 x hx y hy z hz]
  rw [sum3_indicator (card_filter_interior hL) (card_filter_interior hL)
    (card_filter_point (by omega))]
  simp

theorem grid_sum_CE {L : Nat} (hL : 1 ≤ L) (a b : Nat) :
    (∑ x in Finset.range (L + 1), ∑ y in Finset.range (L + 1),
      ∑ z in Finset.range (L + 1), cornerEdgeWeight a b L x y z)
      = 8 * a + 12 * ((L - 1) * b) := by
  have hsub : L + 1 - 2 = L - 1 := by omega
  have hz_ee : ∀ x, x ≤ L → ∀ y, y ≤ L → (x = 0 ∨ x = L) → (y = 0 ∨ y = L) →
      (∑ z in Finset.range (L + 1), cornerEdgeWeight a b L x y z)
        = 2 * a + (L - 1) * b := by
    intro x hxle y hyle hEx hEy
    have hpt : ∀ z ∈ Finset.range (L + 1),
        cornerEdgeWeight a b L x y z = if z = 0 ∨ z = L then a else b := by
      intro z hz
      rw [cornerEdgeWeight_eval hL hxle hyle (mem_range_le hz) a b]
      by_cases hEz : z = 0 ∨ z = L
      · rw [if_pos ⟨hEx, hEy, hEz⟩, if_pos hEz]
      · rw [if_neg (by tauto), if_pos (by tauto), if_neg hEz]
    rw [Finset.sum_congr rfl hpt, sum_range_ite_card a b (card_filter_ext hL), hsub]
  have hz_one : ∀ x, x ≤ L → ∀ y, y ≤ L →
      ((x = 0 ∨ x = L) ∧ ¬(y = 0 ∨ y = L)) ∨ (¬(x = 0 ∨ x = L) ∧ (y = 0 ∨ y = L)) →
      (∑ z in Finset.range (L + 1), cornerEdgeWeight a b L x y z) = 2 * b := by
    intro x hxle y hyle hone
    have hpt : ∀ z ∈ Finset.range (L + 1),
        cornerEdgeWeight a b L x y z = if z = 0 ∨ z = L then b else 0 := by
      intro z hz
      rw [cornerEdgeWeight_eval hL hxle hyle (mem_range_le hz) a b]
      by_cases hEz : z = 0 ∨ z = L
      · rw [if_neg (by tauto), if_pos (by tauto), if_pos hEz]
      · rw [if_neg (by tauto), if_neg (by tauto), if_neg hEz]
    rw [Finset.sum_congr rfl hpt, sum_range_ite_card b 0 (card_filter_ext hL)]
    simp
  have hz_none : ∀ x, x ≤ L → ∀ y, y ≤ L → ¬(x = 0 ∨ x = L) → ¬(y = 0 ∨ y = L) →
      (∑ z in Finset.range (L + 1), cornerEdgeWeight a b L x y z) = 0 := by
    intro x hxle y hyle hEx hEy
    apply Finset.sum_eq_zero
    intro z hz
    rw [cornerEdgeWeight_eval hL hxle hyle (mem_range_le hz) a b]
    rw [if_neg (by tauto), if_neg (by tauto)]
  have hy_ext : ∀ x, x ≤ L → (x = 0 ∨ x = L) →
      (∑ y in Finset.range (L + 1), ∑ z in Finset.range (L + 1),
        cornerEdgeWeight a b L x y z)
        = 2 * (2 * a + (L - 1) * b) + (L - 1) * (2 * b) := by
    intro x hxle hEx
    have hpt : ∀ y ∈ Finset.range (L + 1),
        (∑ z in Finset.range (L + 1), cornerEdgeWeight a b L x y z)
          = if y = 0 ∨ y = L then 2 * a + (L - 1) * b else 2 * b := by
      intro y hy
      by_cases hEy : y = 0 ∨ y = L
      · rw [if_pos hEy, hz_ee x hxle y (mem_range_le hy) hEx hEy]
      · rw [if_neg hEy, hz_one x hxle y (mem_range_le hy) (Or.inl ⟨hEx, hEy⟩)]
    rw [Finset.sum_congr rfl hpt,
      sum_range_ite_card (2 * a + (L - 1) * b) (2 * b) (card_filter_ext hL), hsub]
  have hy_not : ∀ x, x ≤ L → ¬(x = 0 ∨ x = L) →
      (∑ y in Finset.range (L + 1), ∑ z in Finset.range (L + 1),
        cornerEdgeWeight a b L x y z) = 2 * (2 * b) := by
    intro x hxle hEx
    have hpt : ∀ y ∈ Finset.range (L + 1),
        (∑ z in Finset.range (L + 1), cornerEdgeWeight a b L x y z)
          = if y = 0 ∨ y = L then 2 * b else 0 := by
      intro y hy
      by_cases hEy : y = 0 ∨ y = L
      · rw [if_pos hEy, hz_one x hxle y (mem_range_le hy) (Or.inr ⟨hEx, hEy⟩)]
      · rw [if_neg hEy, hz_none x hxle y (mem_range_le hy) hEx hEy]
    rw [Finset.sum_congr rfl hpt,
      sum_range_ite_card (2 * b) 0 (card_filter_ext hL)]
    simp
  have hpt : ∀ x ∈ Finset.range (L + 1),
      (∑ y in Finset.range (L + 1), ∑ z in Finset.range (L + 1),
        cornerEdgeWeight a b L x y z)
        = if x = 0 ∨ x = L then 2 * (2 * a + (L - 1) * b) + (L - 1) * (2 * b)
          else 2 * (2 * b) := by
    intro x hx
    by_cases hEx : x = 0 ∨ x = L
    · rw [if_pos hEx, hy_ext x (mem_range_le hx) hEx]
    · rw [if_neg hEx, hy_not x (mem_range_le hx) hEx]
  rw [Finset.sum_congr rfl hpt,
    sum_range_ite_card (2 * (2 * a + (L - 1) * b) + (L - 1) * (2 * b))
      (2 * (2 * b)) (card_filter_ext hL), hsub]
  obtain ⟨m, rfl⟩ : ∃ m, L = m + 1 := ⟨L - 1, by omega⟩
  simp only [Nat.add_sub_cancel]
  ring

theorem sideCount_eq5 {L : Nat} (hL : 1 ≤ L) :
    sideCount L 5 = (L - 1) * (L - 1) := by
  unfold sideCount
  rw [gridPositions_sum]
  have h1 : ∀ x ∈ Finset.range (L + 1), ∀ y ∈ Finset.range (L + 1),
      ∀ z ∈ Finset.range (L + 1), sideIndicator L 5 x y z
        = if ¬(x = 0 ∨ x = L) ∧ ¬(y = 0 ∨ y = L) ∧ (z = 0) then 1 else 0 := by
    intro x hx y hy z hz
    rw [sideIndicator_eval5 hL (mem_range_le hx) (mem_range_le hy) (mem_range_le hz)]
    exact if_congr (by tauto) rfl rfl
  rw [Finset.sum_congr rfl fun x hx => Finset.sum_congr rfl fun y hy =>
    Finset.sum_congr rfl fun z hz => h1 x hx y hy z hz]
  rw [sum3_indicator (card_filter_interior hL) (card_filter_interior hL)
    (card_filter_point (by omega))]
  simp

theorem sideCount_eq {L i : Nat} (hL : 1 ≤ L) (hi : i < 6) :
    sideCount L i = (L - 1) * (L - 1) := by
  interval_cases i
  · exact sideCount_eq0 hL
  · exact sideCount_eq1 hL
  · exact sideCount_eq2 hL
  · exact sideCount_eq3 hL
  · exact sideCount_eq4 hL
  · exact sideCount_eq5 hL

theorem edgeCornerCubes_sum {L : Nat} (hL : 1 ≤ L) (f : Box → Nat) {a b : Nat}
    (hfa : f (Box.cube (newCube 1)) = a) (hfb : f (Box.cube (newCube 2)) = b) :
    ((edgeCornerCubes L).map f).sum = 8 * a + 12 * ((L - 1) * b) := by
  unfold edgeCornerCubes
  rw [sum_map_filterMap]
  have hpt : ∀ q ∈ gridPositions L,
      (((match posKind L q.1 q.2.1 q.2.2 with
          | PosKind.corner => some (Box.cube (newCube 1))
          | PosKind.edge => some (Box.cube (newCube 2))
          | _ => none).map f).getD 0) = cornerEdgeWeight a b L q.1 q.2.1 q.2.2 := by
    intro q _
    unfold cornerEdgeWeight
    cases hpk : posKind L q.1 q.2.1 q.2.2 with
    | corner => simp [hpk, hfa]
    | edge => simp [hpk, hfb]
    | side i => simp [hpk]
    | interior => simp [hpk]
  rw [List.map_congr_left hpt, gridPositions_sum, grid_sum_CE hL]

theorem buildPanel_ccnt {L i : Nat} (hL : 1 ≤ L) (hi : i < 6) :
    (buildPanel L i).ccnt = 4 * ((L - 1) * (L - 1)) := by
  show 4 * sideCount L i = _
  rw [sideCount_eq hL hi]

theorem buildPanel_cmax (L i : Nat) :
    (buildPanel L i).cmax = (L - 1) * (L - 1) * 8 := rfl

theorem buildPanel_wf {L i : Nat} (hL : 1 ≤ L) (hi : i < 6) :
    (buildPanel L i).wf := by
  refine ⟨?_, ?_, ?_, ?_⟩
  · show (L - 1) * (L - 1) * 8 = 8 * (List.replicate (sideCount L i) (newCube 4)).length
    rw [List.length_replicate, sideCount_eq hL hi]
    ring
  · intro c hc
    rw [List.eq_of_mem_replicate hc, newCube_four]
    exact cubeAt_wf (by omega)
  · intro hcontra
    simp [buildPanel] at hcontra
  · intro _
    show 4 * sideCount L i
      = (List.map Cube.ccnt (List.replicate (sideCount L i) (newCube 4))).sum
    rw [List.map_replicate, newCube_four, List.sum_replicate, smul_eq_mul,
      cubeAt_ccnt]
    ring

theorem buildBits_eq {L : Nat} (hL : 1 ≤ L) :
    buildBits L =
      [Box.panel (buildPanel L 0), Box.panel (buildPanel L 1),
       Box.panel (buildPanel L 2), Box.panel (buildPanel L 3),
       Box.panel (buildPanel L 4), Box.panel (buildPanel L 5)]
      ++ edgeCornerCubes L := by
  unfold buildBits
  rw [if_neg (by omega)]

theorem edgeCornerCubes_wf {L : Nat} : ∀ b ∈ edgeCornerCubes L, b.wf := by
  intro b hb
  unfold edgeCornerCubes at hb
  obtain ⟨q, _, hq⟩ := List.mem_filterMap.mp hb
  cases hpk : posKind L q.1 q.2.1 q.2.2 with
  | corner =>
    rw [hpk] at hq
    simp at hq
    rw [← hq, newCube_one]
    exact cubeAt_wf (by omega)
  | edge =>
    rw [hpk] at hq
    simp at hq
    rw [← hq, newCube_two]
    exact cubeAt_wf (by omega)
  | side i => rw [hpk] at hq; simp at hq
  | interior => rw [hpk] at hq; simp at hq

theorem buildBits_wf {L : Nat} : ∀ b ∈ buildBits L, b.wf := by
  intro b hb
  by_cases hL : L = 0
  · subst hL
    unfold buildBits at hb
    simp at hb
    rw [hb, newCube_one]
    exact cubeAt_wf (by omega)
  · have hL1 : 1 ≤ L := by omega
    rw [buildBits_eq hL1] at hb
    rcases List.mem_append.mp hb with hb | hb
    · simp only [List.mem_cons, List.not_mem_nil, or_false] at hb
      rcases hb with rfl | rfl | rfl | rfl | rfl | rfl
      · exact buildPanel_wf hL1 (by omega)
      · exact buildPanel_wf hL1 (by omega)
      · exact buildPanel_wf hL1 (by omega)
      · exact buildPanel_wf hL1 (by omega)
      · exact buildPanel_wf hL1 (by omega)
      · exact buildPanel_wf hL1 (by omega)
    · exact edgeCornerCubes_wf b hb

theorem sumCap_buildBits (L : Nat) : sumCap (buildBits L) = capSumNat L := by
  by_cases hL : L = 0
  · subst hL
    decide
  · have hL1 : 1 ≤ L := by omega
    have hcubes : ((edgeCornerCubes L).map Box.cmax).sum
        = 8 * 8 + 12 * ((L - 1) * 8) :=
      edgeCornerCubes_sum hL1 Box.cmax (by decide) (by decide)
    rw [buildBits_eq hL1]
    unfold sumCap
    rw [List.map_append, List.sum_append, hcubes]
    show (buildPanel L 0).cmax + ((buildPanel L 1).cmax + ((buildPanel L 2).cmax
      + ((buildPanel L 3).cmax + ((buildPanel L 4).cmax + ((buildPanel L 5).cmax + 0)))))
      + (8 * 8 + 12 * ((L - 1) * 8)) = capSumNat L
    rw [buildPanel_cmax, buildPanel_cmax, buildPanel_cmax, buildPanel_cmax,
      buildPanel_cmax, buildPanel_cmax]
    unfold capSumNat
    rw [if_neg hL]
    obtain ⟨m, rfl⟩ : ∃ m, L = m + 1 := ⟨L - 1, by omega⟩
    simp only [Nat.add_sub_cancel]
    ring

theorem sumC_buildBits {L : Nat} (hL : 1 ≤ L) :
    sumC (buildBits L) = midSumNat L := by
  have hcubes : ((edgeCornerCubes L).map Box.ccnt).sum
      = 8 * 1 + 12 * ((L - 1) * 2) :=
    edgeCornerCubes_sum hL Box.ccnt (by decide) (by decide)
  rw [buildBits_eq hL]
  unfold sumC
  rw [List.map_append, List.sum_append, hcubes]
  show (buildPanel L 0).ccnt + ((buildPanel L 1).ccnt + ((buildPanel L 2).ccnt
    + ((buildPanel L 3).ccnt + ((buildPanel L 4).ccnt + ((buildPanel L 5).ccnt + 0)))))
    + (8 * 1 + 12 * ((L - 1) * 2)) = midSumNat L
  rw [buildPanel_ccnt hL (by omega), buildPanel_ccnt hL (by omega),
    buildPanel_ccnt hL (by omega), buildPanel_ccnt hL (by omega),
    buildPanel_ccnt hL (by omega), buildPanel_ccnt hL (by omega)]
  unfold midSumNat
  obtain ⟨m, rfl⟩ : ∃ m, L = m + 1 := ⟨L - 1, by omega⟩
  simp only [Nat.add_sub_cancel]
  have hexp : (m + 1) ^ 2 = m * m + 2 * m + 1 := by ring
  rw [hexp]
  omega

/-! ### Trooper level: invariant and operation specifications -/

theorem hmax_eq (L : Nat) : hmax L = 48 * (L : Int) ^ 2 + 16 := by
  unfold hmax
  ring

theorem hmid_eq (L : Nat) : hmid L = 24 * (L : Int) ^ 2 - 24 * (L : Int) + 8 := by
  unfold hmid
  ring

theorem capSumNat_cast {L : Nat} (hL : 1 ≤ L) : (capSumNat L : Int) = hmax L := by
  unfold capSumNat
  rw [if_neg (by omega), hmax_eq]
  push_cast
  ring

theorem capSumNat_le_hmax (L : Nat) : (capSumNat L : Int) ≤ hmax L := by
  by_cases hL : L = 0
  · subst hL
    rw [hmax_eq]
    norm_num [capSumNat]
  · rw [capSumNat_cast (by omega)]

theorem hmax_pos (L : Nat) : 0 < hmax L := by
  rw [hmax_eq]
  positivity

theorem midSumNat_lt_capSumNat {L : Nat} (hL : 1 ≤ L) :
    midSumNat L < capSumNat L := by
  unfold midSumNat capSumNat
  rw [if_neg (by omega)]
  obtain ⟨m, rfl⟩ : ∃ m, L = m + 1 := ⟨L - 1, by omega⟩
  have hexp : (m + 1) ^ 2 = m * m + 2 * m + 1 := by ring
  rw [hexp]
  omega

theorem healthSum_eq (t : Trooper) : t.healthSum = sumC t.bits := rfl

theorem health_fst (t : Trooper) : (t.health).1 = t.healthSum := rfl

theorem health_snd (t : Trooper) : (t.health).2.1 = hmid t.lvl := rfl

theorem health_thd (t : Trooper) : (t.health).2.2 = hmax t.lvl := rfl

theorem sumC_eq_sumCap_of_full {bs : List Box} (h : ∀ b ∈ bs, b.ccnt = b.cmax) :
    sumC bs = sumCap bs := by
  unfold sumC sumCap
  rw [List.map_congr_left fun b hb => h b hb]

theorem inv_proj {t : Trooper} (h : Inv t) :
    t.bits.map (fun b => b.reset 0) = (buildBits t.lvl).map (fun b => b.reset 0) :=
  h.2.2.1

theorem inv_sumCap {t : Trooper} (h : Inv t) : sumCap t.bits = capSumNat t.lvl := by
  rw [sumCap_eq_of_proj (inv_proj h), sumCap_buildBits]

theorem inv_health_le {t : Trooper} (h : Inv t) :
    t.healthSum ≤ capSumNat t.lvl := by
  rw [healthSum_eq, ← inv_sumCap h]
  cases hneo : t.neo with
  | true =>
    exact le_of_eq (sumC_eq_sumCap_of_full fun b hb =>
      box_trashedFull_full (h.1 hneo b hb))
  | false => exact sumC_le_sumCap (h.2.1 hneo)

theorem inv_neo_full {t : Trooper} (h : Inv t) (hneo : t.neo = true) :
    t.healthSum = capSumNat t.lvl := by
  rw [healthSum_eq, ← inv_sumCap h]
  exact sumC_eq_sumCap_of_full fun b hb => box_trashedFull_full (h.1 hneo b hb)

theorem mkTrooper_inv (L : Nat) : Inv (mkTrooper L) := by
  refine ⟨?_, ?_, rfl, rfl, rfl, fun _ => rfl, ?_, ?_, rfl, ?_⟩
  · intro hneo
    exact absurd hneo (by simp [mkTrooper])
  · intro _ b hb
    exact buildBits_wf b hb
  · intro hne habs
    exfalso
    have hsum : (mkTrooper L).healthSum = sumC (buildBits L) := rfl
    by_cases hL : L = 0
    · subst hL
      rw [hsum] at habs
      have h1 : sumC (buildBits 0) = 1 := by decide
      have h2 : hmax (mkTrooper 0).lvl = 16 := by decide
      rw [h1, h2] at habs
      norm_num at habs
    · have hL1 : 1 ≤ L := by omega
      rw [hsum, sumC_buildBits hL1] at habs
      have habs' : (midSumNat L : Int) = hmax L := habs
      have hlt := midSumNat_lt_capSumNat hL1
      have hcast := capSumNat_cast (L := L) hL1
      have hcast2 : (midSumNat L : Int) < (capSumNat L : Int) := by exact_mod_cast hlt
      omega
  · show (0 : Int) ≤ 1000
    norm_num
  · show List.Nodup []
    exact List.nodup_nil

theorem inv_trashed {t : Trooper} (h : Inv t) (hneo : t.neo = true) :
    ∀ b ∈ t.bits, b.trashedFull := h.1 hneo

theorem inv_wf_bits {t : Trooper} (h : Inv t) (hneo : t.neo = false) :
    ∀ b ∈ t.bits, b.wf := h.2.1 hneo

theorem inv_ipos {t : Trooper} (h : Inv t) : t.ipos = (mkTrooper t.lvl).ipos :=
  h.2.2.2.1

theorem inv_center {t : Trooper} (h : Inv t) : t.center = decide (0 < t.lvl) :=
  h.2.2.2.2.1

theorem inv_lvl0 {t : Trooper} (h : Inv t) : t.lvl = 0 → t.neo = false :=
  h.2.2.2.2.2.1

theorem inv_hmax_neo {t : Trooper} (h : Inv t) :
    t.lvl ≠ 1 → (t.healthSum : Int) = hmax t.lvl → t.neo = true :=
  h.2.2.2.2.2.2.1

theorem inv_tele {t : Trooper} (h : Inv t) : t.teleportEnergy ≤ t.temax :=
  h.2.2.2.2.2.2.2.1

theorem inv_temax {t : Trooper} (h : Inv t) : t.temax = 1000 :=
  h.2.2.2.2.2.2.2.2.1

theorem inv_nodup {t : Trooper} (h : Inv t) : t.hms.Nodup :=
  h.2.2.2.2.2.2.2.2.2

theorem exists_lt_of_sum_lt_sum {α : Type} {f g : α → Nat} {l : List α}
    (h : (l.map f).sum < (l.map g).sum) : ∃ a ∈ l, f a < g a := by
  by_contra hc
  push_neg at hc
  exact absurd (sum_map_le_sum_map hc) (by omega)

theorem sumCap_cons (b : Box) (bs : List Box) :
    sumCap (b :: bs) = b.cmax + sumCap bs := by
  simp [sumCap]

theorem panel_addCell_cmax (p : Panel) : (p.addCell).cmax = p.cmax := by
  unfold Panel.addCell
  split <;> rfl

theorem panel_attach_cmax (p : Panel) : ((p.attach).1).cmax = p.cmax := by
  unfold Panel.attach
  split
  · split
    · rfl
    · show ({ p with ccnt := p.ccnt + 1 } : Panel).addCell.cmax = p.cmax
      rw [panel_addCell_cmax]
  · rfl

theorem panel_attachN_cmax (p : Panel) (n : Nat) :
    (Panel.attachN p n).cmax = p.cmax := by
  induction n generalizing p with
  | zero => rfl
  | succ n ih =>
    show (Panel.attachN (p.attach).1 n).cmax = p.cmax
    rw [ih, panel_attach_cmax]

theorem panel_cmax_reset (p : Panel) (k : Int) : (p.reset k).cmax = p.cmax := by
  show (Panel.attachN { p.trashVis with ccnt := 0 } (clampN k p.cmax)).cmax = p.cmax
  rw [panel_attachN_cmax]
  rfl

theorem box_cmax_reset (b : Box) (k : Int) : (b.reset k).cmax = b.cmax := by
  cases b with
  | cube c => show (c.reset k).cmax = c.cmax; rw [cube_cmax_reset]
  | panel p => show (p.reset k).cmax = p.cmax; rw [panel_cmax_reset]

theorem cmaxs_eq_of_proj {bs bs' : List Box}
    (h : bs.map (fun b => b.reset 0) = bs'.map (fun b => b.reset 0)) :
    bs.map Box.cmax = bs'.map Box.cmax := by
  have key : ∀ l : List Box, l.map Box.cmax
      = (l.map (fun b => b.reset 0)).map Box.cmax := by
    intro l
    rw [List.map_map]
    exact (List.map_congr_left fun b _ => (box_cmax_reset_zero b).symm)
  rw [key bs, key bs', h]

theorem inv_bits_ne_nil {t : Trooper} (h : Inv t) : t.bits ≠ [] := by
  have hlen := length_eq_of_proj (inv_proj h)
  intro hcon
  rw [hcon] at hlen
  by_cases hL : t.lvl = 0
  · rw [hL] at hlen
    have h1 : (buildBits 0).length = 1 := by decide
    rw [List.length_nil] at hlen
    omega
  · rw [buildBits_eq (by omega)] at hlen
    simp at hlen

theorem inv_bits_head {t : Trooper} (h : Inv t) :
    ∃ b0 rest, t.bits = b0 :: rest ∧ b0.cmax = headCap t.lvl := by
  have hcm := cmaxs_eq_of_proj (inv_proj h)
  cases hbits : t.bits with
  | nil => exact absurd hbits (inv_bits_ne_nil h)
  | cons b0 rest =>
    refine ⟨b0, rest, rfl, ?_⟩
    rw [hbits] at hcm
    by_cases hL : t.lvl = 0
    · rw [hL] at hcm
      have hb : (buildBits 0).map Box.cmax = [8] := by decide
      rw [hb, List.map_cons] at hcm
      have h1 : b0.cmax = 8 := (List.cons.injEq _ _ _ _).mp hcm |>.1
      rw [h1]
      unfold headCap
      rw [hL]
      rfl
    · rw [buildBits_eq (show 1 ≤ t.lvl by omega)] at hcm
      simp only [List.map_cons, List.cons_append, List.map_append] at hcm
      have h1 : b0.cmax = (Box.panel (buildPanel t.lvl 0)).cmax :=
        (List.cons.injEq _ _ _ _).mp hcm |>.1
      rw [h1]
      show (buildPanel t.lvl 0).cmax = headCap t.lvl
      rw [buildPanel_cmax]
      unfold headCap
      rw [if_neg hL]

theorem sumC_trashVis (bs : List Box) : sumC (bs.map Box.trashVis) = sumC bs := by
  unfold sumC
  rw [List.map_map]
  exact congrArg List.sum (List.map_congr_left fun b _ => box_trashVis_ccnt b)

theorem proj_trashVis (bs : List Box) :
    (bs.map Box.trashVis).map (fun b => b.reset 0) = bs.map (fun b => b.reset 0) := by
  rw [List.map_map]
  exact List.map_congr_left fun b _ => box_trashVis_proj b

theorem box_preWf_of_proj {b b₀ : Box} (h : b.reset 0 = b₀.reset 0)
    (hpre : b₀.preWf) : b.preWf := by
  cases b with
  | cube c =>
    cases b₀ with
    | cube c₀ =>
      show c.cmax = 8
      have hc : Box.cube (c.reset 0) = Box.cube (c₀.reset 0) := h
      have hc' : c.reset 0 = c₀.reset 0 := by injection hc
      have hcm : (c.reset 0).cmax = (c₀.reset 0).cmax := by rw [hc']
      rw [cube_cmax_reset, cube_cmax_reset] at hcm
      rw [hcm]
      exact hpre
    | panel p₀ =>
      exact absurd h (by show Box.cube _ ≠ Box.panel _; intro hc; injection hc)
  | panel p =>
    cases b₀ with
    | cube c₀ =>
      exact absurd h (by show Box.panel _ ≠ Box.cube _; intro hc; injection hc)
    | panel p₀ =>
      have hc : Box.panel (p.reset 0) = Box.panel (p₀.reset 0) := h
      have hp : p.reset 0 = p₀.reset 0 := by injection hc
      rw [panel_reset_zero, panel_reset_zero] at hp
      obtain ⟨hcm8, hch8⟩ := hpre
      have h1 : p.cmax = p₀.cmax := by
        have := congrArg Panel.cmax hp
        exact this
      have h2 : p.cubes.map (fun c => c.reset 0)
          = p₀.cubes.map (fun c => c.reset 0) := by
        have := congrArg Panel.cubes hp
        exact this
      constructor
      · have hlen : p.cubes.length = p₀.cubes.length := by
          simpa using congrArg List.length h2
        show p.cmax = 8 * p.cubes.length
        rw [h1, hlen]
        exact hcm8
      · intro c hc
        have hmem : c.reset 0 ∈ p₀.cubes.map (fun c => c.reset 0) := by
          rw [← h2]
          exact List.mem_map_of_mem _ hc
        obtain ⟨c₀, hc₀, heq⟩ := List.mem_map.mp hmem
        have hcm : (c₀.reset 0).cmax = (c.reset 0).cmax := by rw [heq]
        rw [cube_cmax_reset, cube_cmax_reset] at hcm
        rw [← hcm]
        exact hch8 c₀ hc₀

theorem trashAll_addCenter_eq (t : Trooper) :
    t.trashAll.addCenter
      = { t with
          bits := t.bits.map Box.trashVis
          neo := false
          center := decide (0 < t.lvl) } := by
  unfold Trooper.trashAll Trooper.addCenter
  split
  · rename_i h
    rw [decide_eq_true (show 0 < t.lvl from h)]
  · rename_i h
    rw [decide_eq_false (show ¬0 < t.lvl from h)]

theorem mergeAll_eq (t : Trooper) :
    t.mergeAll
      = { t with
          bits := t.bits.map Box.trashVis
          neo := true
          center := decide (0 < t.lvl) } := by
  unfold Trooper.mergeAll Trooper.trashAll Trooper.addCenter
  split
  · rename_i h
    rw [decide_eq_true (show 0 < t.lvl from h)]
  · rename_i h
    rw [decide_eq_false (show ¬0 < t.lvl from h)]

theorem demergeBits_trashVis (bs : List Box) :
    demergeBits (bs.map Box.trashVis) = demergeBits bs := by
  unfold demergeBits
  rw [List.map_map]
  have hf : ((fun b => Box.reset b ((b.cmax : Int))) ∘ Box.trashVis)
      = fun b => Box.reset b ((b.cmax : Int)) := by
    funext b
    show (b.trashVis).reset (((b.trashVis).cmax : Int)) = b.reset ((b.cmax : Int))
    rw [box_trashVis_cmax, box_reset_trashVis]
  rw [hf]

theorem demerge_eq (t : Trooper) :
    t.demerge
      = { t with
          bits := demergeBits t.bits
          neo := false
          center := decide (0 < t.lvl) } := by
  unfold Trooper.demerge
  rw [trashAll_addCenter_eq]
  show { t with
         bits := demergeBits (t.bits.map Box.trashVis)
         neo := false
         center := decide (0 < t.lvl) } = _
  rw [demergeBits_trashVis]

theorem demergeBits_cons {b0 : Box} {rest : List Box}
    (hpre0 : b0.preWf) (hpre : ∀ b ∈ rest, b.preWf) :
    (∀ b ∈ demergeBits (b0 :: rest), b.wf) ∧
      sumC (demergeBits (b0 :: rest)) + min 1 b0.cmax = b0.cmax + sumCap rest ∧
      (demergeBits (b0 :: rest)).map (fun b => b.reset 0)
        = (b0 :: rest).map (fun b => b.reset 0) := by
  have hred : demergeBits (b0 :: rest)
      = ((b0.reset ((b0.cmax : Int))).detach).1
          :: rest.map (fun b => b.reset ((b.cmax : Int))) := by
    unfold demergeBits
    rw [List.map_cons]
  obtain ⟨hr0wf, hr0c, hr0p⟩ := box_reset_spec hpre0 ((b0.cmax : Int))
  rw [clampN_coe (le_refl b0.cmax)] at hr0c
  have hr0cm : (b0.reset ((b0.cmax : Int))).cmax = b0.cmax := box_cmax_reset b0 _
  have htail : ∀ b ∈ rest, (b.reset ((b.cmax : Int))).wf ∧
      (b.reset ((b.cmax : Int))).ccnt = b.cmax ∧
      (b.reset ((b.cmax : Int))).reset 0 = b.reset 0 := by
    intro b hb
    obtain ⟨w1, w2, w3⟩ := box_reset_spec (hpre b hb) ((b.cmax : Int))
    exact ⟨w1, by rw [w2, clampN_coe (le_refl b.cmax)], w3⟩
  by_cases hc : 0 < b0.cmax
  · obtain ⟨d1, d2, d3, d4⟩ := box_detach_pos hr0wf (by omega)
    refine ⟨?_, ?_, ?_⟩
    · intro b hb
      rw [hred] at hb
      rcases List.mem_cons.mp hb with rfl | hb'
      · exact d2
      · obtain ⟨b2, hb2, rfl⟩ := List.mem_map.mp hb'
        exact (htail b2 hb2).1
    · rw [hred, sumC_cons, d3, hr0c]
      have hsum : sumC (rest.map (fun b => b.reset ((b.cmax : Int)))) = sumCap rest := by
        unfold sumC sumCap
        rw [List.map_map]
        exact congrArg List.sum (List.map_congr_left fun b hb => (htail b hb).2.1)
      rw [hsum]
      omega
    · rw [hred, List.map_cons, List.map_cons, d4, hr0p, List.map_map]
      exact congrArg _ (List.map_congr_left fun b hb => (htail b hb).2.2)
  · have hz : b0.cmax = 0 := by omega
    have hdz := box_detach_of_zero (b := b0.reset ((b0.cmax : Int))) (by omega)
    refine ⟨?_, ?_, ?_⟩
    · intro b hb
      rw [hred] at hb
      rcases List.mem_cons.mp hb with rfl | hb'
      · rw [hdz]
        exact hr0wf
      · obtain ⟨b2, hb2, rfl⟩ := List.mem_map.mp hb'
        exact (htail b2 hb2).1
    · rw [hred, sumC_cons, hdz]
      have hsum : sumC (rest.map (fun b => b.reset ((b.cmax : Int)))) = sumCap rest := by
        unfold sumC sumCap
        rw [List.map_map]
        exact congrArg List.sum (List.map_congr_left fun b hb => (htail b hb).2.1)
      rw [hsum, hr0c]
      omega
    · rw [hred, List.map_cons, List.map_cons, hdz, hr0p, List.map_map]
      exact congrArg _ (List.map_congr_left fun b hb => (htail b hb).2.2)

theorem attach_noop {t : Trooper} (hfull : ∀ b ∈ t.bits, b.cmax ≤ b.ccnt) :
    t.attach = t := by
  unfold Trooper.attach
  rw [attachBits_eq_none hfull]

theorem attach_merge_eq {t : Trooper} {bits' : List Box}
    (he : attachBits t.bits = some bits')
    (hm : (sumC bits' : Int) = hmax t.lvl) (hneo : t.neo = false) :
    t.attach = { t with
      bits := bits'.map Box.trashVis
      neo := true
      center := decide (0 < t.lvl)
      hlog := t.hlog ++ t.hms } := by
  unfold Trooper.attach
  rw [he]
  show (if ((Trooper.health { t with bits := bits' }).1 : Int)
          = (Trooper.health { t with bits := bits' }).2.2
        ∧ ({ t with bits := bits' } : Trooper).neo = false
      then (Trooper.mergeAll { t with bits := bits' }).healthChanged
      else Trooper.healthChanged { t with bits := bits' }) = _
  split
  · rw [mergeAll_eq]
    rfl
  · rename_i hc
    exact absurd (⟨hm, hneo⟩ : _ ∧ _) hc

theorem attach_nomerge_eq {t : Trooper} {bits' : List Box}
    (he : attachBits t.bits = some bits')
    (hm : ¬((sumC bits' : Int) = hmax t.lvl)) :
    t.attach = { t with
      bits := bits'
      hlog := t.hlog ++ t.hms } := by
  unfold Trooper.attach
  rw [he]
  show (if ((Trooper.health { t with bits := bits' }).1 : Int)
          = (Trooper.health { t with bits := bits' }).2.2
        ∧ ({ t with bits := bits' } : Trooper).neo = false
      then (Trooper.mergeAll { t with bits := bits' }).healthChanged
      else Trooper.healthChanged { t with bits := bits' }) = _
  split
  · rename_i hc
    exact absurd hc.1 hm
  · rfl

theorem detach_neo_eq {t : Trooper} (hneo : t.neo = true) :
    t.detach = t.demerge.healthChanged := by
  unfold Trooper.detach
  rw [if_pos hneo]

theorem detach_zero {t : Trooper} (hneo : t.neo = false)
    (hz : ∀ b ∈ t.bits, b.ccnt = 0) : t.detach = t := by
  unfold Trooper.detach
  rw [if_neg (by rw [hneo]; exact Bool.false_ne_true), detachBits_eq_none hz]

theorem detach_pos_eq {t : Trooper} (hneo : t.neo = false) {bits' : List Box}
    (he : detachBits t.bits = some bits') :
    t.detach = { t with
      bits := bits'
      hlog := t.hlog ++ t.hms } := by
  unfold Trooper.detach
  rw [if_neg (by rw [hneo]; exact Bool.false_ne_true), he]
  rfl

theorem healthChanged_inv {t : Trooper} (h : Inv t) : Inv t.healthChanged := h

theorem energyChanged_inv {t : Trooper} (h : Inv t) : Inv t.energyChanged := h

theorem attach_full_noop {t : Trooper} (h : Inv t)
    (hfull : t.healthSum = capSumNat t.lvl) : t.attach = t := by
  apply attach_noop
  intro b hb
  cases hneo : t.neo with
  | true => exact le_of_eq (box_trashedFull_full (inv_trashed h hneo b hb)).symm
  | false =>
    refine le_of_eq (all_full_of_sumC (inv_wf_bits h hneo) ?_ b hb).symm
    show sumC t.bits = sumCap t.bits
    rw [inv_sumCap h]
    exact hfull

theorem attach_step {t : Trooper} (h : Inv t) (hneo : t.neo = false)
    (hlt : t.healthSum < capSumNat t.lvl) :
    Inv t.attach ∧ t.attach.lvl = t.lvl ∧
      t.attach.healthSum = t.healthSum + 1 ∧
      t.attach.neo = decide ((t.healthSum : Int) + 1 = hmax t.lvl) ∧
      t.attach.ipos = t.ipos ∧ t.attach.center = t.center ∧
      t.attach.hms = t.hms ∧ t.attach.hlog = t.hlog ++ t.hms ∧
      t.attach.teleportEnergy = t.teleportEnergy ∧ t.attach.temax = t.temax := by
  have hwfb := inv_wf_bits h hneo
  have hex : ∃ b ∈ t.bits, b.ccnt < b.cmax := by
    refine exists_lt_of_sum_lt_sum (f := Box.ccnt) (g := Box.cmax) ?_
    show sumC t.bits < sumCap t.bits
    rw [inv_sumCap h]
    exact hlt
  obtain ⟨bits', he, hw', hs', hp'⟩ := attachBits_eq_some hwfb hex
  have hsum : sumC t.bits = t.healthSum := (healthSum_eq t).symm
  have hip := inv_ipos h
  have hcen := inv_center h
  have htel := inv_tele h
  have htm := inv_temax h
  have hnd := inv_nodup h
  have hproj0 := h.2.2.1
  have hcast : (sumC bits' : Int) = (t.healthSum : Int) + 1 := by
    have h1 := hs'
    have h2 := hsum
    omega
  by_cases hm : (sumC bits' : Int) = hmax t.lvl
  · have heq := attach_merge_eq he hm hneo
    have hle : sumC bits' ≤ capSumNat t.lvl := by
      calc sumC bits' ≤ sumCap bits' :=
            sum_map_le_sum_map fun b hb => box_wf_le (hw' b hb)
        _ = sumCap t.bits := sumCap_eq_of_proj hp'
        _ = capSumNat t.lvl := inv_sumCap h
    have hlvl1 : 1 ≤ t.lvl := by
      by_contra hc
      have h0 : t.lvl = 0 := by omega
      rw [h0] at hm hle
      have h16 : hmax 0 = 16 := by decide
      have h8 : capSumNat 0 = 8 := by decide
      rw [h16] at hm
      rw [h8] at hle
      omega
    have hfull : sumC bits' = capSumNat t.lvl := by
      have hcc := capSumNat_cast hlvl1
      omega
    have hallfull : ∀ b ∈ bits', b.ccnt = b.cmax := by
      apply all_full_of_sumC hw'
      have h2 : sumCap bits' = capSumNat t.lvl :=
        (sumCap_eq_of_proj hp').trans (inv_sumCap h)
      rw [hfull, h2]
    have hm' : (t.healthSum : Int) + 1 = hmax t.lvl := by
      rw [hcast] at hm
      exact hm
    rw [heq]
    refine ⟨?_, rfl, ?_, ?_, rfl, ?_, rfl, rfl, rfl, rfl⟩
    · refine ⟨?_, ?_, ?_, hip, rfl, ?_, ?_, htel, htm, hnd⟩
      · intro _ b hb
        obtain ⟨b₀, hb₀, rfl⟩ := List.mem_map.mp hb
        exact box_trashVis_full (hw' b₀ hb₀) (hallfull b₀ hb₀)
      · intro hc
        have hc' : true = false := hc
        exact Bool.noConfusion hc'
      · show (bits'.map Box.trashVis).map (fun b => b.reset 0) = emptyBits t.lvl
        rw [proj_trashVis, hp']
        exact hproj0
      · intro h0
        exact absurd (show t.lvl = 0 from h0) (by omega)
      · intro _ _
        rfl
    · show sumC (bits'.map Box.trashVis) = t.healthSum + 1
      rw [sumC_trashVis, hs', hsum]
    · exact (decide_eq_true hm').symm
    · exact hcen.symm
  · have heq := attach_nomerge_eq he hm
    have hne : ¬((t.healthSum : Int) + 1 = hmax t.lvl) := fun hc =>
      hm (hcast.trans hc)
    rw [heq]
    refine ⟨?_, rfl, ?_, ?_, rfl, rfl, rfl, rfl, rfl, rfl⟩
    · refine ⟨?_, ?_, ?_, hip, hcen, ?_, ?_, htel, htm, hnd⟩
      · intro hc
        have hc' : t.neo = true := hc
        rw [hneo] at hc'
        exact Bool.noConfusion hc'
      · intro _ b hb
        exact hw' b hb
      · show bits'.map (fun b => b.reset 0) = emptyBits t.lvl
        rw [hp']
        exact hproj0
      · intro _
        exact hneo
      · intro _ habs
        exact absurd (show (sumC bits' : Int) = hmax t.lvl from habs) hm
    · show sumC bits' = t.healthSum + 1
      rw [hs', hsum]
    · show t.neo = decide ((t.healthSum : Int) + 1 = hmax t.lvl)
      rw [hneo]
      exact (decide_eq_false hne).symm

theorem detach_zero_noop {t : Trooper} (hneo : t.neo = false)
    (hz : t.healthSum = 0) : t.detach = t :=
  detach_zero hneo (all_zero_of_sumC hz)

theorem detach_step {t : Trooper} (h : Inv t) (hneo : t.neo = false)
    (hpos : 0 < t.healthSum) :
    Inv t.detach ∧ t.detach.lvl = t.lvl ∧
      t.detach.healthSum + 1 = t.healthSum ∧
      t.detach.neo = false ∧ t.detach.ipos = t.ipos ∧
      t.detach.center = t.center ∧ t.detach.hms = t.hms ∧
      t.detach.hlog = t.hlog ++ t.hms ∧
      t.detach.teleportEnergy = t.teleportEnergy ∧ t.detach.temax = t.temax := by
  have hwfb := inv_wf_bits h hneo
  have hex : ∃ b ∈ t.bits, 0 < b.ccnt := exists_pos_of_sum_map_pos hpos
  obtain ⟨bits', he, hw', hs', hp'⟩ := detachBits_eq_some hwfb hex
  have hsum : sumC t.bits = t.healthSum := (healthSum_eq t).symm
  have hip := inv_ipos h
  have hcen := inv_center h
  have htel := inv_tele h
  have htm := inv_temax h
  have hnd := inv_nodup h
  have hproj0 := h.2.2.1
  have heq := detach_pos_eq hneo he
  rw [heq]
  refine ⟨?_, rfl, ?_, hneo, rfl, rfl, rfl, rfl, rfl, rfl⟩
  · refine ⟨?_, ?_, ?_, hip, hcen, ?_, ?_, htel, htm, hnd⟩
    · intro hc
      have hc' : t.neo = true := hc
      rw [hneo] at hc'
      exact Bool.noConfusion hc'
    · intro _ b hb
      exact hw' b hb
    · show bits'.map (fun b => b.reset 0) = emptyBits t.lvl
      rw [hp']
      exact hproj0
    · intro _
      exact hneo
    · intro _ habs
      exfalso
      have h1 : (sumC bits' : Int) = hmax t.lvl := habs
      have h2 : sumC bits' + 1 = t.healthSum := by omega
      have h3 := inv_health_le h
      have h4 := capSumNat_le_hmax t.lvl
      omega
  · show sumC bits' + 1 = t.healthSum
    omega

theorem demerge_spec {t : Trooper} (h : Inv t) (hneo : t.neo = true) :
    Inv t.demerge ∧ t.demerge.lvl = t.lvl ∧
      t.demerge.healthSum + min 1 (headCap t.lvl) = capSumNat t.lvl ∧
      t.demerge.neo = false ∧ t.demerge.ipos = t.ipos ∧
      t.demerge.center = t.center ∧ t.demerge.hms = t.hms ∧
      t.demerge.hlog = t.hlog ∧ t.demerge.teleportEnergy = t.teleportEnergy ∧
      t.demerge.temax = t.temax := by
  obtain ⟨b0, rest, hbits, hb0⟩ := inv_bits_head h
  have hpre : ∀ b ∈ t.bits, b.preWf := fun b hb =>
    box_trashedFull_preWf (inv_trashed h hneo b hb)
  have hpre0 : b0.preWf := hpre b0 (by rw [hbits]; exact List.mem_cons_self b0 rest)
  have hprerest : ∀ b ∈ rest, b.preWf := fun b hb =>
    hpre b (by rw [hbits]; exact List.mem_cons_of_mem _ hb)
  obtain ⟨hwf', hsum', hproj'⟩ := demergeBits_cons hpre0 hprerest
  have hdb : demergeBits t.bits = demergeBits (b0 :: rest) := by rw [hbits]
  have hhs : sumC (demergeBits t.bits) + min 1 (headCap t.lvl) = capSumNat t.lvl := by
    have h2 : sumCap t.bits = capSumNat t.lvl := inv_sumCap h
    rw [hbits, sumCap_cons] at h2
    rw [hdb, ← hb0]
    omega
  have hip := inv_ipos h
  have hcen := inv_center h
  have htel := inv_tele h
  have htm := inv_temax h
  have hnd := inv_nodup h
  have hproj0 := h.2.2.1
  rw [demerge_eq]
  refine ⟨?_, rfl, ?_, rfl, rfl, ?_, rfl, rfl, rfl, rfl⟩
  · refine ⟨?_, ?_, ?_, hip, rfl, ?_, ?_, htel, htm, hnd⟩
    · intro hc
      have hc' : false = true := hc
      exact Bool.noConfusion hc'
    · intro _ b hb
      rw [show ({ t with
            bits := demergeBits t.bits
            neo := false
            center := decide (0 < t.lvl) } : Trooper).bits = demergeBits t.bits
          from rfl, hdb] at hb
      exact hwf' b hb
    · show (demergeBits t.bits).map (fun b => b.reset 0) = emptyBits t.lvl
      rw [hdb, hproj', ← hbits]
      exact hproj0
    · intro _
      rfl
    · intro hne habs
      exfalso
      by_cases h0 : t.lvl = 0
      · exact Bool.noConfusion (hneo.symm.trans (inv_lvl0 h h0))
      · have hne1 : t.lvl ≠ 1 := hne
        have hlvl2 : 2 ≤ t.lvl := by omega
        have hhc : 0 < headCap t.lvl := by
          unfold headCap
          rw [if_neg h0]
          exact Nat.mul_pos (Nat.mul_pos (by omega) (by omega)) (by omega)
        have hcc := capSumNat_cast (show 1 ≤ t.lvl by omega)
        have habs' : (sumC (demergeBits t.bits) : Int) = hmax t.lvl := habs
        omega
  · exact hhs
  · exact hcen.symm

theorem detach_neo_spec {t : Trooper} (h : Inv t) (hneo : t.neo = true) :
    Inv t.detach ∧ t.detach.lvl = t.lvl ∧
      t.detach.healthSum + min 1 (headCap t.lvl) = capSumNat t.lvl ∧
      t.detach.neo = false ∧ t.detach.ipos = t.ipos ∧
      t.detach.center = t.center ∧ t.detach.hms = t.hms ∧
      t.detach.hlog = t.hlog ++ t.hms ∧
      t.detach.teleportEnergy = t.teleportEnergy ∧ t.detach.temax = t.temax := by
  rw [detach_neo_eq hneo]
  obtain ⟨i1, i2, i3, i4, i5, i6, i7, i8, i9, i10⟩ := demerge_spec h hneo
  refine ⟨i1, i2, i3, i4, i5, i6, i7, ?_, i9, i10⟩
  show t.demerge.hlog ++ t.demerge.hms = t.hlog ++ t.hms
  rw [i7, i8]

theorem mkTrooper_ipos_pos {L : Nat} (hL : 1 ≤ L) :
    (mkTrooper L).ipos = (buildBits L).map Box.ccnt := by
  show (if L = 0 then [] else (buildBits L).map Box.ccnt) = _
  rw [if_neg (by omega)]

theorem mkTrooper_ipos_zero : (mkTrooper 0).ipos = [] := rfl

theorem reset_none {t : Trooper} (h : Inv t) (hlvl : t.lvl = 0) :
    t.reset = none := by
  have hlen : t.bits.length = 1 := by
    have h1 := length_eq_of_proj (inv_proj h)
    rw [hlvl] at h1
    have h2 : (buildBits 0).length = 1 := by decide
    omega
  have hip : t.ipos = [] := by
    rw [inv_ipos h, hlvl]
    exact mkTrooper_ipos_zero
  unfold Trooper.reset
  rw [if_neg]
  rw [hip, hlen]
  decide

theorem resetBits_trashVis (bs : List Box) (ns : List Nat) :
    ((bs.map Box.trashVis).zip ns).map (fun q => q.1.reset ((q.2 : Nat) : Int))
      = (bs.zip ns).map (fun q => q.1.reset ((q.2 : Nat) : Int)) := by
  induction bs generalizing ns with
  | nil => rfl
  | cons b bs ih =>
    cases ns with
    | nil => rfl
    | cons n ns =>
      simp only [List.map_cons, List.zip_cons_cons]
      rw [box_reset_trashVis, ih]

theorem reset_eq {t : Trooper} (hlen : t.bits.length ≤ t.ipos.length) :
    t.reset = some (Trooper.healthChanged
      { t with
        bits := (t.bits.zip t.ipos).map (fun q => q.1.reset ((q.2 : Nat) : Int))
        neo := false
        center := decide (0 < t.lvl) }) := by
  unfold Trooper.reset
  rw [if_pos hlen, trashAll_addCenter_eq]
  show some (Trooper.healthChanged
      { t with
        bits := ((t.bits.map Box.trashVis).zip t.ipos).map
          (fun q => q.1.reset ((q.2 : Nat) : Int))
        neo := false
        center := decide (0 < t.lvl) }) = _
  rw [resetBits_trashVis]

theorem resetBits_spec {bs bs₀ : List Box}
    (hproj : bs.map (fun b => b.reset 0) = bs₀.map (fun b => b.reset 0))
    (hwf₀ : ∀ b ∈ bs₀, b.wf) :
    (∀ b ∈ (bs.zip (bs₀.map Box.ccnt)).map (fun q => q.1.reset ((q.2 : Nat) : Int)),
      b.wf) ∧
    sumC ((bs.zip (bs₀.map Box.ccnt)).map (fun q => q.1.reset ((q.2 : Nat) : Int)))
      = sumC bs₀ ∧
    ((bs.zip (bs₀.map Box.ccnt)).map
        (fun q => q.1.reset ((q.2 : Nat) : Int))).map (fun b => b.reset 0)
      = bs.map (fun b => b.reset 0) := by
  induction bs generalizing bs₀ with
  | nil =>
    cases bs₀ with
    | nil => exact ⟨by simp, by simp [sumC], by simp⟩
    | cons b₀ rest₀ => simp at hproj
  | cons b bs ih =>
    cases bs₀ with
    | nil => simp at hproj
    | cons b₀ rest₀ =>
      simp only [List.map_cons] at hproj
      have h1 : b.reset 0 = b₀.reset 0 := ((List.cons.injEq _ _ _ _).mp hproj).1
      have h2 : bs.map (fun b => b.reset 0) = rest₀.map (fun b => b.reset 0) :=
        ((List.cons.injEq _ _ _ _).mp hproj).2
      have hwfr : ∀ b ∈ rest₀, b.wf := fun x hx =>
        hwf₀ x (List.mem_cons_of_mem _ hx)
      have hwf0' := hwf₀ b₀ (List.mem_cons_self b₀ rest₀)
      have hpre : b.preWf := box_preWf_of_proj h1 (box_wf_preWf hwf0')
      have hcm : b.cmax = b₀.cmax := by
        have h3 := congrArg Box.cmax h1
        rwa [box_cmax_reset_zero, box_cmax_reset_zero] at h3
      obtain ⟨w1, w2, w3⟩ := box_reset_spec hpre ((b₀.ccnt : Nat) : Int)
      have hccnt : (b.reset ((b₀.ccnt : Nat) : Int)).ccnt = b₀.ccnt := by
        rw [w2, hcm, clampN_coe (box_wf_le hwf0')]
      obtain ⟨k1, k2, k3⟩ := ih h2 hwfr
      simp only [List.map_cons, List.zip_cons_cons, List.map_cons]
      refine ⟨?_, ?_, ?_⟩
      · intro x hx
        rcases List.mem_cons.mp hx with rfl | hx'
        · exact w1
        · exact k1 x hx'
      · rw [sumC_cons, sumC_cons, hccnt, k2]
      · rw [w3, k3]

theorem reset_some {t : Trooper} (h : Inv t) (hlvl : 1 ≤ t.lvl) :
    ∃ u, t.reset = some u ∧ Inv u ∧ u.lvl = t.lvl ∧ u.neo = false ∧
      u.healthSum = midSumNat t.lvl ∧ u.hms = t.hms ∧
      u.hlog = t.hlog ++ t.hms ∧ u.ipos = t.ipos ∧ u.center = t.center ∧
      u.teleportEnergy = t.teleportEnergy ∧ u.temax = t.temax := by
  have hip : t.ipos = (buildBits t.lvl).map Box.ccnt := by
    rw [inv_ipos h, mkTrooper_ipos_pos hlvl]
  have hlen : t.bits.length ≤ t.ipos.length := by
    rw [hip, List.length_map]
    exact le_of_eq (length_eq_of_proj (inv_proj h))
  have hcen := inv_center h
  have hipos := inv_ipos h
  have htel := inv_tele h
  have htm := inv_temax h
  have hnd := inv_nodup h
  have hproj0 := h.2.2.1
  obtain ⟨r1, r2, r3⟩ := resetBits_spec (inv_proj h) (buildBits_wf (L := t.lvl))
  rw [reset_eq hlen]
  refine ⟨_, rfl, ?_, rfl, rfl, ?_, rfl, rfl, rfl, ?_, rfl, rfl⟩
  · refine ⟨?_, ?_, ?_, hipos, rfl, ?_, ?_, htel, htm, hnd⟩
    · intro hc
      have hc' : false = true := hc
      exact Bool.noConfusion hc'
    · intro _ b hb
      have hb' : b ∈ (t.bits.zip t.ipos).map
          (fun q => q.1.reset ((q.2 : Nat) : Int)) := hb
      rw [hip] at hb'
      exact r1 b hb'
    · show ((t.bits.zip t.ipos).map
          (fun q => q.1.reset ((q.2 : Nat) : Int))).map (fun b => b.reset 0)
        = emptyBits t.lvl
      rw [hip, r3]
      exact hproj0
    · intro _
      rfl
    · intro hne habs
      exfalso
      have habs' : (sumC ((t.bits.zip t.ipos).map
          (fun q => q.1.reset ((q.2 : Nat) : Int))) : Int) = hmax t.lvl := habs
      have hs : sumC ((t.bits.zip t.ipos).map
          (fun q => q.1.reset ((q.2 : Nat) : Int))) = midSumNat t.lvl := by
        rw [hip, r2, sumC_buildBits hlvl]
      have hlt := midSumNat_lt_capSumNat hlvl
      have hcc := capSumNat_cast hlvl
      omega
  · show sumC ((t.bits.zip t.ipos).map
        (fun q => q.1.reset ((q.2 : Nat) : Int))) = midSumNat t.lvl
    rw [hip, r2, sumC_buildBits hlvl]
  · exact hcen.symm

theorem inv_detachBits {t : Trooper} (h : Inv t) (hneo : t.neo = false)
    {bits' : List Box} (hw' : ∀ b ∈ bits', b.wf)
    (hs' : sumC bits' + 1 = sumC t.bits)
    (hp' : bits'.map (fun b => b.reset 0) = t.bits.map (fun b => b.reset 0)) :
    Inv { t with bits := bits' } := by
  have hip := inv_ipos h
  have hcen := inv_center h
  have htel := inv_tele h
  have htm := inv_temax h
  have hnd := inv_nodup h
  have hproj0 := h.2.2.1
  refine ⟨?_, ?_, ?_, hip, hcen, ?_, ?_, htel, htm, hnd⟩
  · intro hc
    have hc' : t.neo = true := hc
    rw [hneo] at hc'
    exact Bool.noConfusion hc'
  · intro _ b hb
    exact hw' b hb
  · show bits'.map (fun b => b.reset 0) = emptyBits t.lvl
    rw [hp']
    exact hproj0
  · intro _
    exact hneo
  · intro _ habs
    exfalso
    have h1 : (sumC bits' : Int) = hmax t.lvl := habs
    have h3 := inv_health_le h
    have h4 := capSumNat_le_hmax t.lvl
    have h5 : sumC t.bits = t.healthSum := rfl
    omega

theorem detachLoop_step_neo {t : Trooper} (hneo : t.neo = true) (n : Nat) :
    Trooper.detachLoop t (n + 1) = Trooper.detachLoop t.demerge n := by
  show (if t.neo = true then Trooper.detachLoop t.demerge n
      else Trooper.detachLoop
        { t with bits := (detachBits t.bits).getD t.bits } n) = _
  rw [if_pos hneo]

theorem detachLoop_step {t : Trooper} (hneo : t.neo = false) (n : Nat) :
    Trooper.detachLoop t (n + 1)
      = Trooper.detachLoop { t with bits := (detachBits t.bits).getD t.bits } n := by
  show (if t.neo = true then Trooper.detachLoop t.demerge n
      else Trooper.detachLoop
        { t with bits := (detachBits t.bits).getD t.bits } n) = _
  rw [if_neg (by rw [hneo]; exact Bool.false_ne_true)]

theorem detachLoop_spec (n : Nat) : ∀ {t : Trooper}, Inv t → t.neo = false →
    n ≤ t.healthSum →
    Inv (t.detachLoop n) ∧ (t.detachLoop n).lvl = t.lvl ∧
      (t.detachLoop n).healthSum + n = t.healthSum ∧
      (t.detachLoop n).neo = false ∧
      (t.detachLoop n).ipos = t.ipos ∧ (t.detachLoop n).center = t.center ∧
      (t.detachLoop n).hms = t.hms ∧ (t.detachLoop n).hlog = t.hlog ∧
      (t.detachLoop n).teleportEnergy = t.teleportEnergy ∧
      (t.detachLoop n).temax = t.temax := by
  induction n with
  | zero =>
    intro t h hneo _
    exact ⟨h, rfl, rfl, hneo, rfl, rfl, rfl, rfl, rfl, rfl⟩
  | succ n ih =>
    intro t h hneo hn
    have hpos : 0 < t.healthSum := by omega
    have hex : ∃ b ∈ t.bits, 0 < b.ccnt := exists_pos_of_sum_map_pos hpos
    obtain ⟨bits', he, hw', hs', hp'⟩ :=
      detachBits_eq_some (inv_wf_bits h hneo) hex
    have hinv' : Inv { t with bits := bits' } := inv_detachBits h hneo hw' hs' hp'
    have hred : Trooper.detachLoop t (n + 1)
        = Trooper.detachLoop { t with bits := bits' } n := by
      rw [detachLoop_step hneo, he]
      rfl
    rw [hred]
    have hns : n ≤ ({ t with bits := bits' } : Trooper).healthSum := by
      show n ≤ sumC bits'
      have h5 : sumC t.bits = t.healthSum := rfl
      omega
    obtain ⟨j1, j2, j3, j4, j5, j6, j7, j8, j9, j10⟩ := ih hinv' hneo hns
    refine ⟨j1, j2, ?_, j4, j5, j6, j7, j8, j9, j10⟩
    have j3' : (Trooper.detachLoop { t with bits := bits' } n).healthSum + n
        = sumC bits' := j3
    have h5 : sumC t.bits = t.healthSum := rfl
    omega

theorem detachLoop_inv (n : Nat) : ∀ {t : Trooper}, Inv t →
    Inv (t.detachLoop n) ∧ (t.detachLoop n).lvl = t.lvl ∧
      (t.detachLoop n).hms = t.hms ∧ (t.detachLoop n).hlog = t.hlog ∧
      (t.detachLoop n).ipos = t.ipos ∧ (t.detachLoop n).center = t.center ∧
      (t.detachLoop n).teleportEnergy = t.teleportEnergy ∧
      (t.detachLoop n).temax = t.temax := by
  induction n with
  | zero =>
    intro t h
    exact ⟨h, rfl, rfl, rfl, rfl, rfl, rfl, rfl⟩
  | succ n ih =>
    intro t h
    cases hneo : t.neo with
    | true =>
      rw [detachLoop_step_neo hneo]
      obtain ⟨i1, i2, _, _, i5, i6, i7, i8, i9, i10⟩ := demerge_spec h hneo
      obtain ⟨j1, j2, j3, j4, j5, j6, j7, j8⟩ := ih i1
      refine ⟨j1, j2.trans i2, j3.trans i7, j4.trans i8, j5.trans i5,
        j6.trans i6, j7.trans i9, j8.trans i10⟩
    | false =>
      by_cases hz : t.healthSum = 0
      · have hnone : detachBits t.bits = none :=
          detachBits_eq_none (all_zero_of_sumC hz)
        have hred : Trooper.detachLoop t (n + 1) = Trooper.detachLoop t n := by
          rw [detachLoop_step hneo, hnone]
          rfl
        rw [hred]
        exact ih h
      · have hpos : 0 < t.healthSum := by omega
        obtain ⟨bits', he, hw', hs', hp'⟩ :=
          detachBits_eq_some (inv_wf_bits h hneo) (exists_pos_of_sum_map_pos hpos)
        have hinv' : Inv { t with bits := bits' } :=
          inv_detachBits h hneo hw' hs' hp'
        have hred : Trooper.detachLoop t (n + 1)
            = Trooper.detachLoop { t with bits := bits' } n := by
          rw [detachLoop_step hneo, he]
          rfl
        rw [hred]
        exact ih hinv'

theorem detachCores_noop {t : Trooper} {loss : Int} (hle : loss ≤ 0) :
    t.detachCores loss = t := by
  unfold Trooper.detachCores
  rw [if_pos hle]

theorem detachCores_spec {t : Trooper} (h : Inv t) (hneo : t.neo = false)
    {loss : Int} (hpos : 0 < loss) :
    Inv (t.detachCores loss) ∧ (t.detachCores loss).lvl = t.lvl ∧
      ((t.detachCores loss).healthSum : Int)
        = (t.healthSum : Int) - min loss (t.healthSum : Int) ∧
      (t.detachCores loss).neo = false ∧
      (t.detachCores loss).hms = t.hms ∧
      (t.detachCores loss).hlog = t.hlog ++ t.hms ∧
      (t.detachCores loss).ipos = t.ipos ∧
      (t.detachCores loss).center = t.center ∧
      (t.detachCores loss).teleportEnergy = t.teleportEnergy ∧
      (t.detachCores loss).temax = t.temax := by
  unfold Trooper.detachCores
  rw [if_neg (by omega)]
  by_cases hgt : (t.healthSum : Int) < loss
  · rw [if_pos (by exact hgt)]
    have hnn : ((t.healthSum : Int)).toNat = t.healthSum := Int.toNat_natCast _
    rw [hnn]
    obtain ⟨j1, j2, j3, j4, j5, j6, j7, j8, j9, j10⟩ :=
      detachLoop_spec t.healthSum h hneo (le_refl _)
    refine ⟨j1, j2, ?_, j4, j7, ?_, j5, j6, j9, j10⟩
    · show ((t.detachLoop t.healthSum).healthSum : Int)
        = (t.healthSum : Int) - min loss (t.healthSum : Int)
      omega
    · show (t.detachLoop t.healthSum).hlog ++ (t.detachLoop t.healthSum).hms
        = t.hlog ++ t.hms
      rw [j7, j8]
  · rw [if_neg hgt]
    have hnle : loss.toNat ≤ t.healthSum := by omega
    obtain ⟨j1, j2, j3, j4, j5, j6, j7, j8, j9, j10⟩ :=
      detachLoop_spec loss.toNat h hneo hnle
    refine ⟨j1, j2, ?_, j4, j7, ?_, j5, j6, j9, j10⟩
    · show ((t.detachLoop loss.toNat).healthSum : Int)
        = (t.healthSum : Int) - min loss (t.healthSum : Int)
      omega
    · show (t.detachLoop loss.toNat).hlog ++ (t.detachLoop loss.toNat).hms
        = t.hlog ++ t.hms
      rw [j7, j8]

theorem detachCores_inv {t : Trooper} (h : Inv t) (loss : Int) :
    Inv (t.detachCores loss) ∧ (t.detachCores loss).lvl = t.lvl := by
  by_cases hle : loss ≤ 0
  · rw [detachCores_noop hle]
    exact ⟨h, rfl⟩
  · unfold Trooper.detachCores
    rw [if_neg hle]
    obtain ⟨j1, j2, _⟩ := detachLoop_inv
      (if loss > (t.healthSum : Int) then (t.healthSum : Int) else loss).toNat h
    exact ⟨j1, j2⟩

theorem inv_same_core {t u : Trooper} (h : Inv t)
    (hb : u.bits = t.bits) (hl : u.lvl = t.lvl) (hip : u.ipos = t.ipos)
    (hn : u.neo = t.neo) (hc : u.center = t.center) (hm : u.hms = t.hms)
    (hte : u.teleportEnergy ≤ u.temax) (htm : u.temax = t.temax) : Inv u := by
  obtain ⟨a1, a2, a3, a4, a5, a6, a7, _, a9, a10⟩ := h
  have hhs : u.healthSum = t.healthSum := by
    show sumC u.bits = sumC t.bits
    rw [hb]
  refine ⟨?_, ?_, ?_, ?_, ?_, ?_, ?_, hte, htm.trans a9, ?_⟩
  · intro hneo
    rw [hb]
    exact a1 (by rw [← hn]; exact hneo)
  · intro hneo
    rw [hb]
    exact a2 (by rw [← hn]; exact hneo)
  · rw [hb, hl]
    exact a3
  · rw [hip, hl]
    exact a4
  · rw [hc, hl]
    exact a5
  · intro h0
    rw [hl] at h0
    rw [hn]
    exact a6 h0
  · intro hne habs
    rw [hl] at hne
    rw [hhs, hl] at habs
    rw [hn]
    exact a7 hne habs
  · rw [hm]
    exact a10

theorem teleport_inv {t : Trooper} (h : Inv t) :
    Inv (t.teleport).1 ∧ (t.teleport).1.lvl = t.lvl := by
  unfold Trooper.teleport
  split
  · refine ⟨inv_same_core h rfl rfl rfl rfl rfl rfl ?_ rfl, rfl⟩
    show (0 : Int) ≤ t.temax
    rw [inv_temax h]
    norm_num
  · exact ⟨h, rfl⟩

theorem tickTeleport_inv {t : Trooper} (h : Inv t) :
    Inv t.tickTeleport ∧ t.tickTeleport.lvl = t.lvl := by
  unfold Trooper.tickTeleport
  split
  · rename_i hlt
    refine ⟨inv_same_core h rfl rfl rfl rfl rfl rfl ?_ rfl, rfl⟩
    show t.teleportEnergy + 1 ≤ t.temax
    have hlt' : t.teleportEnergy < t.temax := hlt
    omega
  · exact ⟨h, rfl⟩

theorem cloak_inv {t : Trooper} (h : Inv t) (b : Bool) :
    Inv (t.cloak b) ∧ (t.cloak b).lvl = t.lvl := by
  unfold Trooper.cloak
  split
  · exact ⟨inv_same_core h rfl rfl rfl rfl rfl rfl (inv_tele h) rfl, rfl⟩
  · split
    · exact ⟨inv_same_core h rfl rfl rfl rfl rfl rfl (inv_tele h) rfl, rfl⟩
    · exact ⟨h, rfl⟩

theorem tickCloak_inv {t : Trooper} (h : Inv t) :
    Inv t.tickCloak ∧ t.tickCloak.lvl = t.lvl := by
  unfold Trooper.tickCloak
  split
  · have h' : Inv ({ t with cloakEnergy := 0 } : Trooper) :=
      inv_same_core h rfl rfl rfl rfl rfl rfl (inv_tele h) rfl
    obtain ⟨i1, i2⟩ := cloak_inv h' false
    exact ⟨i1, i2⟩
  · exact ⟨inv_same_core h rfl rfl rfl rfl rfl rfl (inv_tele h) rfl, rfl⟩

theorem updateEnergy_inv {t : Trooper} (h : Inv t) :
    Inv t.updateEnergy ∧ t.updateEnergy.lvl = t.lvl := by
  unfold Trooper.updateEnergy
  split
  · obtain ⟨i1, i2⟩ := tickTeleport_inv h
    obtain ⟨j1, j2⟩ := tickCloak_inv i1
    exact ⟨j1, j2.trans i2⟩
  · split
    · obtain ⟨i1, i2⟩ := tickTeleport_inv h
      exact ⟨i1, i2⟩
    · exact ⟨h, rfl⟩

theorem resetEnergy_inv {t : Trooper} (h : Inv t) :
    Inv t.resetEnergy ∧ t.resetEnergy.lvl = t.lvl :=
  ⟨inv_same_core h rfl rfl rfl rfl rfl rfl (le_refl _) rfl, rfl⟩

theorem addCloakEnergy_inv {t : Trooper} (h : Inv t) :
    Inv t.addCloakEnergy ∧ t.addCloakEnergy.lvl = t.lvl :=
  ⟨inv_same_core h rfl rfl rfl rfl rfl rfl (inv_tele h) rfl, rfl⟩

theorem increaseCloak_inv {t : Trooper} (h : Inv t) :
    Inv t.increaseCloak ∧ t.increaseCloak.lvl = t.lvl :=
  ⟨inv_same_core h rfl rfl rfl rfl rfl rfl (inv_tele h) rfl, rfl⟩

theorem monitorHealth_inv {t : Trooper} (h : Inv t) (id : String) :
    Inv (t.monitorHealth id) ∧ (t.monitorHealth id).lvl = t.lvl := by
  unfold Trooper.monitorHealth
  split
  · exact ⟨h, rfl⟩
  · rename_i hid
    refine ⟨⟨h.1, h.2.1, h.2.2.1, h.2.2.2.1, h.2.2.2.2.1, h.2.2.2.2.2.1,
      h.2.2.2.2.2.2.1, h.2.2.2.2.2.2.2.1, h.2.2.2.2.2.2.2.2.1, ?_⟩, rfl⟩
    show (t.hms ++ [id]).Nodup
    refine List.Nodup.append (inv_nodup h) (List.nodup_singleton id) ?_
    intro x hx1 hx2
    rw [List.mem_singleton] at hx2
    subst hx2
    exact hid hx1

theorem ignoreHealth_inv {t : Trooper} (h : Inv t) (id : String) :
    Inv (t.ignoreHealth id) ∧ (t.ignoreHealth id).lvl = t.lvl := by
  refine ⟨⟨h.1, h.2.1, h.2.2.1, h.2.2.2.1, h.2.2.2.2.1, h.2.2.2.2.2.1,
    h.2.2.2.2.2.2.1, h.2.2.2.2.2.2.2.1, h.2.2.2.2.2.2.2.2.1, ?_⟩, rfl⟩
  show (t.hms.filter (· ≠ id)).Nodup
  exact List.Nodup.filter _ (inv_nodup h)

theorem attach_inv {t : Trooper} (h : Inv t) :
    Inv t.attach ∧ t.attach.lvl = t.lvl := by
  rcases Nat.lt_or_ge t.healthSum (capSumNat t.lvl) with hlt | hge
  · cases hneo : t.neo with
    | true =>
      have hfull := inv_neo_full h hneo
      omega
    | false =>
      obtain ⟨i1, i2, _⟩ := attach_step h hneo hlt
      exact ⟨i1, i2⟩
  · have heq : t.healthSum = capSumNat t.lvl := le_antisymm (inv_health_le h) hge
    rw [attach_full_noop h heq]
    exact ⟨h, rfl⟩

theorem detach_inv {t : Trooper} (h : Inv t) :
    Inv t.detach ∧ t.detach.lvl = t.lvl := by
  cases hneo : t.neo with
  | true =>
    obtain ⟨i1, i2, _⟩ := detach_neo_spec h hneo
    exact ⟨i1, i2⟩
  | false =>
    by_cases hz : t.healthSum = 0
    · rw [detach_zero_noop hneo hz]
      exact ⟨h, rfl⟩
    · obtain ⟨i1, i2, _⟩ := detach_step h hneo (by omega)
      exact ⟨i1, i2⟩

theorem applyOp_inv {t u : Trooper} (h : Inv t) {op : Op}
    (happ : applyOp t op = some u) : Inv u ∧ u.lvl = t.lvl := by
  cases op with
  | attach =>
    have h' : some t.attach = some u := happ
    injection h' with hu
    rw [← hu]
    exact attach_inv h
  | detach =>
    have h' : some t.detach = some u := happ
    injection h' with hu
    rw [← hu]
    exact detach_inv h
  | detachCores loss =>
    have h' : some (t.detachCores loss) = some u := happ
    injection h' with hu
    rw [← hu]
    exact detachCores_inv h loss
  | reset =>
    have h' : t.reset = some u := happ
    by_cases hlvl : 1 ≤ t.lvl
    · obtain ⟨v, hv, i1, i2, _⟩ := reset_some h hlvl
      rw [hv] at h'
      injection h' with hu
      rw [← hu]
      exact ⟨i1, i2⟩
    · have h0 : t.lvl = 0 := by omega
      rw [reset_none h h0] at h'
      exact Option.noConfusion h'
  | teleport =>
    have h' : some (t.teleport).1 = some u := happ
    injection h' with hu
    rw [← hu]
    exact teleport_inv h
  | updateEnergy =>
    have h' : some t.updateEnergy = some u := happ
    injection h' with hu
    rw [← hu]
    exact updateEnergy_inv h
  | resetEnergy =>
    have h' : some t.resetEnergy = some u := happ
    injection h' with hu
    rw [← hu]
    exact resetEnergy_inv h
  | addCloakEnergy =>
    have h' : some t.addCloakEnergy = some u := happ
    injection h' with hu
    rw [← hu]
    exact addCloakEnergy_inv h
  | cloak b =>
    have h' : some (t.cloak b) = some u := happ
    injection h' with hu
    rw [← hu]
    exact cloak_inv h b
  | increaseCloak =>
    have h' : some t.increaseCloak = some u := happ
    injection h' with hu
    rw [← hu]
    exact increaseCloak_inv h
  | monitorHealth id =>
    have h' : some (t.monitorHealth id) = some u := happ
    injection h' with hu
    rw [← hu]
    exact monitorHealth_inv h id
  | ignoreHealth id =>
    have h' : some (t.ignoreHealth id) = some u := happ
    injection h' with hu
    rw [← hu]
    exact ignoreHealth_inv h id

theorem runOps_inv : ∀ (ops : List Op) {t u : Trooper}, Inv t →
    runOps t ops = some u → Inv u ∧ u.lvl = t.lvl := by
  intro ops
  induction ops with
  | nil =>
    intro t u h hrun
    have h' : some t = some u := hrun
    injection h' with hu
    rw [← hu]
    exact ⟨h, rfl⟩
  | cons op rest ih =>
    intro t u h hrun
    cases happ : applyOp t op with
    | none =>
      unfold runOps at hrun
      rw [happ] at hrun
      exact Option.noConfusion hrun
    | some t' =>
      unfold runOps at hrun
      rw [happ] at hrun
      have hrun' : runOps t' rest = some u := hrun
      obtain ⟨i1, i2⟩ := applyOp_inv h happ
      obtain ⟨j1, j2⟩ := ih i1 hrun'
      exact ⟨j1, j2.trans i2⟩

theorem reachable_inv {L : Nat} {t : Trooper} (hr : Reachable L t) :
    Inv t ∧ t.lvl = L := by
  obtain ⟨ops, hops⟩ := hr
  obtain ⟨i1, i2⟩ := runOps_inv ops (mkTrooper_inv L) hops
  exact ⟨i1, i2⟩

theorem runAD_inv : ∀ (ops : List ADOp) {t : Trooper}, Inv t →
    Inv (runAD t ops) ∧ (runAD t ops).lvl = t.lvl := by
  intro ops
  induction ops with
  | nil =>
    intro t h
    exact ⟨h, rfl⟩
  | cons op rest ih =>
    intro t h
    cases op with
    | attach =>
      show Inv (runAD t.attach rest) ∧ (runAD t.attach rest).lvl = t.lvl
      obtain ⟨i1, i2⟩ := attach_inv h
      obtain ⟨j1, j2⟩ := ih i1
      exact ⟨j1, j2.trans i2⟩
    | detach =>
      show Inv (runAD t.detach rest) ∧ (runAD t.detach rest).lvl = t.lvl
      obtain ⟨i1, i2⟩ := detach_inv h
      obtain ⟨j1, j2⟩ := ih i1
      exact ⟨j1, j2.trans i2⟩

theorem runAD_append : ∀ (l1 l2 : List ADOp) (t : Trooper),
    runAD t (l1 ++ l2) = runAD (runAD t l1) l2 := by
  intro l1
  induction l1 with
  | nil => intro l2 t; rfl
  | cons op rest ih =>
    intro l2 t
    cases op with
    | attach =>
      show runAD t.attach (rest ++ l2) = runAD (runAD t.attach rest) l2
      exact ih l2 t.attach
    | detach =>
      show runAD t.detach (rest ++ l2) = runAD (runAD t.detach rest) l2
      exact ih l2 t.detach

theorem attachN_below (n : Nat) : ∀ {t : Trooper}, Inv t → t.neo = false →
    t.healthSum + n ≤ capSumNat t.lvl →
    ((t.healthSum : Int) + (n : Int) < hmax t.lvl) →
    Inv (runAD t (adReplicate n ADOp.attach)) ∧
      (runAD t (adReplicate n ADOp.attach)).lvl = t.lvl ∧
      (runAD t (adReplicate n ADOp.attach)).healthSum = t.healthSum + n ∧
      (runAD t (adReplicate n ADOp.attach)).neo = false := by
  induction n with
  | zero =>
    intro t h hneo _ _
    exact ⟨h, rfl, rfl, hneo⟩
  | succ n ih =>
    intro t h hneo hle hlt
    have hlt1 : t.healthSum < capSumNat t.lvl := by omega
    obtain ⟨i1, i2, i3, i4, _⟩ := attach_step h hneo hlt1
    have hneo' : t.attach.neo = false := by
      rw [i4]
      rw [decide_eq_false]
      intro hc
      omega
    show Inv (runAD t.attach (adReplicate n ADOp.attach)) ∧
      (runAD t.attach (adReplicate n ADOp.attach)).lvl = t.lvl ∧
      (runAD t.attach (adReplicate n ADOp.attach)).healthSum
        = t.healthSum + (n + 1) ∧
      (runAD t.attach (adReplicate n ADOp.attach)).neo = false
    obtain ⟨j1, j2, j3, j4⟩ := ih i1 hneo' (by rw [i3, i2]; omega)
      (by rw [i3, i2]; push_cast; omega)
    refine ⟨j1, j2.trans i2, ?_, j4⟩
    rw [j3, i3]
    omega

theorem attachN_noop (n : Nat) : ∀ {t : Trooper}, Inv t →
    t.healthSum = capSumNat t.lvl → runAD t (adReplicate n ADOp.attach) = t := by
  induction n with
  | zero => intro t _ _; rfl
  | succ n ih =>
    intro t h hfull
    show runAD t.attach (adReplicate n ADOp.attach) = t
    rw [attach_full_noop h hfull]
    exact ih h hfull

theorem attachN_fill (n : Nat) {t : Trooper} (h : Inv t) (hneo : t.neo = false)
    (hlvl : 1 ≤ t.lvl) (hn : 1 ≤ n)
    (hfill : t.healthSum + n = capSumNat t.lvl) :
    Inv (runAD t (adReplicate n ADOp.attach)) ∧
      (runAD t (adReplicate n ADOp.attach)).lvl = t.lvl ∧
      (runAD t (adReplicate n ADOp.attach)).healthSum = capSumNat t.lvl ∧
      (runAD t (adReplicate n ADOp.attach)).neo = true := by
  obtain ⟨m, rfl⟩ : ∃ m, n = m + 1 := ⟨n - 1, by omega⟩
  have hsplit : adReplicate (m + 1) ADOp.attach
      = adReplicate m ADOp.attach ++ [ADOp.attach] := List.replicate_succ' m _
  have hcc := capSumNat_cast hlvl
  rw [hsplit, runAD_append]
  obtain ⟨i1, i2, i3, i4⟩ := attachN_below m h hneo (by omega) (by push_cast; omega)
  obtain ⟨k1, k2, k3, k4, _⟩ := attach_step i1 i4 (by rw [i3, i2]; omega)
  have hstep : runAD (runAD t (adReplicate m ADOp.attach)) [ADOp.attach]
      = (runAD t (adReplicate m ADOp.attach)).attach := rfl
  rw [hstep]
  refine ⟨k1, k2.trans i2, ?_, ?_⟩
  · rw [k3, i3]
    omega
  · rw [k4]
    rw [decide_eq_true]
    rw [i3, i2]
    push_cast
    omega

theorem detachN_run (n : Nat) : ∀ {t : Trooper}, Inv t → t.neo = false →
    Inv (runAD t (adReplicate n ADOp.detach)) ∧
      (runAD t (adReplicate n ADOp.detach)).lvl = t.lvl ∧
      (runAD t (adReplicate n ADOp.detach)).healthSum = t.healthSum - n ∧
      (runAD t (adReplicate n ADOp.detach)).neo = false := by
  induction n with
  | zero =>
    intro t h hneo
    exact ⟨h, rfl, rfl, hneo⟩
  | succ n ih =>
    intro t h hneo
    show Inv (runAD t.detach (adReplicate n ADOp.detach)) ∧
      (runAD t.detach (adReplicate n ADOp.detach)).lvl = t.lvl ∧
      (runAD t.detach (adReplicate n ADOp.detach)).healthSum
        = t.healthSum - (n + 1) ∧
      (runAD t.detach (adReplicate n ADOp.detach)).neo = false
    by_cases hz : t.healthSum = 0
    · rw [detach_zero_noop hneo hz]
      obtain ⟨j1, j2, j3, j4⟩ := ih h hneo
      refine ⟨j1, j2, ?_, j4⟩
      rw [j3]
      omega
    · obtain ⟨i1, i2, i3, i4, _⟩ := detach_step h hneo (by omega)
      obtain ⟨j1, j2, j3, j4⟩ := ih i1 i4
      refine ⟨j1, j2.trans i2, ?_, j4⟩
      rw [j3]
      omega

theorem inv_zero_bits {t : Trooper} (h : Inv t) (hneo : t.neo = false)
    (hz : t.healthSum = 0) : t.bits = emptyBits t.lvl := by
  have hwfb := inv_wf_bits h hneo
  have hz' : sumC t.bits = 0 := hz
  have hzb := all_zero_of_sumC hz'
  have hid : t.bits.map (fun b => b.reset 0) = t.bits := by
    conv_rhs => rw [← List.map_id t.bits]
    exact List.map_congr_left fun b hb => (box_wf_zero_eq (hwfb b hb) (hzb b hb)).symm
  rw [← hid]
  exact h.2.2.1

theorem inv_lvl0_bits {t : Trooper} (h : Inv t) (h0 : t.lvl = 0) :
    t.bits = [Box.cube (cubeAt t.healthSum)] := by
  have hneo := inv_lvl0 h h0
  have hwfb := inv_wf_bits h hneo
  have hproj : t.bits.map (fun b => b.reset 0) = emptyBits 0 := by
    have h1 := h.2.2.1
    rw [h0] at h1
    exact h1
  have hemp : emptyBits 0 = [Box.cube (cubeAt 0)] := by decide
  rw [hemp] at hproj
  cases hbits : t.bits with
  | nil =>
    rw [hbits] at hproj
    exact absurd hproj (by simp)
  | cons b rest =>
    rw [hbits] at hproj
    simp only [List.map_cons] at hproj
    have h1 : b.reset 0 = Box.cube (cubeAt 0) :=
      ((List.cons.injEq _ _ _ _).mp hproj).1
    have h2 : rest.map (fun b => b.reset 0) = [] :=
      ((List.cons.injEq _ _ _ _).mp hproj).2
    have hrest : rest = [] := by
      cases rest with
      | nil => rfl
      | cons x xs => simp at h2
    subst hrest
    cases b with
    | panel p =>
      exfalso
      have h1' : Box.panel (p.reset 0) = Box.cube (cubeAt 0) := h1
      exact Box.noConfusion h1'
    | cube c =>
      have hcwf : c.wf := hwfb (Box.cube c)
        (by rw [hbits]; exact List.mem_cons_self _ _)
      have hhs : t.healthSum = c.ccnt := by
        show sumC t.bits = c.ccnt
        rw [hbits, sumC_cons]
        show (Box.cube c).ccnt + 0 = c.ccnt
        rw [box_ccnt_cube]
        omega
      rw [hhs]
      exact congrArg (fun x => [Box.cube x]) hcwf.2

theorem demergeBits_counts {b0 : Box} {rest : List Box}
    (hpre0 : b0.preWf) (hpre : ∀ b ∈ rest, b.preWf) :
    (demergeBits (b0 :: rest)).map Box.ccnt
      = (b0.cmax - min 1 b0.cmax) :: rest.map Box.cmax := by
  have hred : demergeBits (b0 :: rest)
      = ((b0.reset ((b0.cmax : Int))).detach).1
          :: rest.map (fun b => b.reset ((b.cmax : Int))) := by
    unfold demergeBits
    rw [List.map_cons]
  obtain ⟨hr0wf, hr0c, _⟩ := box_reset_spec hpre0 ((b0.cmax : Int))
  rw [clampN_coe (le_refl b0.cmax)] at hr0c
  have htailc : (rest.map (fun b => b.reset ((b.cmax : Int)))).map Box.ccnt
      = rest.map Box.cmax := by
    rw [List.map_map]
    refine List.map_congr_left fun b hb => ?_
    obtain ⟨_, w2, _⟩ := box_reset_spec (hpre b hb) ((b.cmax : Int))
    show (b.reset ((b.cmax : Int))).ccnt = b.cmax
    rw [w2, clampN_coe (le_refl b.cmax)]
  rw [hred, List.map_cons, htailc]
  by_cases hc : 0 < b0.cmax
  · obtain ⟨_, _, d3, _⟩ := box_detach_pos hr0wf (by omega)
    rw [d3, hr0c]
    congr 1
    omega
  · have hdz := box_detach_of_zero (b := b0.reset ((b0.cmax : Int))) (by omega)
    have hd1 : ((b0.reset ((b0.cmax : Int))).detach).1
        = b0.reset ((b0.cmax : Int)) := by rw [hdz]
    rw [hd1, hr0c]
    congr 1
    omega

theorem box_trashedFull_noVisuals {b : Box} (h : b.trashedFull) : b.noVisuals := by
  cases b with
  | cube c => exact h.2.2
  | panel p =>
    refine ⟨h.2.2.1, ?_⟩
    intro c hc
    rw [h.2.2.2 c hc]
    rfl

theorem box_reset_zero_idem (b : Box) : (b.reset 0).reset 0 = b.reset 0 := by
  cases b with
  | cube c =>
    show Box.cube ((c.reset 0).reset 0) = Box.cube (c.reset 0)
    rw [cube_reset_zero_idem]
  | panel p =>
    show Box.panel ((p.reset 0).reset 0) = Box.panel (p.reset 0)
    rw [panel_reset_zero, panel_reset_zero, wipedPanel_idem]

theorem emptyBits_sumC (L : Nat) : sumC (emptyBits L) = 0 := by
  unfold sumC emptyBits
  rw [List.map_map]
  apply List.sum_eq_zero
  intro x hx
  obtain ⟨b, _, rfl⟩ := List.mem_map.mp hx
  exact box_ccnt_reset_zero b

theorem emptyTrooper_healthSum (L : Nat) : (emptyTrooper L).healthSum = 0 :=
  emptyBits_sumC L

theorem emptyTrooper_inv (L : Nat) : Inv (emptyTrooper L) := by
  have h := mkTrooper_inv L
  refine ⟨?_, ?_, ?_, ?_, ?_, ?_, ?_, ?_, rfl, ?_⟩
  · intro hc
    have hc' : false = true := hc
    exact Bool.noConfusion hc'
  · intro _ b hb
    obtain ⟨b₀, hb₀, rfl⟩ := List.mem_map.mp hb
    exact (box_reset_spec (box_wf_preWf (buildBits_wf b₀ hb₀)) 0).1
  · show (emptyBits L).map (fun b => b.reset 0) = emptyBits L
    unfold emptyBits
    rw [List.map_map]
    exact List.map_congr_left fun b _ => box_reset_zero_idem b
  · exact h.2.2.2.1
  · exact h.2.2.2.2.1
  · intro _
    rfl
  · intro _ habs
    exfalso
    have h0 : (emptyTrooper L).healthSum = 0 := emptyTrooper_healthSum L
    have habs' : ((emptyTrooper L).healthSum : Int) = hmax L := habs
    have hpos := hmax_pos L
    omega
  · show (0 : Int) ≤ 1000
    norm_num
  · exact List.nodup_nil

theorem headCap_pos {L : Nat} (h : L ≠ 1) : 0 < headCap L := by
  unfold headCap
  split
  · norm_num
  · rename_i h0
    exact Nat.mul_pos (Nat.mul_pos (by omega) (by omega)) (by omega)

theorem round_trip_zero {t : Trooper} (h : Inv t) (hneo : t.neo = false)
    {L k : Nat} (hlvl : t.lvl = L) (hhs : t.healthSum ≤ k) :
    (runAD t (adReplicate k ADOp.detach)).healthSum = 0 ∧
      (runAD t (adReplicate k ADOp.detach)).bits = emptyBits L := by
  obtain ⟨j1, j2, j3, j4⟩ := detachN_run k h hneo
  have hz : (runAD t (adReplicate k ADOp.detach)).healthSum = 0 := by omega
  refine ⟨hz, ?_⟩
  rw [inv_zero_bits j1 j4 hz]
  exact congrArg emptyBits (j2.trans hlvl)

/-! ### The claims -/

/-- C1: for every level `L` and every finite sequence of attach/detach calls
from the constructed trooper, `0 ≤ health() ≤ max` holds, and the summed
cell count never exceeds the constructed capacity. -/
theorem c1_health_bounds (L : Nat) (ops : List ADOp) :
    (0 : Int) ≤ ((runAD (mkTrooper L) ops).health.1 : Int) ∧
    ((runAD (mkTrooper L) ops).health.1 : Int)
      ≤ (runAD (mkTrooper L) ops).health.2.2 ∧
    (runAD (mkTrooper L) ops).healthSum ≤ capSumNat L := by
  obtain ⟨i1, i2⟩ := runAD_inv ops (mkTrooper_inv L)
  have hle := inv_health_le i1
  have hcap := capSumNat_le_hmax (runAD (mkTrooper L) ops).lvl
  refine ⟨Int.natCast_nonneg _, ?_, ?_⟩
  · rw [health_fst, health_thd]
    calc ((runAD (mkTrooper L) ops).healthSum : Int)
        ≤ (capSumNat (runAD (mkTrooper L) ops).lvl : Int) := by exact_mod_cast hle
      _ ≤ hmax (runAD (mkTrooper L) ops).lvl := hcap
  · calc (runAD (mkTrooper L) ops).healthSum
        ≤ capSumNat (runAD (mkTrooper L) ops).lvl := hle
      _ = capSumNat L := by rw [show (runAD (mkTrooper L) ops).lvl = L from i2]

/-- C2 (corrected): from the empty state, `attach^k ; detach^k` returns the
health to 0 and the boxes to the empty visual state for every `k` in
`[0, max L]` — except at level 1 with `k = 64`, where the merge at full
health is undone by a demerge that removes no cell (the first box is the
level-1 panel of capacity 0).  At level 0 the volume is a single cube that
is canonical for its count, so any reachable count has one possible visible
cell set however it was reached. -/
theorem c2_round_trip :
    (∀ (L k : Nat), (k : Int) ≤ hmax L → (L = 1 → k ≠ 64) →
      (runAD (emptyTrooper L)
        (adReplicate k ADOp.attach ++ adReplicate k ADOp.detach)).healthSum = 0 ∧
      (runAD (emptyTrooper L)
        (adReplicate k ADOp.attach ++ adReplicate k ADOp.detach)).bits
        = emptyBits L) ∧
    (∀ ops : List ADOp,
      (runAD (mkTrooper 0) ops).bits
        = [Box.cube (cubeAt (runAD (mkTrooper 0) ops).healthSum)]) := by
  constructor
  · intro L k hk hk1
    have h0 : Inv (emptyTrooper L) := emptyTrooper_inv L
    have hneo0 : (emptyTrooper L).neo = false := rfl
    have hhs0 : (emptyTrooper L).healthSum = 0 := emptyTrooper_healthSum L
    have hlvl0 : (emptyTrooper L).lvl = L := rfl
    have hbr1 : hmax ((emptyTrooper L) : Trooper).lvl = hmax L := rfl
    have hbr2 : capSumNat ((emptyTrooper L) : Trooper).lvl = capSumNat L := rfl
    rw [runAD_append]
    by_cases hL : L = 0
    · subst hL
      have h16 : hmax 0 = 16 := by decide
      have hk16 : k ≤ 16 := by omega
      have hcap8 : capSumNat (0 : Nat) = 8 := by decide
      by_cases hk8 : k ≤ 8
      · obtain ⟨i1, i2, i3, i4⟩ := attachN_below k h0 hneo0 (by omega)
          (by rw [hhs0, hbr1]; push_cast; omega)
        refine round_trip_zero i1 i4 (i2.trans hlvl0) ?_
        omega
      · have hsplit : adReplicate k ADOp.attach
            = adReplicate 8 ADOp.attach ++ adReplicate (k - 8) ADOp.attach := by
          unfold adReplicate
          rw [← List.replicate_add]
          congr 1
          omega
        rw [hsplit, runAD_append]
        obtain ⟨i1, i2, i3, i4⟩ := attachN_below 8 h0 hneo0 (by omega)
          (by rw [hhs0, hbr1]; push_cast; omega)
        have hfull : (runAD (emptyTrooper 0) (adReplicate 8 ADOp.attach)).healthSum
            = capSumNat (runAD (emptyTrooper 0) (adReplicate 8 ADOp.attach)).lvl := by
          have hcap : capSumNat (runAD (emptyTrooper 0)
              (adReplicate 8 ADOp.attach)).lvl = 8 := by
            rw [show (runAD (emptyTrooper 0) (adReplicate 8 ADOp.attach)).lvl
              = ((emptyTrooper 0) : Trooper).lvl from i2, hbr2]
            exact hcap8
          omega
        rw [attachN_noop (k - 8) i1 hfull]
        refine round_trip_zero i1 i4 (i2.trans hlvl0) ?_
        omega
    · have hlvl1 : 1 ≤ L := by omega
      have hcc : (capSumNat L : Int) = hmax L := capSumNat_cast hlvl1
      have hkcap : k ≤ capSumNat L := by omega
      by_cases hkfull : k = capSumNat L
      · have hL1 : L ≠ 1 := by
          intro h1
          subst h1
          have hc64 : capSumNat (1 : Nat) = 64 := by decide
          exact hk1 rfl (by omega)
        have hL2 : 2 ≤ L := by omega
        have hcap16 : 16 ≤ capSumNat L := by
          unfold capSumNat
          rw [if_neg hL]
          omega
        obtain ⟨i1, i2, i3, i4⟩ := attachN_fill k h0 hneo0 hlvl1 (by omega)
          (by rw [hhs0, hbr2]; omega)
        have hsplitd : adReplicate k ADOp.detach
            = ADOp.detach :: adReplicate (k - 1) ADOp.detach := by
          unfold adReplicate
          conv_lhs => rw [show k = (k - 1) + 1 by omega]
          rw [List.replicate_succ]
        rw [hsplitd]
        obtain ⟨d1, d2, d3, d4, _⟩ := detach_neo_spec i1 i4
        have hstep : runAD (runAD (emptyTrooper L) (adReplicate k ADOp.attach))
            (ADOp.detach :: adReplicate (k - 1) ADOp.detach)
            = runAD ((runAD (emptyTrooper L) (adReplicate k ADOp.attach)).detach)
              (adReplicate (k - 1) ADOp.detach) := rfl
        rw [hstep]
        have hhc : headCap ((runAD (emptyTrooper L)
            (adReplicate k ADOp.attach)) : Trooper).lvl = headCap L := by
          rw [show (runAD (emptyTrooper L) (adReplicate k ADOp.attach)).lvl
            = ((emptyTrooper L) : Trooper).lvl from i2]
          rfl
        have hhcp : 0 < headCap L := headCap_pos (by omega)
        refine round_trip_zero d1 d4 ((d2.trans i2).trans hlvl0) ?_
        have hcap' : capSumNat ((runAD (emptyTrooper L)
            (adReplicate k ADOp.attach)) : Trooper).lvl
            = capSumNat L := by
          rw [show (runAD (emptyTrooper L) (adReplicate k ADOp.attach)).lvl
            = ((emptyTrooper L) : Trooper).lvl from i2, hbr2]
        omega
      · have hklt : k < capSumNat L := by omega
        obtain ⟨i1, i2, i3, i4⟩ := attachN_below k h0 hneo0
          (by rw [hhs0, hbr2]; omega)
          (by rw [hhs0, hbr1]; push_cast; omega)
        refine round_trip_zero i1 i4 (i2.trans hlvl0) ?_
        omega
  · intro ops
    obtain ⟨i1, i2⟩ := runAD_inv ops (mkTrooper_inv 0)
    exact inv_lvl0_bits i1 i2

theorem midSumNat_cast {L : Nat} (hL : 1 ≤ L) : (midSumNat L : Int) = hmid L := by
  obtain ⟨m, rfl⟩ : ∃ m, L = m + 1 := ⟨L - 1, by omega⟩
  have hnat : midSumNat (m + 1) = 24 * (m * m) + 24 * m + 8 := by
    unfold midSumNat
    have hexp : (m + 1) ^ 2 = m * m + 2 * m + 1 := by ring
    rw [hexp]
    omega
  rw [hnat, hmid_eq]
  push_cast
  ring

/-- C3 (corrected): an attach that brings health to max merges: the neo piece
appears and no box renders an individual cell visual.  The subsequent detach
demerges by resetting every box to its full capacity and then detaching a
single cell from `bits[0]`: the per-box counts become the capacities with
the first box one short (zero short at level 1, whose first panel has
capacity 0) — not the distribution of one step before the merge. -/
theorem c3_merge_demerge {t : Trooper} (h : Inv t) (hneo : t.neo = false)
    (hlvl : 1 ≤ t.lvl) (hfull : t.healthSum + 1 = capSumNat t.lvl) :
    (t.attach).neo = true ∧
    (∀ b ∈ (t.attach).bits, b.noVisuals) ∧
    ((t.attach).detach).neo = false ∧
    ∃ caps, (buildBits t.lvl).map Box.cmax = headCap t.lvl :: caps ∧
      ((t.attach).detach).bits.map Box.ccnt
        = (headCap t.lvl - min 1 (headCap t.lvl)) :: caps := by
  obtain ⟨i1, i2, i3, i4, _⟩ := attach_step h hneo (by omega)
  have hcc := capSumNat_cast hlvl
  have hneo' : (t.attach).neo = true := by
    rw [i4]
    rw [decide_eq_true]
    omega
  have htf := i1.1 hneo'
  obtain ⟨b0, rest, hbits, hb0⟩ := inv_bits_head i1
  rw [i2] at hb0
  have pre0 : b0.preWf := box_trashedFull_preWf
    (htf b0 (by rw [hbits]; exact List.mem_cons_self b0 rest))
  have prerest : ∀ b ∈ rest, b.preWf := fun b hb => box_trashedFull_preWf
    (htf b (by rw [hbits]; exact List.mem_cons_of_mem _ hb))
  obtain ⟨d1, d2, d3, d4, _⟩ := detach_neo_spec i1 hneo'
  refine ⟨hneo', ?_, d4, rest.map Box.cmax, ?_, ?_⟩
  · intro b hb
    exact box_trashedFull_noVisuals (htf b hb)
  · have hcm := cmaxs_eq_of_proj (inv_proj i1)
    rw [i2, hbits] at hcm
    simp only [List.map_cons] at hcm
    rw [← hcm, hb0]
  · have hdet : ((t.attach).detach).bits = demergeBits (t.attach).bits := by
      rw [detach_neo_eq hneo', demerge_eq]
      rfl
    rw [hdet, hbits, demergeBits_counts pre0 prerest, hb0]

/-- C4 (corrected): on an unmerged volume, detachCores(loss) removes exactly
min(loss, health) cells, clamping at zero health, and notifies every
registered monitor exactly once; loss ≤ 0 changes nothing at all.  On the
merged level-1 volume the demerge iteration removes no cell and the claim
fails (the counterexample leaves health 1 after detachCores(100)). -/
theorem c4_detachCores {t : Trooper} (h : Inv t) (hneo : t.neo = false)
    (loss : Int) :
    (0 < loss →
      ((t.detachCores loss).healthSum : Int)
        = (t.healthSum : Int) - min loss (t.healthSum : Int) ∧
      ((t.healthSum : Int) < loss → (t.detachCores loss).healthSum = 0) ∧
      (t.detachCores loss).hlog = t.hlog ++ t.hms) ∧
    (loss ≤ 0 → t.detachCores loss = t) := by
  constructor
  · intro hpos
    obtain ⟨_, _, j3, _, _, j6, _⟩ := detachCores_spec h hneo hpos
    refine ⟨j3, ?_, j6⟩
    intro hgt
    omega
  · intro hle
    exact detachCores_noop hle

/-- C5 (corrected): for levels at least 1, reset() rebuilds the volume to
exactly `mid(L) = 8L^3 - 8(L-1)^3` cells, the entry count health() reports
as its second component; at level 0 the construction returned before filling
`ipos`, so reset() reads past the empty `ipos` and panics (the `none` case)
instead of restoring the 1-cell entry state. -/
theorem c5_reset {t : Trooper} (h : Inv t) :
    (1 ≤ t.lvl → ∃ u, t.reset = some u ∧
      u.healthSum = midSumNat t.lvl ∧
      (u.healthSum : Int)
        = 8 * (t.lvl : Int) ^ 3 - 8 * ((t.lvl : Int) - 1) ^ 3 ∧
      (u.health.1 : Int) = u.health.2.1) ∧
    (t.lvl = 0 → t.reset = none) := by
  constructor
  · intro hlvl
    obtain ⟨u, hu, _, hulvl, _, hhs, _⟩ := reset_some h hlvl
    have hcast : (u.healthSum : Int) = hmid t.lvl := by
      rw [hhs]
      exact midSumNat_cast hlvl
    refine ⟨u, hu, hhs, ?_, ?_⟩
    · rw [hcast, hmid_eq]
      ring
    · rw [health_fst, health_snd, hcast, hulvl]
  · intro h0
    exact reset_none h h0

/-- C6 (corrected): in every reachable state the neo piece implies full
health, and away from level 1 full health implies the neo piece (a level-1
demerge leaves full health with no neo piece); the center piece exists
exactly when the level is positive — merge() calls addCenter(), so the
center coexists with the neo piece rather than excluding it. -/
theorem c6_neo_center {L : Nat} {t : Trooper} (hr : Reachable L t) :
    (t.neo = true → (t.healthSum : Int) = hmax L) ∧
    (L ≠ 1 → (t.healthSum : Int) = hmax L → t.neo = true) ∧
    (t.center = true ↔ 0 < L) := by
  obtain ⟨h, hlvl⟩ := reachable_inv hr
  refine ⟨?_, ?_, ?_⟩
  · intro hneo
    have hfull := inv_neo_full h hneo
    have hlvl1 : 1 ≤ t.lvl := by
      by_contra hc
      have h0 : t.lvl = 0 := by omega
      have hcon := inv_lvl0 h h0
      rw [hneo] at hcon
      exact Bool.noConfusion hcon
    have hcc := capSumNat_cast hlvl1
    rw [← hlvl]
    omega
  · intro hne habs
    apply inv_hmax_neo h
    · rw [hlvl]
      exact hne
    · rw [hlvl]
      exact habs
  · rw [inv_center h, hlvl]
    exact decide_eq_true_iff

/-- C7: attach() at full health and detach() at zero health leave the whole
trooper unchanged — silent no-ops, no error, no notification. -/
theorem c7_boundary_noops {t : Trooper} (h : Inv t) :
    ((t.health.1 : Int) = t.health.2.2 → t.attach = t) ∧
    (t.health.1 = 0 → t.detach = t) := by
  constructor
  · intro hful
    apply attach_full_noop h
    have h1 : (t.healthSum : Int) = hmax t.lvl := hful
    have h2 := inv_health_le h
    have h3 := capSumNat_le_hmax t.lvl
    omega
  · intro hz
    have hz' : t.healthSum = 0 := hz
    have hneo : t.neo = false := by
      cases hneo : t.neo with
      | false => rfl
      | true =>
        exfalso
        have hfull := inv_neo_full h hneo
        have hcpos : 0 < capSumNat t.lvl := by
          unfold capSumNat
          split <;> omega
        omega
    exact detach_zero_noop hneo hz'

/-- C8: a panel strictly between empty and full delegates an attach (when
the increment does not complete the panel) to a child cube whose count is
minimal over all child cubes — in particular minimal among those not yet
full — and delegates a detach to the first child cube holding a cell. -/
theorem c8_balanced_fill {p : Panel} (hwf : p.wf) (h0 : 0 < p.ccnt)
    (hlt : p.ccnt < p.cmax) :
    (p.ccnt + 1 < p.cmax →
      ∃ l₁ c l₂, p.cubes = l₁ ++ c :: l₂ ∧ c.ccnt < c.cmax ∧
        (∀ c' ∈ p.cubes, c.ccnt ≤ c'.ccnt) ∧
        (p.attach).1
          = { p with
              ccnt := p.ccnt + 1
              cubes := l₁ ++ (c.attach).1 :: l₂ }) ∧
    (∃ l₁ c l₂, p.cubes = l₁ ++ c :: l₂ ∧ 0 < c.ccnt ∧
        (∀ c' ∈ l₁, c'.ccnt = 0) ∧
        (p.detach).1
          = { p with
              ccnt := p.ccnt - 1
              cubes := l₁ ++ (c.detach).1 :: l₂ }) := by
  obtain ⟨hcm, hcw, hst, hsf⟩ := hwf
  have hslab : p.slab = false := panel_slab_false ⟨hcm, hcw, hst, hsf⟩ hlt
  have hsum := hsf hslab
  constructor
  · intro hlt1
    have hex : ∃ c ∈ p.cubes, c.ccnt < 8 := by
      apply exists_lt_of_sum_map_lt (m := 8)
      omega
    have hne : p.cubes ≠ [] := by
      obtain ⟨c, hc, _⟩ := hex
      intro hnil
      rw [hnil] at hc
      simp at hc
    obtain ⟨l₁, c, l₂, hcs, hmin, hclt, heq⟩ :=
      @addCellAux_spec p.cubes 0 8 (fun c _ => Nat.zero_le _) (by simpa using hex)
    have hcmem : c ∈ p.cubes := by
      rw [hcs]
      exact List.mem_append_right _ (List.mem_cons_self c l₂)
    refine ⟨l₁, c, l₂, hcs, ?_, hmin, ?_⟩
    · rw [cube_wf_cmax (hcw c hcmem)]
      omega
    · unfold Panel.attach
      rw [if_pos hlt, if_neg (by omega)]
      rw [panel_addCell_cubes (p := { p with ccnt := p.ccnt + 1 }) hne
        (fun c hc => cube_wf_cmax (hcw c hc))]
      simp only [heq]
  · have hex : ∃ c ∈ p.cubes, 0 < c.ccnt :=
      exists_pos_of_sum_map_pos (by omega)
    obtain ⟨l₁, c, l₂, hcs, hl₁, hc, heq⟩ := removeCellCubes_eq_some hcw hex
    refine ⟨l₁, c, l₂, hcs, hc, hl₁, ?_⟩
    unfold Panel.detach
    rw [if_pos ⟨h0, by omega⟩, if_neg (by omega)]
    unfold Panel.removeCell
    rw [heq]
    rfl

/-- C9: teleport is all-or-nothing: it succeeds (returns true and zeroes the
meter, notifying energy monitors) exactly when teleport energy is at its
maximum, and otherwise fails silently leaving the trooper unchanged. -/
theorem c9_teleport {t : Trooper} (h : Inv t) :
    ((t.teleport).2 = true ↔ t.teleportEnergy = t.temax) ∧
    ((t.teleport).2 = true →
      (t.teleport).1 = Trooper.energyChanged { t with teleportEnergy := 0 }) ∧
    ((t.teleport).2 = false → (t.teleport).1 = t) := by
  have htel := inv_tele h
  unfold Trooper.teleport
  split
  · rename_i hge
    have hge' : t.temax ≤ t.teleportEnergy := hge
    refine ⟨?_, fun _ => rfl, fun hc => Bool.noConfusion hc⟩
    constructor
    · intro _
      omega
    · intro _
      rfl
  · rename_i hlt
    have hlt' : ¬t.temax ≤ t.teleportEnergy := hlt
    refine ⟨?_, fun hc => Bool.noConfusion hc, fun _ => rfl⟩
    constructor
    · intro hc
      exact Bool.noConfusion hc
    · intro heq
      omega

/-- C10 (implicit): monitor discipline at the boundaries — a no-op attach at
full health and a no-op detach at zero health notify no health monitor,
while detachCores with a positive loss notifies each registered monitor
exactly once (appending one log entry per registered key) even when health
is already zero, and detachCores with a non-positive loss notifies none. -/
theorem c10_notifications {t : Trooper} (h : Inv t) :
    ((t.health.1 : Int) = t.health.2.2 → (t.attach).hlog = t.hlog) ∧
    (t.health.1 = 0 → (t.detach).hlog = t.hlog) ∧
    (∀ loss : Int, 0 < loss → (t.detachCores loss).hlog = t.hlog ++ t.hms) ∧
    (∀ loss : Int, loss ≤ 0 → (t.detachCores loss).hlog = t.hlog) := by
  refine ⟨?_, ?_, ?_, ?_⟩
  · intro hful
    have hfull : t.healthSum = capSumNat t.lvl := by
      have h1 : (t.healthSum : Int) = hmax t.lvl := hful
      have h2 := inv_health_le h
      have h3 := capSumNat_le_hmax t.lvl
      omega
    rw [attach_full_noop h hfull]
  · intro hz
    have hz' : t.healthSum = 0 := hz
    have hneo : t.neo = false := by
      cases hneo : t.neo with
      | false => rfl
      | true =>
        exfalso
        have hfull := inv_neo_full h hneo
        have hcpos : 0 < capSumNat t.lvl := by
          unfold capSumNat
          split <;> omega
        omega
    rw [detach_zero_noop hneo hz']
  · intro loss hpos
    unfold Trooper.detachCores
    rw [if_neg (by omega)]
    have hfin := detachLoop_inv
      (if loss > (t.healthSum : Int) then (t.healthSum : Int) else loss).toNat h
    show (Trooper.detachLoop t
        (if loss > (t.healthSum : Int) then (t.healthSum : Int) else loss).toNat).hlog
      ++ (Trooper.detachLoop t
        (if loss > (t.healthSum : Int) then (t.healthSum : Int) else loss).toNat).hms
      = t.hlog ++ t.hms
    rw [hfin.2.2.1, hfin.2.2.2.1]
  · intro loss hle
    rw [detachCores_noop hle]

/-! ### Witnesses and counterexamples -/

/-- C2's round trip instantiated: level 0, three attaches and three
detaches, back to the empty state. -/
theorem c2_round_trip_witness :
    (runAD (emptyTrooper 0)
      (adReplicate 3 ADOp.attach ++ adReplicate 3 ADOp.detach)).healthSum = 0 ∧
    (runAD (emptyTrooper 0)
      (adReplicate 3 ADOp.attach ++ adReplicate 3 ADOp.detach)).bits
      = emptyBits 0 :=
  c2_round_trip.1 0 3 (by decide) (by decide)

set_option maxRecDepth 100000 in
/-- C2's claimed round trip fails at level 1 with `k = 64`: the demerge on
the way down removes no cell, so health ends at 1, not 0. -/
theorem c2_round_trip_counterexample :
    (runAD (emptyTrooper 1)
      (adReplicate 64 ADOp.attach ++ adReplicate 64 ADOp.detach)).healthSum
      = 1 := by
  decide

set_option maxRecDepth 100000 in
/-- C3 instantiated at the level-1 trooper one cell short of full. -/
theorem c3_merge_demerge_witness :
    ((almostFullL1.attach).neo = true ∧
    (∀ b ∈ (almostFullL1.attach).bits, b.noVisuals) ∧
    ((almostFullL1.attach).detach).neo = false ∧
    ∃ caps, (buildBits almostFullL1.lvl).map Box.cmax
        = headCap almostFullL1.lvl :: caps ∧
      ((almostFullL1.attach).detach).bits.map Box.ccnt
        = (headCap almostFullL1.lvl - min 1 (headCap almostFullL1.lvl)) :: caps) :=
  c3_merge_demerge (t := almostFullL1) (by decide) (by decide) (by decide)
    (by decide)

set_option maxRecDepth 100000 in
/-- C3's claimed symmetry fails: at level 1, after 63 attaches and the
merging 64th, one detach leaves per-box counts different from the counts one
step before the merge. -/
theorem c3_merge_demerge_counterexample :
    ¬((runAD (emptyTrooper 1)
        (adReplicate 63 ADOp.attach ++ [ADOp.attach, ADOp.detach])).bits.map
          Box.ccnt
      = (runAD (emptyTrooper 1) (adReplicate 63 ADOp.attach)).bits.map
          Box.ccnt) := by
  decide

set_option maxRecDepth 100000 in
/-- C4 instantiated: a bulk loss of 20 on the freshly built level-1 trooper
(8 cells) clamps to zero health. -/
theorem c4_detachCores_witness :
    ((mkTrooper 1).detachCores 20).healthSum = 0 :=
  ((c4_detachCores (t := mkTrooper 1) (by decide) (by decide) 20).1
    (by norm_num)).2.1 (by decide)

set_option maxRecDepth 100000 in
/-- C4's claim fails on the merged level-1 trooper: detachCores(100) from
health 64 ends at health 1, not 0, because the demerge iteration removes no
cell. -/
theorem c4_detachCores_counterexample :
    ((runAD (emptyTrooper 1)
      (adReplicate 64 ADOp.attach)).detachCores 100).healthSum = 1 := by
  decide

set_option maxRecDepth 100000 in
/-- C5 instantiated at the freshly built level-2 trooper. -/
theorem c5_reset_witness :
    ∃ u, (mkTrooper 2).reset = some u ∧
      u.healthSum = midSumNat (mkTrooper 2).lvl ∧
      (u.healthSum : Int) = 8 * ((mkTrooper 2).lvl : Int) ^ 3
        - 8 * (((mkTrooper 2).lvl : Int) - 1) ^ 3 ∧
      (u.health.1 : Int) = u.health.2.1 :=
  (c5_reset (t := mkTrooper 2) (by decide)).1 (by decide)

/-- C5's claim fails at level 0: reset() reads `ipos[0]` of the empty
`ipos` slice — a Go panic, the `none` case of the model. -/
theorem c5_reset_counterexample : (mkTrooper 0).reset = none := by decide

set_option maxRecDepth 100000 in
/-- C6 instantiated at the freshly built level-1 trooper. -/
theorem c6_neo_center_witness :
    ((mkTrooper 1).neo = true → ((mkTrooper 1).healthSum : Int) = hmax 1) ∧
    ((1 : Nat) ≠ 1 → ((mkTrooper 1).healthSum : Int) = hmax 1 →
      (mkTrooper 1).neo = true) ∧
    ((mkTrooper 1).center = true ↔ 0 < 1) :=
  c6_neo_center (L := 1) (t := mkTrooper 1) ⟨[], rfl⟩

set_option maxRecDepth 100000 in
/-- C6's claimed exclusivity fails: after 56 attaches at level 1 the neo and
center pieces coexist, and one further detach leaves full health with no neo
piece. -/
theorem c6_neo_center_counterexample :
    (runAD (mkTrooper 1) (adReplicate 56 ADOp.attach)).neo = true ∧
    (runAD (mkTrooper 1) (adReplicate 56 ADOp.attach)).center = true ∧
    ((runAD (mkTrooper 1) (adReplicate 56 ADOp.attach)).detach).neo = false ∧
    (((runAD (mkTrooper 1) (adReplicate 56 ADOp.attach)).detach).healthSum : Int)
      = hmax 1 :=
  ⟨by decide, by decide, by decide, by decide⟩

set_option maxRecDepth 100000 in
/-- C7 instantiated: attach on the full merged level-1 trooper and detach on
the empty level-0 trooper change nothing. -/
theorem c7_boundary_noops_witness :
    fullNeoL1.attach = fullNeoL1 ∧
    (emptyTrooper 0).detach = emptyTrooper 0 :=
  ⟨(c7_boundary_noops (t := fullNeoL1) (by decide)).1 (by decide),
   (c7_boundary_noops (t := emptyTrooper 0) (by decide)).2 (by decide)⟩

/-- C8 instantiated at the half-filled face panel of a level-2 trooper. -/
theorem c8_balanced_fill_witness :
    ((buildPanel 2 0).ccnt + 1 < (buildPanel 2 0).cmax →
      ∃ l₁ c l₂, (buildPanel 2 0).cubes = l₁ ++ c :: l₂ ∧ c.ccnt < c.cmax ∧
        (∀ c' ∈ (buildPanel 2 0).cubes, c.ccnt ≤ c'.ccnt) ∧
        ((buildPanel 2 0).attach).1
          = { buildPanel 2 0 with
              ccnt := (buildPanel 2 0).ccnt + 1
              cubes := l₁ ++ (c.attach).1 :: l₂ }) ∧
    (∃ l₁ c l₂, (buildPanel 2 0).cubes = l₁ ++ c :: l₂ ∧ 0 < c.ccnt ∧
        (∀ c' ∈ l₁, c'.ccnt = 0) ∧
        ((buildPanel 2 0).detach).1
          = { buildPanel 2 0 with
              ccnt := (buildPanel 2 0).ccnt - 1
              cubes := l₁ ++ (c.detach).1 :: l₂ }) :=
  c8_balanced_fill (p := buildPanel 2 0) (by decide) (by decide) (by decide)

/-- C9 instantiated: teleport fails and changes nothing on the fresh level-0
trooper (meter at 0), and succeeds from a full meter. -/
theorem c9_teleport_witness :
    ((mkTrooper 0).teleport).1 = mkTrooper 0 ∧
    (((mkTrooper 0).resetEnergy).teleport).2 = true :=
  ⟨(c9_teleport (t := mkTrooper 0) (by decide)).2.2 (by decide),
   (c9_teleport (t := (mkTrooper 0).resetEnergy) (by decide)).1.mpr (by decide)⟩

/-- C10 instantiated: a positive bulk loss on a trooper with one registered
monitor logs exactly one notification, even at zero health. -/
theorem c10_notifications_witness :
    (((emptyTrooper 0).monitorHealth "hud").detachCores 5).hlog
      = ((emptyTrooper 0).monitorHealth "hud").hlog
        ++ ((emptyTrooper 0).monitorHealth "hud").hms :=
  (c10_notifications (t := (emptyTrooper 0).monitorHealth "hud")
    (by decide)).2.2.1 5 (by norm_num)

end Bampf
